import Mathlib

/-!
Verification development for the `sexp_parser` repository
(`sexp_parser.py`): a shallow embedding in Lean 4 of the tokenizer
(`parseSexp`), the tree model (`Sexpression`, `SexpList`,
`SexpValueDict`), the schema dispatch engine (`SexpParser.__init__`),
the generic value coercion (`parseDefault`), the exporter (`_export`)
and the error query (`_getError`), together with theorems checking the
specification's claims against this embedding.

Conventions of the embedding:
* Python exceptions are modelled with `Except String` (or an
  `Option String` error component where the source mutates state
  before raising, so that partial mutation is observable, exactly as
  in Python).  Error message texts are canonical short strings, not
  byte-exact copies of Python's `str(e)`.
* Python's dynamic values are modelled by closed inductive types
  covering every value the embedded code can actually build.
* Python `float` objects are represented by the literal string they
  were parsed from; the text `str(float)` would print is abstracted
  as a parameter (`frepr`) wherever it matters, since no claim
  depends on a concrete float printing.
-/

namespace SP

instance {ε α : Type} [DecidableEq ε] [DecidableEq α] : DecidableEq (Except ε α)
  | .ok a, .ok b => decidable_of_iff (a = b) (by simp)
  | .ok _, .error _ => isFalse (by simp)
  | .error _, .ok _ => isFalse (by simp)
  | .error a, .error b => decidable_of_iff (a = b) (by simp)

/-! ## Tokens: the list-based S-expression produced by `parseSexp`

A Python token is either an atom (a string, quotes kept verbatim), an
`int` (the synthesized line-number element), or a list of tokens. -/

inductive Tok where
  | num (n : Nat)
  | atom (s : String)
  | list (xs : List Tok)

mutual

def tokBeq : Tok → Tok → Bool
  | .num a, .num b => a == b
  | .atom a, .atom b => a == b
  | .list xs, .list ys => tokBeqs xs ys
  | _, _ => false

def tokBeqs : List Tok → List Tok → Bool
  | [], [] => true
  | x :: xs, y :: ys => tokBeq x y && tokBeqs xs ys
  | _, _ => false

end

mutual

theorem tokBeq_iff : ∀ (a b : Tok), tokBeq a b = true ↔ a = b
  | .num a, .num b => by simp [tokBeq]
  | .num _, .atom _ => by simp [tokBeq]
  | .num _, .list _ => by simp [tokBeq]
  | .atom _, .num _ => by simp [tokBeq]
  | .atom a, .atom b => by simp [tokBeq]
  | .atom _, .list _ => by simp [tokBeq]
  | .list _, .num _ => by simp [tokBeq]
  | .list _, .atom _ => by simp [tokBeq]
  | .list xs, .list ys => by simp [tokBeq, tokBeqs_iff xs ys]

theorem tokBeqs_iff : ∀ (xs ys : List Tok), tokBeqs xs ys = true ↔ xs = ys
  | [], [] => by simp [tokBeqs]
  | [], _ :: _ => by simp [tokBeqs]
  | _ :: _, [] => by simp [tokBeqs]
  | x :: xs, y :: ys => by
      simp [tokBeqs, tokBeq_iff x y, tokBeqs_iff xs ys]

end

instance : DecidableEq Tok := fun a b =>
  decidable_of_iff (tokBeq a b = true) (tokBeq_iff a b)

/-- Keys of stored values (`Sexpression._key` after storage): a string,
an auto-assigned or line-number integer, or — pathologically — a whole
token list (Python would let a list be a `_key`; such a key is
unhashable and can never be stored in a `SexpValueDict`). -/
inductive SKey where
  | ks (s : String)
  | ki (n : Nat)
  | kt (t : Tok)
deriving DecidableEq

/-- Scalar values produced by the generic coercion in `parseDefault`:
`int`, `float` (represented by its source literal), or the literal
string. -/
inductive SVal where
  | vint (n : Int)
  | vfloat (s : String)
  | vstr (s : String)
deriving DecidableEq

/-- The `_value` of a plain `Sexpression` built by the embedded code:
`None`, a single scalar, or a Python list of scalars. -/
inductive EVal where
  | enone
  | escalar (v : SVal)
  | elist (vs : List SVal)
deriving DecidableEq

/-- An entry of `SexpParser._err`: `(str(e), entry)` or
`(str(e), entry, data)` — the parent token `data` is included exactly
when the offending entry is an atom (a `basestring`). -/
structure SErr where
  msg : String
  tok : Tok
  parent : Option Tok
deriving DecidableEq

/-- The object model: `Sexpression` (plain key/value), `SexpList`
(same-key collection), `SexpParser` (key, `SexpValueDict` contents
with its positional counter `_idx`, and local `_err` list), and
`SexpDefaultTrue` (whose key is always a string, enforced by its
constructor). `SexpBool` never arises in the embedded code paths (the
`SexpBool(self, sexp)` call in `parseDefault` always raises and is
swallowed), so it is not modelled. -/
inductive Sexp where
  | expr (key : Option SKey) (value : EVal)
  | slist (key : Option SKey) (items : List Sexp)
  | parserNode (key : Option SKey) (entries : List (SKey × Sexp)) (idx : Nat) (errs : List SErr)
  | dtrue (key : String) (value : Bool)

mutual

def sexpBeq : Sexp → Sexp → Bool
  | .expr k v, .expr k' v' => k == k' && v == v'
  | .slist k xs, .slist k' ys => k == k' && sexpBeqs xs ys
  | .parserNode k e i er, .parserNode k' e' i' er' =>
      k == k' && sexpBeqKVs e e' && i == i' && er == er'
  | .dtrue k v, .dtrue k' v' => k == k' && v == v'
  | _, _ => false

def sexpBeqs : List Sexp → List Sexp → Bool
  | [], [] => true
  | x :: xs, y :: ys => sexpBeq x y && sexpBeqs xs ys
  | _, _ => false

def sexpBeqKVs : List (SKey × Sexp) → List (SKey × Sexp) → Bool
  | [], [] => true
  | (k, v) :: xs, (k', v') :: ys => k == k' && sexpBeq v v' && sexpBeqKVs xs ys
  | _, _ => false

end

mutual

theorem sexpBeq_iff : ∀ (a b : Sexp), sexpBeq a b = true ↔ a = b
  | .expr _ _, .expr _ _ => by simp [sexpBeq]
  | .expr _ _, .slist _ _ => by simp [sexpBeq]
  | .expr _ _, .parserNode _ _ _ _ => by simp [sexpBeq]
  | .expr _ _, .dtrue _ _ => by simp [sexpBeq]
  | .slist _ _, .expr _ _ => by simp [sexpBeq]
  | .slist _ xs, .slist _ ys => by simp [sexpBeq, sexpBeqs_iff xs ys]
  | .slist _ _, .parserNode _ _ _ _ => by simp [sexpBeq]
  | .slist _ _, .dtrue _ _ => by simp [sexpBeq]
  | .parserNode _ _ _ _, .expr _ _ => by simp [sexpBeq]
  | .parserNode _ _ _ _, .slist _ _ => by simp [sexpBeq]
  | .parserNode _ e _ _, .parserNode _ e' _ _ => by
      simp [sexpBeq, sexpBeqKVs_iff e e', and_assoc]
  | .parserNode _ _ _ _, .dtrue _ _ => by simp [sexpBeq]
  | .dtrue _ _, .expr _ _ => by simp [sexpBeq]
  | .dtrue _ _, .slist _ _ => by simp [sexpBeq]
  | .dtrue _ _, .parserNode _ _ _ _ => by simp [sexpBeq]
  | .dtrue _ _, .dtrue _ _ => by simp [sexpBeq]

theorem sexpBeqs_iff : ∀ (xs ys : List Sexp), sexpBeqs xs ys = true ↔ xs = ys
  | [], [] => by simp [sexpBeqs]
  | [], _ :: _ => by simp [sexpBeqs]
  | _ :: _, [] => by simp [sexpBeqs]
  | x :: xs, y :: ys => by simp [sexpBeqs, sexpBeq_iff x y, sexpBeqs_iff xs ys]

theorem sexpBeqKVs_iff : ∀ (xs ys : List (SKey × Sexp)), sexpBeqKVs xs ys = true ↔ xs = ys
  | [], [] => by simp [sexpBeqKVs]
  | [], _ :: _ => by simp [sexpBeqKVs]
  | _ :: _, [] => by simp [sexpBeqKVs]
  | (k, v) :: xs, (k', v') :: ys => by
      simp [sexpBeqKVs, sexpBeq_iff v v', sexpBeqKVs_iff xs ys, Prod.ext_iff, and_assoc]

end

instance : DecidableEq Sexp := fun a b =>
  decidable_of_iff (sexpBeq a b = true) (sexpBeq_iff a b)

namespace Sexp

/-- `self._key`. -/
def key : Sexp → Option SKey
  | .expr k _ => k
  | .slist k _ => k
  | .parserNode k _ _ _ => k
  | .dtrue k _ => some (.ks k)

/-- Assignment `self._key = k` (used by `SexpValueDict.add` for
un-named values; never applied to a `SexpDefaultTrue`, whose key is
always present). -/
def withKey (s : Sexp) (k : SKey) : Sexp :=
  match s with
  | .expr _ v => .expr (some k) v
  | .slist _ items => .slist (some k) items
  | .parserNode _ e i er => .parserNode (some k) e i er
  | .dtrue ks v =>
      match k with
      | .ks s => .dtrue s v
      | _ => .dtrue ks v

def isSlist : Sexp → Bool
  | .slist _ _ => true
  | _ => false

end Sexp

/-! ## `SexpValueDict`: an ordered dictionary of values

Modelled as an association list (insertion order preserved; updating
an existing key keeps its slot, exactly like `OrderedDict`), plus the
positional counter `_idx`. -/

structure DState where
  entries : List (SKey × Sexp)
  idx : Nat
deriving DecidableEq

/-- Lookup `self[k]`. -/
def dictFind (d : List (SKey × Sexp)) (k : SKey) : Option Sexp :=
  match d with
  | [] => none
  | (k', v) :: rest => if k' = k then some v else dictFind rest k

/-- `OrderedDict.__setitem__`: replace in place if present, else
append at the end. -/
def dictSet (d : List (SKey × Sexp)) (k : SKey) (v : Sexp) : List (SKey × Sexp) :=
  match d with
  | [] => [(k, v)]
  | (k', v') :: rest => if k' = k then (k, v) :: rest else (k', v') :: dictSet rest k v

/-- A key can be hashed (stored in a Python dict / checked against a
set)?  String and int keys can; a list key raises `TypeError`. -/
def hashableKey : SKey → Bool
  | .kt _ => false
  | _ => true

/-! ### `SexpList._append`

`_append(sexp)` appends one member after checking its key against the
list's own key, recursively flattening any `SexpList` argument.  The
source mutates `self._value` member by member, so on a key-mismatch
error the members appended before the failure persist; the model
therefore returns the partial list together with the optional error. -/

mutual

def slAppendOne (k : Option SKey) (acc : List Sexp) (x : Sexp) :
    List Sexp × Option String :=
  match x with
  | .slist _ items => slAppendMany k acc items
  | s =>
      if s.key = k then (acc ++ [s], none)
      else (acc, some "expceting key")

def slAppendMany (k : Option SKey) (acc : List Sexp) (xs : List Sexp) :
    List Sexp × Option String :=
  match xs with
  | [] => (acc, none)
  | x :: rest =>
      match slAppendOne k acc x with
      | (acc', none) => slAppendMany k acc' rest
      | (acc', some e) => (acc', some e)

end

/-- `SexpList(key, members)` — the constructor builds `_value` by
`_append`ing each member; a failure raises out of the constructor, so
the partially built object is discarded and only the error escapes. -/
def slNew (k : Option SKey) (xs : List Sexp) : Except String (List Sexp) :=
  match slAppendMany k [] xs with
  | (items, none) => .ok items
  | (_, some e) => .error e

/-! ### `SexpValueDict.add`

Faithful to `sexp_parser.py` lines 48–94.  The result is the mutated
dictionary state together with an optional raised error; mutations
performed before the raise (the `_idx` bump for un-named values, and
partial in-place appends to a stored `SexpList`) persist, as they do
in Python. -/

def dictAdd (st : DState) (sexp0 : Sexp) (action : Nat) : DState × Option String :=
  -- if sexp._key is None: sexp._key = self._idx; self._idx += 1
  let p : SKey × Sexp × Nat :=
    match sexp0.key with
    | none => (SKey.ki st.idx, sexp0.withKey (.ki st.idx), st.idx + 1)
    | some k => (k, sexp0, st.idx)
  let k := p.1
  let sexp := p.2.1
  let idx := p.2.2
  if action = 0 then
    -- self[sexp._key] = sexp  (hashes k)
    if hashableKey k then (⟨dictSet st.entries k sexp, idx⟩, none)
    else (⟨st.entries, idx⟩, some "unhashable type")
  else if ¬ hashableKey k then
    -- `sexp._key not in self` hashes k
    (⟨st.entries, idx⟩, some "unhashable type")
  else
    match dictFind st.entries k with
    | none =>
        -- key not present: with action 2, wrap in SexpList first
        if action = 2 then
          match slNew (some k) [sexp] with
          | .ok items => (⟨dictSet st.entries k (.slist (some k) items), idx⟩, none)
          | .error e => (⟨st.entries, idx⟩, some e)
        else
          (⟨dictSet st.entries k sexp, idx⟩, none)
    | some v =>
        if action = 1 then (⟨st.entries, idx⟩, some "duplicate key")
        else if action ≠ 2 ∧ action ≠ 3 then (⟨st.entries, idx⟩, some "unknown action")
        else
          match v with
          | .slist k' items =>
              -- v._append(sexp): in-place, partial appends persist
              match slAppendOne k' items sexp with
              | (items', e?) => (⟨dictSet st.entries k (.slist k' items'), idx⟩, e?)
          | v' =>
              -- self[sexp._key] = SexpList(sexp._key, [v, sexp])
              match slNew (some k) [v', sexp] with
              | .ok items => (⟨dictSet st.entries k (.slist (some k) items), idx⟩, none)
              | .error e => (⟨st.entries, idx⟩, some e)

/-! ## Python numeric coercion

`parseDefault` guesses a value's type by trying `int(s)`, then
`float(s)`, then keeping the literal string.  We model the acceptance
grammar of Python 2's `int()` and `float()` on strings: surrounding
whitespace is stripped; `int` accepts an optional sign followed by one
or more decimal digits; `float` additionally accepts a decimal point,
an exponent part and the special spellings inf/infinity/nan
(case-insensitive). -/

def pyWsChar (c : Char) : Bool :=
  c == ' ' || c == '\t' || c == '\n' || c == '\r' || c == '\x0b' || c == '\x0c'

def stripWs (cs : List Char) : List Char :=
  ((cs.dropWhile pyWsChar).reverse.dropWhile pyWsChar).reverse

def digitsToNat (ds : List Char) : Nat :=
  ds.foldl (fun a c => a * 10 + (c.toNat - 48)) 0

/-- Python 2 `int(s)` for a decimal string: `some` value on success,
`none` when `int()` would raise `ValueError`. -/
def pyIntChars (cs0 : List Char) : Option Int :=
  match stripWs cs0 with
  | [] => none
  | '+' :: ds => if !ds.isEmpty && ds.all Char.isDigit then some (digitsToNat ds) else none
  | '-' :: ds => if !ds.isEmpty && ds.all Char.isDigit then some (-(digitsToNat ds : Int)) else none
  | ds => if ds.all Char.isDigit then some (digitsToNat ds) else none

def pyInt (s : String) : Option Int := pyIntChars s.data

def lowerEq (cs : List Char) (s : String) : Bool :=
  cs.map Char.toLower == s.data

/-- Mantissa of a float literal: digits with at most one decimal
point, at least one digit. -/
def mantOk (cs : List Char) : Bool :=
  cs.all (fun c => c.isDigit || c == '.') && decide (cs.count '.' ≤ 1) && cs.any Char.isDigit

/-- Exponent tail after `e`/`E`: optional sign then one or more digits. -/
def expTailOk (cs : List Char) : Bool :=
  match cs with
  | '+' :: ds => !ds.isEmpty && ds.all Char.isDigit
  | '-' :: ds => !ds.isEmpty && ds.all Char.isDigit
  | ds => !ds.isEmpty && ds.all Char.isDigit

def notExpChar (c : Char) : Bool := !(c == 'e' || c == 'E')

/-- Whether Python 2 `float(s)` succeeds on the string. -/
def pyFloatOkChars (cs0 : List Char) : Bool :=
  let cs1 := stripWs cs0
  let cs :=
    match cs1 with
    | '+' :: r => r
    | '-' :: r => r
    | r => r
  if lowerEq cs "inf" || lowerEq cs "infinity" || lowerEq cs "nan" then true
  else
    match cs.dropWhile notExpChar with
    | [] => mantOk (cs.takeWhile notExpChar)
    | _ :: ex => mantOk (cs.takeWhile notExpChar) && expTailOk ex

def pyFloatOk (s : String) : Bool := pyFloatOkChars s.data

/-- Generic coercion of an atom string, `parseDefault` lines 534–541:
try `int`, then `float`, then keep the literal string — first success
wins. -/
def coerceVal (s : String) : SVal :=
  match pyInt s with
  | some n => .vint n
  | none => if pyFloatOk s then .vfloat s else .vstr s

/-! ## The schema dispatch engine: `SexpParser.__init__`

A schema is modelled as an explicit capability table: `pos i` is the
attribute `_pos<i>_parse`, `parse1 k` is `_parse1_<k>`, `parseG k` is
`_parse_<k>`, `bools` is the `_default_bools` declaration (whose
Python container type matters: a string declaration stays a one-element
list, any other iterable is converted to a `set`, and membership tests
on a `set` raise `TypeError` for unhashable list subkeys), and `fallb`
is an overridden `_parse` method (`none` = the inherited default that
calls `parseDefault`).

A handler is a callable receiving the raw child token and returning
a value to store, `none` to signal it performed its own storage, or an
exception. -/

abbrev Handler := Tok → Except String (Option Sexp)

inductive BoolsDecl where
  | nodecl
  | single (s : String)
  | many (xs : List String)

def boolsList : BoolsDecl → List String
  | .nodecl => []
  | .single s => [s]
  | .many xs => xs

def boolsIsSet : BoolsDecl → Bool
  | .many _ => true
  | _ => false

structure HandlerTable where
  pos : Nat → Option Handler
  parse1 : String → Option Handler
  parseG : String → Option Handler
  bools : BoolsDecl
  fallb : Option (Nat → Handler)

/-- The subkey of a child entry (lines 336–339): the entry itself when
it is not a list, else its element 1 (raising `IndexError` when the
list is too short). -/
def rawSubkey : Tok → Except String Tok
  | .list xs =>
      match xs.get? 1 with
      | some t => .ok t
      | none => .error "IndexError"
  | t => .ok t

/-- The attribute-name fragment `'{}'.format(subkey)` used for the
`getattr` lookups `_parse1_<subkey>` / `_parse_<subkey>`: for an atom
it is the string itself, for an int its decimal spelling (both can
name a class attribute); the `str()` of a list contains brackets,
spaces and quotes and can never collide with a declared attribute
identifier, so list subkeys never resolve a named handler. -/
def lookupName : Tok → Option String
  | .atom s => some s
  | .num n => some (toString n)
  | .list _ => none

/-- `SexpDefaultTrue` used as a parser: the constructor demands a
`basestring` and produces a true-valued flag keyed by the atom. -/
def dtrueHandler : Handler := fun t =>
  match t with
  | .atom s => .ok (some (.dtrue s true))
  | _ => .error "invalid boolean data"

/-- Handler resolution for one child (lines 336–363), up to and
including the choice of storage action; `(none, 3)` means the
`self._parse` fallback with dynamic-group storage. -/
def resolveParse (tbl : HandlerTable) (i : Nat) (entry : Tok) :
    Except String (Option Handler × Nat) :=
  match rawSubkey entry with
  | .error e => .error e
  | .ok sk =>
    match tbl.pos i with
    | some h => .ok (some h, 3)
    | none =>
      match (lookupName sk).bind tbl.parse1 with
      | some h => .ok (some h, 1)
      | none =>
        match (lookupName sk).bind tbl.parseG with
        | some h => .ok (some h, 2)
        | none =>
          match sk with
          | .atom s =>
              if (boolsList tbl.bools).contains s then .ok (some dtrueHandler, 1)
              else .ok (none, 3)
          | .list _ =>
              -- `subkey in bools` hashes the subkey when bools is a set
              if boolsIsSet tbl.bools then .error "unhashable type"
              else .ok (none, 3)
          | .num _ => .ok (none, 3)

/-- The error tuple recorded by the `except` clause (lines 370–375):
the parent token `data` is included exactly when the entry is an atom. -/
def mkErrTuple (e : String) (entry : Tok) (data : List Tok) : SErr :=
  match entry with
  | .atom _ => ⟨e, entry, some (.list data)⟩
  | _ => ⟨e, entry, none⟩

/-- Mutable state of one `SexpParser.__init__` run: the value
dictionary and the local `_err` list. -/
structure PState where
  dict : DState
  errs : List SErr
deriving DecidableEq

/-- Lines 378–380: after dispatch, insert an explicit false flag for
every declared default-boolean key not already present (direct
`OrderedDict` assignment, appended at the end; Python iterates the
`set` in unspecified order — we iterate the declaration order, which
no claim depends on). -/
def finalBools (bs : List String) (d : DState) : DState :=
  match bs with
  | [] => d
  | k :: rest =>
      if (dictFind d.entries (.ks k)).isSome then finalBools rest d
      else finalBools rest ⟨dictSet d.entries (.ks k) (.dtrue k false), d.idx⟩

/-- `data[1]` as a stored key. -/
def tokToKey : Tok → SKey
  | .atom s => .ks s
  | .num n => .ki n
  | .list xs => .kt (.list xs)

def Tok.isList : Tok → Bool
  | .list _ => true
  | _ => false

def emptyTable : HandlerTable :=
  ⟨fun _ => none, fun _ => none, fun _ => none, .nodecl, none⟩

/-- Coercion of a non-list token inside `parseDefault`'s value loop
(`int(v)` succeeds directly on an int). The list arm is unreachable:
the loop returns `SexpParser(sexp)` at the first list element. -/
def coerceTokVal : Tok → SVal
  | .atom s => coerceVal s
  | .num n => .vint n
  | .list _ => .vstr ""

/-- `parseDefault`'s packaging of the collected values: none → `None`,
one → the scalar itself, several → the Python list. -/
def evalOfList : List SVal → EVal
  | [] => .enone
  | [v] => .escalar v
  | vs => .elist vs

mutual

/-- One iteration of the dispatch loop (lines 334–376): resolve a
handler, invoke it (or the fallback), store a returned value with the
chosen action; any error from resolution, invocation or storage is
caught and recorded, with mutations already made to the dictionary
kept (as in Python).  The inherited-default fallback is the body of
`parseDefault`, spelled out here so that the recursion stays
structural; `processOne_eq` below restates it through
`parseDefaultFn`. -/
def processOne (tbl : HandlerTable) (data : List Tok) (i : Nat) (entry : Tok)
    (st : PState) : PState :=
  match resolveParse tbl i entry with
  | .error e => ⟨st.dict, st.errs ++ [mkErrTuple e entry data]⟩
  | .ok (h?, action) =>
    let ret : Except String (Option Sexp) :=
      match h? with
      | some h => h entry
      | none =>
        match tbl.fallb with
        | some f => f i entry
        | none =>
          match entry with
          | .atom s => .ok (some (.expr none (.escalar (coerceVal s))))
          | .num _ => .error "object of type int has no len"
          | .list xs =>
            match xs with
            | _ :: kTok :: rest =>
                if rest.any Tok.isList then
                  match sexpInit emptyTable xs with
                  | .ok node => .ok (some node)
                  | .error e => .error e
                else
                  .ok (some (.expr (some (tokToKey kTok)) (evalOfList (rest.map coerceTokVal))))
            | _ => .error "no key"
    match ret with
    | .error e => ⟨st.dict, st.errs ++ [mkErrTuple e entry data]⟩
    | .ok none => st
    | .ok (some sexp) =>
      match dictAdd st.dict sexp action with
      | (d', none) => ⟨d', st.errs⟩
      | (d', some e) => ⟨d', st.errs ++ [mkErrTuple e entry data]⟩

/-- `for i, entry in enumerate(data[2:])`. -/
def processChildren (tbl : HandlerTable) (data : List Tok) (i : Nat)
    (cs : List Tok) (st : PState) : PState :=
  match cs with
  | [] => st
  | c :: rest => processChildren tbl data (i + 1) rest (processOne tbl data i c st)

/-- `parseDefault` (lines 520–566).  The `SexpBool(self, sexp)` call
always raises (wrong arity and an undefined name) and is swallowed by
its bare `except`, so it is not modelled.  A composite expression with
any list member is re-parsed by a plain `SexpParser` (the base class:
the empty handler table). -/
def parseDefaultFn (t : Tok) : Except String (Option Sexp) :=
  match t with
  | .atom s => .ok (some (.expr none (.escalar (coerceVal s))))
  | .num _ => .error "object of type int has no len"
  | .list xs =>
    match xs with
    | _ :: kTok :: rest =>
        if rest.any Tok.isList then
          match sexpInit emptyTable xs with
          | .ok node => .ok (some node)
          | .error e => .error e
        else
          .ok (some (.expr (some (tokToKey kTok)) (evalOfList (rest.map coerceTokVal))))
    | _ => .error "no key"

/-- `SexpParser.__init__(data)` for list input (its documented
contract): key from `data[1]`, children from `data[2:]`, then the
default-boolean completion pass.  A list shorter than 2 raises
`IndexError` out of the constructor. -/
def sexpInit (tbl : HandlerTable) (data : List Tok) : Except String Sexp :=
  match data with
  | _ :: kTok :: rest =>
      let st := processChildren tbl data 0 rest ⟨⟨[], 0⟩, []⟩
      let d := finalBools (boolsList tbl.bools) st.dict
      .ok (.parserNode (some (tokToKey kTok)) d.entries d.idx st.errs)
  | _ => .error "IndexError"

end

/-- `processOne` restated through `parseDefaultFn`: the dispatch loop
body resolves a handler, invokes it (the inherited default `_parse`
being `parseDefault`), and stores any returned value. -/
theorem processOne_eq (tbl : HandlerTable) (data : List Tok) (i : Nat) (entry : Tok)
    (st : PState) :
    processOne tbl data i entry st =
      match resolveParse tbl i entry with
      | .error e => ⟨st.dict, st.errs ++ [mkErrTuple e entry data]⟩
      | .ok (h?, action) =>
        match (match h? with
               | some h => h entry
               | none =>
                 match tbl.fallb with
                 | some f => f i entry
                 | none => parseDefaultFn entry) with
        | .error e => ⟨st.dict, st.errs ++ [mkErrTuple e entry data]⟩
        | .ok none => st
        | .ok (some sexp) =>
          match dictAdd st.dict sexp action with
          | (d', none) => ⟨d', st.errs⟩
          | (d', some e) => ⟨d', st.errs ++ [mkErrTuple e entry data]⟩ := by
  cases entry <;> rfl

/-! ## The tokenizer: `parseSexp` (lines 614–675)

The scanning regular expression is
`\s*(?:(\()|(\))|("[^"]*")|([^(^)\s]+))`, applied with `finditer`:
at the current search position, leading whitespace is consumed, then
the four alternatives are tried in order — left paren, right paren, a
double-quoted string (quotes kept, closed by the next quote), or a
maximal run of characters that are not parens, not `^` and not
whitespace.  Note the `^` inside the character class is a literal
member, so `^` can never start a match; `finditer` then slides past
it.  `match.start()` is the position where the successful attempt
began, i.e. it includes the consumed leading whitespace.

Before scanning, the input is `splitlines(False)`-split and re-joined
without the line terminators; the cumulative end offset of each line
is tabulated, and `bisect.bisect_right` of a match start against that
table synthesizes the line element of each list. -/

/-- A character that terminates the bare-atom run `[^(^)\\s]+`. -/
def stopChar (c : Char) : Bool :=
  c == '(' || c == ')' || c == '^' || pyWsChar c

def notStop (c : Char) : Bool := !stopChar c

theorem dropWhileLen (p : Char → Bool) (l : List Char) : (l.dropWhile p).length ≤ l.length := by
  induction l with
  | nil => simp
  | cons a t ih =>
      rw [List.dropWhile_cons]
      split
      · exact Nat.le_succ_of_le ih
      · simp

/-- Split at the first `"` (the `[^"]*"` part of the quoted-string
alternative): content before it and remainder after it, or `none`
when no closing quote exists. -/
def splitQuote (cs : List Char) : Option (List Char × List Char) :=
  match cs with
  | [] => none
  | c :: rest =>
      if c = '"' then some ([], rest)
      else
        match splitQuote rest with
        | some (a, b) => some (c :: a, b)
        | none => none

theorem splitQuote_len : ∀ {cs a b : List Char}, splitQuote cs = some (a, b) → b.length < cs.length := by
  intro cs
  induction cs with
  | nil => intro a b h; simp [splitQuote] at h
  | cons c rest ih =>
      intro a b h
      rw [splitQuote] at h
      by_cases hc : c = '"'
      · simp [hc] at h
        simp [← h.2]
      · simp [hc] at h
        cases hsq : splitQuote rest with
        | none => rw [hsq] at h; simp at h
        | some p =>
            obtain ⟨a', b'⟩ := p
            rw [hsq] at h
            simp at h
            have := ih hsq
            simp [← h.2]
            omega

/-- One flat token of the scan. -/
inductive Scanned where
  | lp
  | rp
  | at' (s : String)
deriving DecidableEq

/-- The scan with `finditer` offsets: `cp` is the index of the head of
`cs` in the whole text, `sp` the position where the current match
attempt began (= the end of the previous match, or just after a
skipped `^`); emitted pairs are `(match.start(), token)`. -/
def scanOff (cs : List Char) (cp sp : Nat) : List (Nat × Scanned) :=
  match cs with
  | [] => []
  | c :: rest =>
    if pyWsChar c then scanOff rest (cp + 1) sp
    else if c = '(' then (sp, .lp) :: scanOff rest (cp + 1) (cp + 1)
    else if c = ')' then (sp, .rp) :: scanOff rest (cp + 1) (cp + 1)
    else if c = '^' then scanOff rest (cp + 1) (cp + 1)
    else if c = '"' then
      match h : splitQuote rest with
      | some (content, rest2) =>
          (sp, .at' (String.mk ('"' :: (content ++ ['"'])))) ::
            scanOff rest2 (cp + 2 + content.length) (cp + 2 + content.length)
      | none =>
          (sp, .at' (String.mk (c :: rest.takeWhile notStop))) ::
            scanOff (rest.dropWhile notStop) (cp + 1 + (rest.takeWhile notStop).length)
              (cp + 1 + (rest.takeWhile notStop).length)
    else
      (sp, .at' (String.mk (c :: rest.takeWhile notStop))) ::
        scanOff (rest.dropWhile notStop) (cp + 1 + (rest.takeWhile notStop).length)
          (cp + 1 + (rest.takeWhile notStop).length)
termination_by cs.length
decreasing_by
  all_goals simp
  all_goals first
    | exact Nat.lt_succ_of_lt (splitQuote_len (by assumption))
    | exact Nat.lt_succ_of_le (dropWhileLen notStop _)

/-- The same scan without offsets (used where line numbers are
irrelevant). -/
def scanT (cs : List Char) : List Scanned :=
  match cs with
  | [] => []
  | c :: rest =>
    if pyWsChar c then scanT rest
    else if c = '(' then .lp :: scanT rest
    else if c = ')' then .rp :: scanT rest
    else if c = '^' then scanT rest
    else if c = '"' then
      match h : splitQuote rest with
      | some (content, rest2) =>
          .at' (String.mk ('"' :: (content ++ ['"']))) :: scanT rest2
      | none =>
          .at' (String.mk (c :: rest.takeWhile notStop)) :: scanT (rest.dropWhile notStop)
    else
      .at' (String.mk (c :: rest.takeWhile notStop)) :: scanT (rest.dropWhile notStop)
termination_by cs.length
decreasing_by
  all_goals simp
  all_goals first
    | exact Nat.lt_succ_of_lt (splitQuote_len (by assumption))
    | exact Nat.lt_succ_of_le (dropWhileLen notStop _)

theorem scanOff_map_snd : ∀ (cs : List Char) (cp sp : Nat),
    (scanOff cs cp sp).map Prod.snd = scanT cs
  | [], _, _ => by rw [scanOff, scanT]; rfl
  | c :: rest, cp, sp => by
      rw [scanOff, scanT]
      by_cases h1 : pyWsChar c
      · simp only [h1, if_true]
        exact scanOff_map_snd rest _ _
      · by_cases h2 : c = '('
        · simp_all [scanOff_map_snd rest]
        · by_cases h3 : c = ')'
          · simp_all [scanOff_map_snd rest]
          · by_cases h4 : c = '^'
            · simp_all [scanOff_map_snd rest]
            · by_cases h5 : c = '"'
              · subst h5
                cases hsq : splitQuote rest with
                | none =>
                    simp_all [scanOff_map_snd (rest.dropWhile notStop)]
                | some p =>
                    obtain ⟨content, rest2⟩ := p
                    have hrec := scanOff_map_snd rest2
                    simp_all
              · simp_all [scanOff_map_snd (rest.dropWhile notStop)]
termination_by cs _ _ => cs.length
decreasing_by
  all_goals simp
  all_goals first
    | exact Nat.lt_succ_of_le (dropWhileLen notStop _)
    | exact Nat.lt_succ_of_lt (splitQuote_len (by assumption))

/-- Python 2 `str.splitlines(False)`: split at `\n`, `\r\n` or `\r`,
terminators dropped, no empty trailing line for a trailing
terminator. -/
def lineBreakChar (c : Char) : Bool := c == '\n' || c == '\r'

def pySplitChars (cs : List Char) : List (List Char) :=
  match cs with
  | [] => []
  | c0 :: cr =>
    let line := (c0 :: cr).takeWhile fun c => !lineBreakChar c
    match h : (c0 :: cr).dropWhile (fun c => !lineBreakChar c) with
    | [] => [line]
    | '\r' :: '\n' :: r =>
        have : r.length < (c0 :: cr).length := by
          have h1 := dropWhileLen (fun c => !lineBreakChar c) (c0 :: cr)
          rw [h] at h1
          simp at h1 ⊢
          omega
        line :: pySplitChars r
    | c1 :: r =>
        have : r.length < (c0 :: cr).length := by
          have h1 := dropWhileLen (fun c => !lineBreakChar c) (c0 :: cr)
          rw [h] at h1
          simp at h1 ⊢
          omega
        line :: pySplitChars r
termination_by cs.length

/-- Cumulative character offset at the end of each line (lines
635–642; newlines are not counted because `splitlines(False)` strips
them and the lines are re-joined without them). -/
def cumsAux (acc : Nat) : List Nat → List Nat
  | [] => []
  | n :: rest => (acc + n) :: cumsAux (acc + n) rest

def cums (ls : List (List Char)) : List Nat :=
  cumsAux 0 (ls.map List.length)

/-- `bisect.bisect_right` on a sorted table: the number of entries
`≤ x` (the cumulative table is nondecreasing). -/
def bisectCount (table : List Nat) (x : Nat) : Nat :=
  table.countP fun l => decide (l ≤ x)

/-- The stack machine of `parseSexp` (lines 645–675), parameterized by
the line-annotation function `ann` applied to a match start when an
atom is appended to an empty current list.  `assert` failures
(unbalanced brackets) are fatal. -/
def buildT (ann : Nat → Nat) (toks : List (Nat × Scanned)) (stack : List (List Tok))
    (out : List Tok) : Except String Tok :=
  match toks with
  | [] =>
      match stack with
      | _ :: _ => .error "Trouble with nesting of brackets"
      | [] =>
          match out with
          | [] => .ok (.list [])
          | t :: _ => .ok t
  | (_, .lp) :: rest => buildT ann rest (out :: stack) []
  | (_, .rp) :: rest =>
      match stack with
      | [] => .error "Trouble with nesting of brackets"
      | parent :: stack' => buildT ann rest stack' (parent ++ [.list out])
  | (p, .at' s) :: rest =>
      if out.isEmpty then buildT ann rest stack [Tok.num (ann p), Tok.atom s]
      else buildT ann rest stack (out ++ [Tok.atom s])

/-- `parseSexp` on a list of (already split) lines. -/
def parseSexpLines (ls : List (List Char)) : Except String Tok :=
  buildT (fun p => bisectCount (cums ls) p) (scanOff ls.flatten 0 0) [] []

/-- Fuel-driven twin of `scanOff` (structurally recursive, hence
evaluable by the kernel); `scanOffF_eq` shows it agrees with `scanOff`
whenever the fuel covers the input length. -/
def scanOffF : Nat → List Char → Nat → Nat → List (Nat × Scanned)
  | 0, _, _, _ => []
  | fuel + 1, cs, cp, sp =>
    match cs with
    | [] => []
    | c :: rest =>
      if pyWsChar c then scanOffF fuel rest (cp + 1) sp
      else if c = '(' then (sp, .lp) :: scanOffF fuel rest (cp + 1) (cp + 1)
      else if c = ')' then (sp, .rp) :: scanOffF fuel rest (cp + 1) (cp + 1)
      else if c = '^' then scanOffF fuel rest (cp + 1) (cp + 1)
      else if c = '"' then
        match splitQuote rest with
        | some (content, rest2) =>
            (sp, .at' (String.mk ('"' :: (content ++ ['"'])))) ::
              scanOffF fuel rest2 (cp + 2 + content.length) (cp + 2 + content.length)
        | none =>
            (sp, .at' (String.mk (c :: rest.takeWhile notStop))) ::
              scanOffF fuel (rest.dropWhile notStop) (cp + 1 + (rest.takeWhile notStop).length)
                (cp + 1 + (rest.takeWhile notStop).length)
      else
        (sp, .at' (String.mk (c :: rest.takeWhile notStop))) ::
          scanOffF fuel (rest.dropWhile notStop) (cp + 1 + (rest.takeWhile notStop).length)
            (cp + 1 + (rest.takeWhile notStop).length)

theorem scanOffF_eq : ∀ (fuel : Nat) (cs : List Char) (cp sp : Nat),
    cs.length ≤ fuel → scanOffF fuel cs cp sp = scanOff cs cp sp
  | 0, cs, cp, sp, h => by
      have : cs = [] := List.length_eq_zero.mp (Nat.le_zero.mp h)
      subst this
      rw [scanOff]
      rfl
  | fuel + 1, [], cp, sp, h => by rw [scanOff]; rfl
  | fuel + 1, c :: rest, cp, sp, h => by
      have hr : rest.length ≤ fuel := by simp at h; omega
      rw [scanOff, scanOffF]
      by_cases h1 : pyWsChar c
      · simp only [h1, if_true]
        exact scanOffF_eq fuel rest _ _ hr
      · by_cases h2 : c = '('
        · simp_all [scanOffF_eq fuel rest _ _ hr]
        · by_cases h3 : c = ')'
          · simp_all [scanOffF_eq fuel rest _ _ hr]
          · by_cases h4 : c = '^'
            · simp_all [scanOffF_eq fuel rest _ _ hr]
            · by_cases h5 : c = '"'
              · subst h5
                cases hsq : splitQuote rest with
                | none =>
                    have hd : (rest.dropWhile notStop).length ≤ fuel :=
                      le_trans (dropWhileLen notStop rest) hr
                    simp_all [scanOffF_eq fuel (rest.dropWhile notStop) _ _ hd]
                | some p =>
                    obtain ⟨content, rest2⟩ := p
                    have hd : rest2.length ≤ fuel :=
                      le_trans (le_of_lt (splitQuote_len hsq)) hr
                    have hrec := scanOffF_eq fuel rest2 (cp + 2 + content.length)
                      (cp + 2 + content.length) hd
                    simp_all
              · have hd : (rest.dropWhile notStop).length ≤ fuel :=
                  le_trans (dropWhileLen notStop rest) hr
                simp_all [scanOffF_eq fuel (rest.dropWhile notStop) _ _ hd]

/-- Fuel-driven twin of `pySplitChars`. -/
def pySplitCharsF : Nat → List Char → List (List Char)
  | 0, _ => []
  | fuel + 1, cs =>
    match cs with
    | [] => []
    | c0 :: cr =>
      let line := (c0 :: cr).takeWhile fun c => !lineBreakChar c
      match (c0 :: cr).dropWhile (fun c => !lineBreakChar c) with
      | [] => [line]
      | '\r' :: '\n' :: r => line :: pySplitCharsF fuel r
      | _ :: r => line :: pySplitCharsF fuel r

theorem pySplitCharsF_eq : ∀ (cs : List Char) (fuel : Nat),
    cs.length ≤ fuel → pySplitCharsF fuel cs = pySplitChars cs := by
  intro cs
  induction cs using pySplitChars.induct with
  | case1 =>
      intro fuel hf
      cases fuel <;> (rw [pySplitChars]; rfl)
  | case2 c0 cr heq =>
      intro fuel hf
      obtain ⟨f, rfl⟩ : ∃ f, fuel = f + 1 := ⟨fuel - 1, by simp at hf; omega⟩
      rw [pySplitCharsF]
      simp only [heq]
      conv_rhs => rw [pySplitChars]
      split <;> simp_all
  | case3 c0 cr r heq hlt ih =>
      intro fuel hf
      obtain ⟨f, rfl⟩ : ∃ f, fuel = f + 1 := ⟨fuel - 1, by simp at hf; omega⟩
      have hr : r.length ≤ f := by simp at hf hlt; omega
      rw [pySplitCharsF]
      simp only [heq]
      conv_rhs => rw [pySplitChars]
      split <;> simp_all [ih f hr]
  | case4 c0 cr c1 r hne heq hlt ih =>
      intro fuel hf
      obtain ⟨f, rfl⟩ : ∃ f, fuel = f + 1 := ⟨fuel - 1, by simp at hf; omega⟩
      have hr : r.length ≤ f := by simp at hf hlt; omega
      rw [pySplitCharsF]
      simp only [heq]
      conv_rhs => rw [pySplitChars]
      split <;> simp_all [ih f hr]
      exact absurd heq.2.symm (hne _ heq.1.symm)

/-- `parseSexp` on a string input. -/
def parseSexpM (s : String) : Except String Tok :=
  parseSexpLines (pySplitChars s.data)

/-- Kernel-evaluable version of `parseSexpM` (same function:
`parseSexpM_eqF`). -/
def parseSexpF (s : String) : Except String Tok :=
  let ls := pySplitCharsF s.data.length s.data
  buildT (fun p => bisectCount (cums ls) p) (scanOffF ls.flatten.length ls.flatten 0 0) [] []

theorem parseSexpM_eqF (s : String) : parseSexpM s = parseSexpF s := by
  rw [parseSexpM, parseSexpF, parseSexpLines, pySplitCharsF_eq s.data s.data.length le_rfl,
    scanOffF_eq (pySplitChars s.data).flatten.length (pySplitChars s.data).flatten 0 0 le_rfl]


/-! ## The exporter: `Sexpression._export` and friends (lines 176–259,
453–454, 501–503).

`fr` abstracts Python's `str(float)` (the only value rendering the
embedding does not pin down); everything else is exact: a `None`
value writes a space and the bare key; a string key wraps its children
in `\n<prefix>(key…)` with the prefix grown by one indent step; an
int key (a positional value) writes no wrapping; a `SexpList` writes
its members at the caller's level; a false `SexpDefaultTrue` writes
nothing and a true one writes a space and its key. -/

def svalStr (fr : String → String) : SVal → String
  | .vint n => toString n
  | .vfloat s => fr s
  | .vstr s => s

def svalsStr (fr : String → String) (vs : List SVal) : String :=
  match vs with
  | [] => ""
  | v :: rest => " " ++ svalStr fr v ++ svalsStr fr rest

/-- `' {}'.format(self._key)` for a `None`-valued node.  A list-valued
key would print its Python `str` — it can never be stored, so the
spelling is irrelevant; a `None` key prints `None`. -/
def keyOut : Option SKey → String
  | some (.ks s) => s
  | some (.ki n) => toString n
  | some (.kt _) => "<list>"
  | none => "None"

/-- `isinstance(self._key, basestring)`: only a string key triggers
the `(key …)` wrapping. -/
def strKey : Option SKey → Option String
  | some (.ks s) => some s
  | _ => none

mutual

def exportStr (fr : String → String) (s : Sexp) (pre ind : String) : String :=
  match s with
  | .dtrue k b => if b then " " ++ k else ""
  | .slist _ items => exportItems fr items pre ind
  | .expr key v =>
    match v with
    | .enone => " " ++ keyOut key
    | .escalar sv =>
        match strKey key with
        | some s0 => "\n" ++ pre ++ "(" ++ s0 ++ " " ++ svalStr fr sv ++ ")"
        | none => " " ++ svalStr fr sv
    | .elist vs =>
        match strKey key with
        | some s0 => "\n" ++ pre ++ "(" ++ s0 ++ svalsStr fr vs ++ ")"
        | none => svalsStr fr vs
  | .parserNode key entries _ _ =>
    match strKey key with
    | some s0 => "\n" ++ pre ++ "(" ++ s0 ++ exportEntries fr entries (pre ++ ind) ind ++ ")"
    | none => exportEntries fr entries pre ind

def exportItems (fr : String → String) (items : List Sexp) (pre ind : String) : String :=
  match items with
  | [] => ""
  | v :: rest => exportStr fr v pre ind ++ exportItems fr rest pre ind

def exportEntries (fr : String → String) (entries : List (SKey × Sexp)) (pre ind : String) :
    String :=
  match entries with
  | [] => ""
  | (_, v) :: rest => exportStr fr v pre ind ++ exportEntries fr rest pre ind

end

/-! ## The error query: `SexpParser._getError` (lines 382–392) and
`getSexpError` (lines 687–689). -/

/-- `SexpParser._getError` as written: `for v in iter(self._value)`
iterates the `SexpValueDict` — a dictionary — so `v` ranges over the
stored KEYS (strings and ints), never the values; `getattr(v,
'_getError', None)` is therefore always `None` and every iteration
`continue`s (the accumulation line `r += p()`, which also misspells
`ret`, is dead code).  The function returns a copy of the node's own
`_err` list only.  `getSexpError` calls `sexp._getError()`, raising
`TypeError` (`None` is not callable) for nodes without the method. -/
def getSexpErrorCode : Sexp → Except String (List SErr)
  | .parserNode _ _ _ errs => .ok errs
  | _ => .error "TypeError"

mutual

/-- Modelled from the spec: the error-aggregation query the source
intends (`_getError`'s dead recursive-accumulation branch): a node's
full error set is the union of every stored child value's recursively
collected errors — for children that expose the error-collection
capability `_getError`, i.e. parser nodes — followed by the node's own
local `_err` list. -/
def getErrorSpec : Sexp → List SErr
  | .parserNode _ entries _ errs => collectChildErrs entries ++ errs
  | _ => []

def collectChildErrs : List (SKey × Sexp) → List SErr
  | [] => []
  | (_, v) :: rest =>
      (match v with
       | .parserNode a b c d => getErrorSpec (.parserNode a b c d)
       | _ => []) ++ collectChildErrs rest

end


/-! ## Shared helpers for the claim theorems -/

/-- A handler table with no positional handlers and the inherited
default `_parse` (the shape of every schema the claims quantify
over). -/
def mkTable (p1 pg : String → Option Handler) (bd : BoolsDecl) : HandlerTable :=
  ⟨fun _ => none, p1, pg, bd, none⟩

/-- `Sexpression.__setitem__` (lines 133–139): a raw (non-`Sexpression`)
value is wrapped as `Sexpression(key, value)` and added with the
default dynamic-group action; an `Sexpression` whose key differs from
the assignment key raises `KeyError`; otherwise it is added as is. -/
def setItemModel (d : DState) (k : SKey) (v : Sexp ⊕ EVal) : DState × Option String :=
  match v with
  | .inr raw => dictAdd d (.expr (some k) raw) 3
  | .inl sexp =>
      if sexp.key ≠ some k then (d, some "key mismatch")
      else dictAdd d sexp 3

/-- Whether a child entry's resolved lookup name is `K` (the condition
under which `_parse1_K` / `_parse_K` fire for it). -/
def subkeyIs (K : String) (c : Tok) : Bool :=
  match rawSubkey c with
  | .ok sk => lookupName sk == some K
  | .error _ => false

/-- The invariant of claim C10: every stored mapping key equals the
stored value's own `_key`. -/
def DictInv (entries : List (SKey × Sexp)) : Prop :=
  ∀ kv ∈ entries, Sexp.key kv.2 = some kv.1

/-! ### Dictionary lemmas -/

theorem dictFind_dictSet_self (d : List (SKey × Sexp)) (k : SKey) (v : Sexp) :
    dictFind (dictSet d k v) k = some v := by
  induction d with
  | nil => simp [dictSet, dictFind]
  | cons kv rest ih =>
      obtain ⟨k', v'⟩ := kv
      by_cases h : k' = k
      · simp [dictSet, dictFind, h]
      · simp [dictSet, dictFind, h, ih]

theorem dictFind_dictSet_ne (d : List (SKey × Sexp)) (k k' : SKey) (v : Sexp)
    (h : k ≠ k') : dictFind (dictSet d k v) k' = dictFind d k' := by
  induction d with
  | nil => simp [dictSet, dictFind, h]
  | cons kv rest ih =>
      obtain ⟨k0, v0⟩ := kv
      by_cases h0 : k0 = k
      · subst h0
        simp [dictSet, dictFind, h]
      · simp [dictSet, dictFind, h0, ih]

theorem dictSet_inv {d : List (SKey × Sexp)} (hinv : DictInv d) (k : SKey) (v : Sexp)
    (hv : v.key = some k) : DictInv (dictSet d k v) := by
  induction d with
  | nil =>
      intro kv hkv
      simp [dictSet] at hkv
      subst hkv
      exact hv
  | cons kv0 rest ih =>
      obtain ⟨k0, v0⟩ := kv0
      have hrest : DictInv rest := fun kv hkv => hinv kv (List.mem_cons_of_mem _ hkv)
      by_cases h0 : k0 = k
      · intro kv hkv
        rw [dictSet] at hkv
        simp [h0] at hkv
        rcases hkv with hkv | hkv
        · subst hkv; exact hv
        · exact hinv kv (List.mem_cons_of_mem _ hkv)
      · intro kv hkv
        rw [dictSet] at hkv
        simp [h0] at hkv
        rcases hkv with hkv | hkv
        · subst hkv; exact hinv (k0, v0) (by simp)
        · exact ih hrest kv hkv


/-! ## Claim theorems -/

/-- C7: `parseDefault` on a raw atom string attempts integer parsing
first, then floating-point parsing, then falls back to the literal
string, first success winning; in particular every atom string
accepted by `int()` yields an integer value, never a float or a
string. -/
theorem C7_parseDefault_coercion_order (s : String) :
    (∀ n : Int, pyInt s = some n →
      parseDefaultFn (.atom s) = .ok (some (.expr none (.escalar (.vint n))))) ∧
    (pyInt s = none → pyFloatOk s = true →
      parseDefaultFn (.atom s) = .ok (some (.expr none (.escalar (.vfloat s))))) ∧
    (pyInt s = none → pyFloatOk s = false →
      parseDefaultFn (.atom s) = .ok (some (.expr none (.escalar (.vstr s))))) := by
  refine ⟨?_, ?_, ?_⟩
  · intro n hn
    simp [parseDefaultFn, coerceVal, hn]
  · intro h1 h2
    simp [parseDefaultFn, coerceVal, h1, h2]
  · intro h1 h2
    simp [parseDefaultFn, coerceVal, h1, h2]

/-- Witness for C7: `"007"` parses as the integer 7 (never float or
string), `"1e5"` fails `int()` but passes `float()`, and `"x"` falls
back to the literal string. -/
theorem C7_parseDefault_coercion_order_witness :
    pyInt "007" = some 7 ∧
    parseDefaultFn (.atom "007") = .ok (some (.expr none (.escalar (.vint 7)))) ∧
    pyInt "1e5" = none ∧ pyFloatOk "1e5" = true ∧
    parseDefaultFn (.atom "1e5") = .ok (some (.expr none (.escalar (.vfloat "1e5")))) ∧
    parseDefaultFn (.atom "x") = .ok (some (.expr none (.escalar (.vstr "x")))) :=
  ⟨by decide, (C7_parseDefault_coercion_order "007").1 7 (by decide),
   by decide, by decide,
   (C7_parseDefault_coercion_order "1e5").2.1 (by decide) (by decide),
   (C7_parseDefault_coercion_order "x").2.2 (by decide) (by decide)⟩


/-- A positional handler used in the C2 counterexample. -/
def posHandler0 : Handler := fun _ => .ok (some (.expr (some (.ks "z")) .enone))

/-- A table declaring `_pos0_parse` (and nothing else). -/
def tblPos0 : HandlerTable :=
  ⟨fun i => if i = 0 then some posHandler0 else none, fun _ => none, fun _ => none,
    .nodecl, none⟩

/-- A table whose `_default_bools` is declared as an iterable (hence
converted to a Python `set`). -/
def tblBoolsSet : HandlerTable := mkTable (fun _ => none) (fun _ => none) (.many ["flag"])

/-- C2 counterexample: the claimed resolution cascade is not followed
for every child token.  (a) For the child `()` at index 0 of a parser
declaring `_pos0_parse`, the subkey extraction `entry[1]` raises
`IndexError` before the positional lookup, so no handler — not even
the positional one the cascade's step (1) selects, nor the fallback of
step (5) — is resolved; building records the error and stores
nothing.  (b) For a child whose subkey is itself a list, under a
set-typed `_default_bools`, the membership test of step (4) raises
(unhashable) instead of reaching the step (5) fallback. -/
theorem C2_counterexample :
    tblPos0.pos 0 = some posHandler0 ∧
    resolveParse tblPos0 0 (Tok.list []) = .error "IndexError" ∧
    sexpInit tblPos0 [Tok.num 1, Tok.atom "p", Tok.list []] =
      .ok (.parserNode (some (.ks "p")) [] 0 [⟨"IndexError", .list [], none⟩]) ∧
    resolveParse tblBoolsSet 0 (Tok.list [.num 1, .list [.num 1, .atom "x"]]) =
      .error "unhashable type" :=
  ⟨rfl, rfl, by decide, rfl⟩

/-- C2 (amended): for every child token whose subkey extraction
succeeds — the token is an atom, a number, or a list with at least two
elements — and which does not combine a list-valued subkey with a
set-typed `_default_bools` declaration, `SexpParser.__init__` resolves
the handler by the fixed cascade, first match winning: (1) positional
handler by sibling index, stored with dynamic-group action 3; (2)
required-unique handler by key, action 1; (3) always-group handler by
key, action 2; (4) declared default-boolean flag key, a default-true
flag with action 1; (5) the generic fallback with action 3.  A list
child with fewer than two elements records an `IndexError` with no
handler tried, and a list-valued subkey under a set-typed declaration
records a `TypeError` after step (3). -/
theorem C2_resolution_order (tbl : HandlerTable) (i : Nat) (entry : Tok) (sk : Tok)
    (hsk : rawSubkey entry = .ok sk)
    (hset : boolsIsSet tbl.bools = true → sk.isList = false) :
    resolveParse tbl i entry = .ok (
      match tbl.pos i with
      | some h => (some h, 3)
      | none =>
        match (lookupName sk).bind tbl.parse1 with
        | some h => (some h, 1)
        | none =>
          match (lookupName sk).bind tbl.parseG with
          | some h => (some h, 2)
          | none =>
            match sk with
            | .atom s =>
                if (boolsList tbl.bools).contains s then (some dtrueHandler, 1)
                else (none, 3)
            | _ => (none, 3)) := by
  simp only [resolveParse, hsk]
  cases tbl.pos i with
  | some h => rfl
  | none =>
    cases (lookupName sk).bind tbl.parse1 with
    | some h => rfl
    | none =>
      cases (lookupName sk).bind tbl.parseG with
      | some h => rfl
      | none =>
        cases sk with
        | atom s =>
            simp only []
            by_cases hc : s ∈ boolsList tbl.bools <;> simp [hc]
        | num n => simp
        | list xs =>
            by_cases hbs : boolsIsSet tbl.bools
            · exact absurd (hset hbs) (by simp [Tok.isList])
            · simp [hbs]

/-- A bypassing handler and a one-entry `_parse1_k` table for the C2
witness. -/
def skipHandler : Handler := fun _ => .ok none

def tblW2 : HandlerTable :=
  mkTable (fun s => if s = "k" then some skipHandler else none) (fun _ => none) .nodecl

/-- Witness for C2 (amended): a `(k v)` child under a `_parse1_k`
declaration resolves to that handler with the unique-or-error
action. -/
theorem C2_resolution_order_witness :
    rawSubkey (Tok.list [.num 1, .atom "k", .atom "v"]) = .ok (.atom "k") ∧
    resolveParse tblW2 0 (Tok.list [.num 1, .atom "k", .atom "v"]) =
      .ok (some skipHandler, 1) := by
  refine ⟨rfl, ?_⟩
  have h := C2_resolution_order tblW2 0 (Tok.list [.num 1, .atom "k", .atom "v"])
    (.atom "k") rfl (fun hb => absurd hb (by decide))
  rw [h]
  rfl


/-- The handler-invocation step of the dispatch loop: the resolved
handler, or the `_parse` fallback (an override, or the inherited
`parseDefault`). -/
def invokeOf (tbl : HandlerTable) (i : Nat) (entry : Tok) (h? : Option Handler) :
    Except String (Option Sexp) :=
  match h? with
  | some h => h entry
  | none =>
      match tbl.fallb with
      | some f => f i entry
      | none => parseDefaultFn entry

/-- C9: any exception raised while resolving or invoking a handler for
one child is caught and recorded in the node's local error list as a
tuple of message and offending token — with the full parent token
added when the offending entry is an atom — and processing continues
with the next sibling, leaving the dictionary untouched by the failed
child. -/
theorem C9_error_isolation (tbl : HandlerTable) (data : List Tok) (i : Nat) (entry : Tok)
    (st : PState) :
    (∀ e, resolveParse tbl i entry = .error e →
        processOne tbl data i entry st = ⟨st.dict, st.errs ++ [mkErrTuple e entry data]⟩) ∧
    (∀ h? action e, resolveParse tbl i entry = .ok (h?, action) →
        invokeOf tbl i entry h? = .error e →
        processOne tbl data i entry st = ⟨st.dict, st.errs ++ [mkErrTuple e entry data]⟩) ∧
    (∀ e s, entry = .atom s → mkErrTuple e entry data = ⟨e, entry, some (.list data)⟩) ∧
    (∀ e xs, entry = .list xs → mkErrTuple e entry data = ⟨e, entry, none⟩) ∧
    (∀ rest, processChildren tbl data i (entry :: rest) st =
        processChildren tbl data (i + 1) rest (processOne tbl data i entry st)) := by
  refine ⟨?_, ?_, ?_, ?_, ?_⟩
  · intro e he
    rw [processOne_eq, he]
  · intro h? action e hr he
    simp only [invokeOf] at he
    rw [processOne_eq, hr]
    simp only [he]
  · intro e s hs
    subst hs
    rfl
  · intro e xs hs
    subst hs
    rfl
  · intro rest
    rw [processChildren]

/-- Witness for C9: the keyless child `()` raises `IndexError` during
resolution; the error is recorded (no parent token: the entry is not
an atom) and the dictionary stays empty. -/
theorem C9_error_isolation_witness :
    processOne emptyTable [Tok.num 1, Tok.atom "p", Tok.list []] 0 (Tok.list [])
      ⟨⟨[], 0⟩, []⟩ = ⟨⟨[], 0⟩, [⟨"IndexError", .list [], none⟩]⟩ :=
  (C9_error_isolation emptyTable [Tok.num 1, Tok.atom "p", Tok.list []] 0 (Tok.list [])
    ⟨⟨[], 0⟩, []⟩).1 "IndexError" rfl


/-! ### Key-tracking lemmas for the dispatch engine -/

theorem tokToKey_ne {t : Tok} {K : String} (h : lookupName t ≠ some K) :
    tokToKey t ≠ .ks K := by
  cases t with
  | atom s =>
      intro hc
      simp [tokToKey] at hc
      exact h (by simp [lookupName, hc])
  | num n => simp [tokToKey]
  | list xs => simp [tokToKey]

/-- The generic fallback never produces a node keyed by a string `K`
that is not the entry's own lookup name. -/
theorem parseDefault_key_ne {c sk : Tok} {K : String} {node : Sexp}
    (hsk : rawSubkey c = .ok sk) (hK : lookupName sk ≠ some K)
    (hres : parseDefaultFn c = .ok (some node)) : node.key ≠ some (.ks K) := by
  cases c with
  | atom s =>
      rw [parseDefaultFn] at hres
      simp at hres
      rw [← hres]
      simp [Sexp.key]
  | num n =>
      rw [parseDefaultFn] at hres
      simp at hres
  | list xs =>
      cases xs with
      | nil =>
          rw [parseDefaultFn] at hres
          simp at hres
          all_goals simp
      | cons a xs1 =>
        cases xs1 with
        | nil =>
            rw [parseDefaultFn] at hres
            simp at hres
            all_goals simp
        | cons kTok rest =>
            have hkt : sk = kTok := by
              rw [rawSubkey] at hsk
              simp at hsk
              exact hsk.symm
            subst hkt
            rw [parseDefaultFn] at hres
            by_cases hany : rest.any Tok.isList
            · rw [if_pos hany] at hres
              cases hini : sexpInit emptyTable (a :: sk :: rest) with
              | error e => rw [hini] at hres; simp at hres
              | ok nd =>
                  rw [hini] at hres
                  simp at hres
                  rw [← hres]
                  rw [sexpInit] at hini
                  simp at hini
                  rw [← hini]
                  simp [Sexp.key]
                  exact tokToKey_ne hK
            · rw [if_neg hany] at hres
              simp at hres
              rw [← hres]
              simp [Sexp.key]
              exact tokToKey_ne hK


/-- The key under which `dictAdd` stores (after the un-named
assignment). -/
def addKeyOf (st : DState) (sexp : Sexp) : SKey :=
  match sexp.key with
  | none => .ki st.idx
  | some k => k

/-- `dictAdd` either leaves the entries unchanged or writes a single
slot at its add key. -/
theorem dictAdd_entries_shape (st : DState) (sexp : Sexp) (a : Nat) :
    (dictAdd st sexp a).1.entries = st.entries ∨
    ∃ v, (dictAdd st sexp a).1.entries = dictSet st.entries (addKeyOf st sexp) v := by
  rw [dictAdd, addKeyOf]
  cases hk : sexp.key with
  | none =>
      simp only [hk]
      repeat' split
      all_goals first
        | (left; rfl)
        | (right; exact ⟨_, rfl⟩)
  | some k =>
      simp only [hk]
      repeat' split
      all_goals first
        | (left; rfl)
        | (right; exact ⟨_, rfl⟩)

theorem dictAdd_find_ks_ne (st : DState) (sexp : Sexp) (a : Nat) (Ks : String)
    (h : sexp.key ≠ some (.ks Ks)) :
    dictFind (dictAdd st sexp a).1.entries (.ks Ks) = dictFind st.entries (.ks Ks) := by
  rcases dictAdd_entries_shape st sexp a with hs | ⟨v, hs⟩
  · rw [hs]
  · rw [hs]
    apply dictFind_dictSet_ne
    rw [addKeyOf]
    cases hk : sexp.key with
    | none => simp
    | some k =>
        simp only [hk]
        intro hc
        exact h (by rw [hk, hc])


theorem dictAdd_new_plain (st : DState) (sexp : Sexp) (a : Nat) (k : SKey)
    (hk : sexp.key = some k) (hh : hashableKey k = true)
    (hf : dictFind st.entries k = none) (ha0 : a ≠ 0) (ha2 : a ≠ 2) :
    dictAdd st sexp a = (⟨dictSet st.entries k sexp, st.idx⟩, none) := by
  rw [dictAdd]
  simp [hk, hh, hf, ha0, ha2]

theorem dictAdd_new_group (st : DState) (sexp : Sexp) (k : SKey)
    (hk : sexp.key = some k) (hh : hashableKey k = true)
    (hf : dictFind st.entries k = none) (hsl : sexp.isSlist = false) :
    dictAdd st sexp 2 = (⟨dictSet st.entries k (.slist (some k) [sexp]), st.idx⟩, none) := by
  have hnew : slNew (some k) [sexp] = .ok [sexp] := by
    cases sexp <;> simp_all [slNew, slAppendMany, slAppendOne, Sexp.isSlist, Sexp.key]
  rw [dictAdd]
  simp [hk, hh, hf, hnew]

theorem dictAdd_dup1 (st : DState) (sexp : Sexp) (k : SKey) (v : Sexp)
    (hk : sexp.key = some k) (hh : hashableKey k = true)
    (hf : dictFind st.entries k = some v) :
    dictAdd st sexp 1 = (⟨st.entries, st.idx⟩, some "duplicate key") := by
  rw [dictAdd]
  simp [hk, hh, hf]

theorem dictAdd_find_keep1 (st : DState) (sexp : Sexp) (Ks : String) (v : Sexp)
    (hf : dictFind st.entries (.ks Ks) = some v) :
    dictFind (dictAdd st sexp 1).1.entries (.ks Ks) = some v := by
  by_cases hk : sexp.key = some (.ks Ks)
  · rw [dictAdd_dup1 st sexp (.ks Ks) v hk (by rw [hashableKey]; simp) hf]
    exact hf
  · rw [dictAdd_find_ks_ne st sexp 1 Ks hk]
    exact hf


/-- Case analysis of a successful resolution under a `mkTable` (no
positional handlers, inherited fallback). -/
theorem resolveParse_mkTable {p1 pg : String → Option Handler} {bd : BoolsDecl}
    {i : Nat} {entry : Tok} {h? : Option Handler} {action : Nat}
    (hr : resolveParse (mkTable p1 pg bd) i entry = .ok (h?, action)) :
    ∃ sk, rawSubkey entry = .ok sk ∧
      ((∃ s h, lookupName sk = some s ∧ p1 s = some h ∧ h? = some h ∧ action = 1) ∨
       (∃ s h, lookupName sk = some s ∧ p1 s = none ∧ pg s = some h ∧
          h? = some h ∧ action = 2) ∨
       (∃ s, sk = .atom s ∧ p1 s = none ∧ pg s = none ∧ s ∈ boolsList bd ∧
          h? = some dtrueHandler ∧ action = 1) ∨
       (h? = none ∧ action = 3 ∧
          (∀ s, lookupName sk = some s → p1 s = none ∧ pg s = none) ∧
          (∀ s, sk = .atom s → s ∉ boolsList bd))) := by
  rw [resolveParse] at hr
  cases hsk : rawSubkey entry with
  | error e => rw [hsk] at hr; simp at hr
  | ok sk =>
      rw [hsk] at hr
      refine ⟨sk, rfl, ?_⟩
      simp only [mkTable] at hr
      cases hl : lookupName sk with
      | none =>
          rw [hl] at hr
          simp only [Option.bind] at hr
          cases sk with
          | atom s => simp [lookupName] at hl
          | num n => simp [lookupName] at hl
          | list xs =>
              by_cases hbs : boolsIsSet bd
              · simp [hbs] at hr
              · simp [hbs] at hr
                refine Or.inr (Or.inr (Or.inr ⟨hr.1.symm, hr.2.symm, ?_, ?_⟩))
                · intro s hs
                  simp [lookupName] at hs
                · intro s hs
                  simp at hs
      | some s0 =>
          rw [hl] at hr
          simp only [Option.bind] at hr
          cases hp1 : p1 s0 with
          | some h =>
              rw [hp1] at hr
              simp at hr
              exact Or.inl ⟨s0, h, rfl, hp1, hr.1.symm, hr.2.symm⟩
          | none =>
              rw [hp1] at hr
              cases hpg : pg s0 with
              | some h =>
                  rw [hpg] at hr
                  simp at hr
                  exact Or.inr (Or.inl ⟨s0, h, rfl, hp1, hpg, hr.1.symm, hr.2.symm⟩)
              | none =>
                  rw [hpg] at hr
                  cases sk with
                  | atom s =>
                      have hss : s = s0 := by simp [lookupName] at hl; exact hl
                      subst hss
                      by_cases hb : s ∈ boolsList bd
                      · simp [hb] at hr
                        exact Or.inr (Or.inr (Or.inl ⟨s, rfl, hp1, hpg, hb,
                          hr.1.symm, hr.2.symm⟩))
                      · simp [hb] at hr
                        refine Or.inr (Or.inr (Or.inr ⟨hr.1.symm, hr.2.symm, ?_, ?_⟩))
                        · intro s1 hs1
                          simp [lookupName] at hs1
                          subst hs1
                          exact ⟨hp1, hpg⟩
                        · intro s1 hs1
                          simp at hs1
                          subst hs1
                          exact hb
                  | num n =>
                      simp at hr
                      have hs0 : s0 = toString n := by
                        simp [lookupName] at hl
                        exact hl.symm
                      refine Or.inr (Or.inr (Or.inr ⟨hr.1.symm, hr.2.symm, ?_, ?_⟩))
                      · intro s1 hs1
                        simp [lookupName] at hs1
                        subst hs1
                        exact ⟨hp1, hpg⟩
                      · intro s1 hs1
                        simp at hs1
                  | list xs =>
                      simp [lookupName] at hl


/-- `processOne` through `invokeOf`. -/
theorem processOne_eq2 (tbl : HandlerTable) (data : List Tok) (i : Nat) (entry : Tok)
    (st : PState) :
    processOne tbl data i entry st =
      match resolveParse tbl i entry with
      | .error e => ⟨st.dict, st.errs ++ [mkErrTuple e entry data]⟩
      | .ok (h?, action) =>
        match invokeOf tbl i entry h? with
        | .error e => ⟨st.dict, st.errs ++ [mkErrTuple e entry data]⟩
        | .ok none => st
        | .ok (some sexp) =>
          match dictAdd st.dict sexp action with
          | (d', none) => ⟨d', st.errs⟩
          | (d', some e) => ⟨d', st.errs ++ [mkErrTuple e entry data]⟩ := by
  rw [processOne_eq]
  rfl

/-- Processing a child whose subkey does not resolve to `K` leaves the
binding at string key `K` unchanged, provided handlers declared for
other names never return `K`-keyed nodes. -/
theorem processOne_find_ne (p1 pg : String → Option Handler) (bd : BoolsDecl) (K : String)
    (hp1n : ∀ s h, s ≠ K → p1 s = some h →
      ∀ t v, h t = .ok (some v) → v.key ≠ some (.ks K))
    (hpgn : ∀ s h, s ≠ K → pg s = some h →
      ∀ t v, h t = .ok (some v) → v.key ≠ some (.ks K))
    (data : List Tok) (i : Nat) (entry : Tok) (st : PState)
    (hocc : subkeyIs K entry = false) :
    dictFind (processOne (mkTable p1 pg bd) data i entry st).dict.entries (.ks K) =
      dictFind st.dict.entries (.ks K) := by
  rw [processOne_eq2]
  cases hr : resolveParse (mkTable p1 pg bd) i entry with
  | error e => rfl
  | ok pr =>
    obtain ⟨h?, action⟩ := pr
    obtain ⟨sk, hsk, hcase⟩ := resolveParse_mkTable hr
    have hKne : lookupName sk ≠ some K := by
      rw [subkeyIs, hsk] at hocc
      simpa using hocc
    simp only []
    cases hinv : invokeOf (mkTable p1 pg bd) i entry h? with
    | error e => rfl
    | ok o =>
      cases o with
      | none => rfl
      | some v =>
        have hvk : v.key ≠ some (.ks K) := by
          rcases hcase with ⟨s, h, hl, hp1, hh, _⟩ | ⟨s, h, hl, _, hpg, hh, _⟩ |
            ⟨s, hska, _, _, _, hh, _⟩ | ⟨hh, _, hfb, _⟩
          · have hsne : s ≠ K := fun hc => hKne (hc ▸ hl)
            rw [hh] at hinv
            rw [invokeOf] at hinv
            exact hp1n s h hsne hp1 entry v hinv
          · have hsne : s ≠ K := fun hc => hKne (hc ▸ hl)
            rw [hh] at hinv
            rw [invokeOf] at hinv
            exact hpgn s h hsne hpg entry v hinv
          · subst hska
            have hsne : s ≠ K := by
              intro hc
              exact hKne (by rw [lookupName, hc])
            rw [hh, invokeOf] at hinv
            cases entry with
            | atom s1 =>
                have : Tok.atom s1 = Tok.atom s := by
                  rw [rawSubkey] at hsk
                  · simpa using hsk
                  · simp
                rw [dtrueHandler] at hinv
                simp at hinv
                rw [← hinv]
                simp [Sexp.key]
                intro hc
                exact hsne (by injection this with h2; rw [← hc, h2])
                all_goals simp
            | num n =>
                rw [dtrueHandler] at hinv
                simp at hinv
                all_goals simp
            | list xs =>
                rw [dtrueHandler] at hinv
                simp at hinv
                all_goals simp
          · rw [hh, invokeOf] at hinv
            simp only [mkTable] at hinv
            exact parseDefault_key_ne hsk hKne hinv
        have hfind := dictAdd_find_ks_ne st.dict v action K hvk
        cases hadd : dictAdd st.dict v action with
        | mk d' e? =>
            rw [hadd] at hfind
            cases e? with
            | none =>
                simp only [hadd]
                simpa using hfind
            | some e =>
                simp only [hadd]
                simpa using hfind


theorem resolveParse_parse1_hit {p1 pg : String → Option Handler} {bd : BoolsDecl}
    {i : Nat} {entry sk : Tok} {K : String} {h : Handler}
    (hsk : rawSubkey entry = .ok sk) (hl : lookupName sk = some K)
    (hp1 : p1 K = some h) :
    resolveParse (mkTable p1 pg bd) i entry = .ok (some h, 1) := by
  simp only [resolveParse, hsk, mkTable, hl, hp1, Option.bind]

theorem resolveParse_parseG_hit {p1 pg : String → Option Handler} {bd : BoolsDecl}
    {i : Nat} {entry sk : Tok} {K : String} {h : Handler}
    (hsk : rawSubkey entry = .ok sk) (hl : lookupName sk = some K)
    (hp1 : p1 K = none) (hpg : pg K = some h) :
    resolveParse (mkTable p1 pg bd) i entry = .ok (some h, 2) := by
  simp only [resolveParse, hsk, mkTable, hl, hp1, hpg, Option.bind]

theorem resolveParse_bools_hit {p1 pg : String → Option Handler} {bd : BoolsDecl}
    {i : Nat} {entry : Tok} {F : String}
    (hsk : rawSubkey entry = .ok (.atom F))
    (hp1 : p1 F = none) (hpg : pg F = none) (hb : F ∈ boolsList bd) :
    resolveParse (mkTable p1 pg bd) i entry = .ok (some dtrueHandler, 1) := by
  simp only [resolveParse, hsk, mkTable, lookupName, hp1, hpg, Option.bind]
  simp [hb]

/-- Storing the first occurrence under a required-unique handler. -/
theorem processOne_parse1_store {p1 pg : String → Option Handler} {bd : BoolsDecl}
    {data : List Tok} {i : Nat} {entry sk : Tok} {K : String} {h : Handler} {v : Sexp}
    {st : PState}
    (hsk : rawSubkey entry = .ok sk) (hl : lookupName sk = some K)
    (hp1 : p1 K = some h) (hv : h entry = .ok (some v)) (hvk : v.key = some (.ks K))
    (hnew : dictFind st.dict.entries (.ks K) = none) :
    processOne (mkTable p1 pg bd) data i entry st =
      ⟨⟨dictSet st.dict.entries (.ks K) v, st.dict.idx⟩, st.errs⟩ := by
  rw [processOne_eq2, resolveParse_parse1_hit hsk hl hp1]
  simp only [invokeOf, hv]
  rw [dictAdd_new_plain st.dict v 1 (.ks K) hvk (by simp [hashableKey]) hnew
    (by simp) (by simp)]

/-- A second occurrence under a required-unique handler: duplicate-key
error recorded, dictionary untouched. -/
theorem processOne_parse1_dup {p1 pg : String → Option Handler} {bd : BoolsDecl}
    {data : List Tok} {i : Nat} {entry sk : Tok} {K : String} {h : Handler} {v2 w : Sexp}
    {st : PState}
    (hsk : rawSubkey entry = .ok sk) (hl : lookupName sk = some K)
    (hp1 : p1 K = some h) (hv : h entry = .ok (some v2)) (hvk : v2.key = some (.ks K))
    (hold : dictFind st.dict.entries (.ks K) = some w) :
    processOne (mkTable p1 pg bd) data i entry st =
      ⟨st.dict, st.errs ++ [mkErrTuple "duplicate key" entry data]⟩ := by
  rw [processOne_eq2, resolveParse_parse1_hit hsk hl hp1]
  simp only [invokeOf, hv]
  rw [dictAdd_dup1 st.dict v2 (.ks K) w hvk (by simp [hashableKey]) hold]

/-- Storing a single occurrence under an always-group handler: the
value is wrapped in a one-member `SexpList`. -/
theorem processOne_parseG_store {p1 pg : String → Option Handler} {bd : BoolsDecl}
    {data : List Tok} {i : Nat} {entry sk : Tok} {K : String} {h : Handler} {v : Sexp}
    {st : PState}
    (hsk : rawSubkey entry = .ok sk) (hl : lookupName sk = some K)
    (hp1 : p1 K = none) (hpg : pg K = some h) (hv : h entry = .ok (some v))
    (hvk : v.key = some (.ks K)) (hsl : v.isSlist = false)
    (hnew : dictFind st.dict.entries (.ks K) = none) :
    processOne (mkTable p1 pg bd) data i entry st =
      ⟨⟨dictSet st.dict.entries (.ks K) (.slist (some (.ks K)) [v]), st.dict.idx⟩,
        st.errs⟩ := by
  rw [processOne_eq2, resolveParse_parseG_hit hsk hl hp1 hpg]
  simp only [invokeOf, hv]
  rw [dictAdd_new_group st.dict v (.ks K) hvk (by simp [hashableKey]) hnew hsl]

/-- The bare-atom default-boolean hit with the flag not yet present:
a true flag is stored. -/
theorem processOne_dtrue_store {p1 pg : String → Option Handler} {bd : BoolsDecl}
    {data : List Tok} {i : Nat} {F : String} {st : PState}
    (hp1 : p1 F = none) (hpg : pg F = none) (hb : F ∈ boolsList bd)
    (hnew : dictFind st.dict.entries (.ks F) = none) :
    processOne (mkTable p1 pg bd) data i (.atom F) st =
      ⟨⟨dictSet st.dict.entries (.ks F) (.dtrue F true), st.dict.idx⟩, st.errs⟩ := by
  rw [processOne_eq2, resolveParse_bools_hit (by rw [rawSubkey] <;> simp) hp1 hpg hb]
  simp only [invokeOf, dtrueHandler]
  rw [dictAdd_new_plain st.dict (.dtrue F true) 1 (.ks F) (by simp [Sexp.key])
    (by simp [hashableKey]) hnew (by simp) (by simp)]

/-- The bare-atom default-boolean hit with the flag already present:
duplicate-key error, binding untouched. -/
theorem processOne_dtrue_dup {p1 pg : String → Option Handler} {bd : BoolsDecl}
    {data : List Tok} {i : Nat} {F : String} {w : Sexp} {st : PState}
    (hp1 : p1 F = none) (hpg : pg F = none) (hb : F ∈ boolsList bd)
    (hold : dictFind st.dict.entries (.ks F) = some w) :
    processOne (mkTable p1 pg bd) data i (.atom F) st =
      ⟨st.dict, st.errs ++ [mkErrTuple "duplicate key" (.atom F) data]⟩ := by
  rw [processOne_eq2, resolveParse_bools_hit (by rw [rawSubkey] <;> simp) hp1 hpg hb]
  simp only [invokeOf, dtrueHandler]
  rw [dictAdd_dup1 st.dict (.dtrue F true) (.ks F) w (by simp [Sexp.key])
    (by simp [hashableKey]) hold]


/-- The error list only ever grows. -/
theorem processOne_errs_mono (tbl : HandlerTable) (data : List Tok) (i : Nat)
    (entry : Tok) (st : PState) :
    ∃ t, (processOne tbl data i entry st).errs = st.errs ++ t := by
  rw [processOne_eq2]
  split
  · exact ⟨_, rfl⟩
  · split
    · exact ⟨_, rfl⟩
    · exact ⟨[], by simp⟩
    · split
      · exact ⟨[], by simp⟩
      · exact ⟨_, rfl⟩

theorem processChildren_errs_mono (tbl : HandlerTable) (data : List Tok) :
    ∀ (cs : List Tok) (i : Nat) (st : PState),
    ∃ t, (processChildren tbl data i cs st).errs = st.errs ++ t := by
  intro cs
  induction cs with
  | nil => intro i st; exact ⟨[], by rw [processChildren]; simp⟩
  | cons c rest ih =>
      intro i st
      rw [processChildren]
      obtain ⟨t1, h1⟩ := processOne_errs_mono tbl data i c st
      obtain ⟨t2, h2⟩ := ih (i + 1) (processOne tbl data i c st)
      exact ⟨t1 ++ t2, by rw [h2, h1, List.append_assoc]⟩

/-- The effect of the final default-boolean pass on one string key. -/
theorem finalBools_find (bs : List String) (d : DState) (F : String) :
    dictFind (finalBools bs d).entries (.ks F) =
      match dictFind d.entries (.ks F) with
      | some v => some v
      | none => if F ∈ bs then some (.dtrue F false) else none := by
  induction bs generalizing d with
  | nil => rw [finalBools]; cases dictFind d.entries (.ks F) <;> simp
  | cons k rest ih =>
      rw [finalBools]
      by_cases hk : (dictFind d.entries (.ks k)).isSome
      · rw [if_pos hk, ih]
        by_cases hkF : k = F
        · subst hkF
          obtain ⟨v, hv⟩ := Option.isSome_iff_exists.mp hk
          simp [hv]
        · have hFk : F ≠ k := fun h => hkF h.symm
          cases hf : dictFind d.entries (.ks F) <;> simp [hkF, hFk, hf]
      · rw [if_neg hk, ih]
        by_cases hkF : k = F
        · subst hkF
          have hf : dictFind d.entries (.ks k) = none := by
            cases h : dictFind d.entries (.ks k)
            · rfl
            · rw [h] at hk; simp at hk
          simp [hf, dictFind_dictSet_self]
        · have hne : SKey.ks k ≠ SKey.ks F := by simp [hkF]
          have hFk : F ≠ k := fun h => hkF h.symm
          rw [dictFind_dictSet_ne _ _ _ _ hne]
          cases hf : dictFind d.entries (.ks F) <;> simp [hkF, hFk, hf]


/-- Fallback results for a numeric subkey are never string-keyed. -/
theorem parseDefault_key_num {c : Tok} {n : Nat} {node : Sexp} {F : String}
    (hsk : rawSubkey c = .ok (.num n))
    (hres : parseDefaultFn c = .ok (some node)) : node.key ≠ some (.ks F) := by
  cases c with
  | atom s =>
      rw [rawSubkey] at hsk
      · simp at hsk
      · simp
  | num m =>
      rw [parseDefaultFn] at hres
      simp at hres
  | list xs =>
      cases xs with
      | nil =>
          rw [parseDefaultFn] at hres
          simp at hres
          all_goals simp
      | cons a xs1 =>
        cases xs1 with
        | nil =>
            rw [parseDefaultFn] at hres
            simp at hres
            all_goals simp
        | cons kTok rest =>
            have hkt : (Tok.num n) = kTok := by
              rw [rawSubkey] at hsk
              simpa using hsk.symm
            subst hkt
            rw [parseDefaultFn] at hres
            by_cases hany : rest.any Tok.isList
            · rw [if_pos hany] at hres
              cases hini : sexpInit emptyTable (a :: Tok.num n :: rest) with
              | error e => rw [hini] at hres; simp at hres
              | ok nd =>
                  rw [hini] at hres
                  simp at hres
                  rw [← hres]
                  rw [sexpInit] at hini
                  simp at hini
                  rw [← hini]
                  simp [Sexp.key, tokToKey]
            · rw [if_neg hany] at hres
              simp at hres
              rw [← hres]
              simp [Sexp.key, tokToKey]

theorem subkeyIs_atom_self (F : String) : subkeyIs F (.atom F) = true := by
  simp [subkeyIs, rawSubkey, lookupName]

theorem rawSubkey_num (m : Nat) : rawSubkey (Tok.num m) = .ok (.num m) := rfl

theorem rawSubkey_atom (s : String) : rawSubkey (Tok.atom s) = .ok (.atom s) := rfl

/-- One dispatch step seen through the default-boolean flag key `F`:
an existing binding is kept (a second bare `F` only records a
duplicate-key error), and an absent binding is filled with the
true-valued flag exactly when the child is the bare atom `F`. -/
theorem C5_step (p1 pg : String → Option Handler) (bd : BoolsDecl) (F : String)
    (hF : F ∈ boolsList bd) (hp1F : p1 F = none) (hpgF : pg F = none)
    (hp1n : ∀ s h, s ≠ F → p1 s = some h →
      ∀ t v, h t = .ok (some v) → v.key ≠ some (.ks F))
    (hpgn : ∀ s h, s ≠ F → pg s = some h →
      ∀ t v, h t = .ok (some v) → v.key ≠ some (.ks F))
    (data : List Tok) (i : Nat) (entry : Tok) (st : PState) :
    dictFind (processOne (mkTable p1 pg bd) data i entry st).dict.entries (.ks F) =
      match dictFind st.dict.entries (.ks F) with
      | some v => some v
      | none => if entry = Tok.atom F then some (.dtrue F true) else none := by
  by_cases hocc : subkeyIs F entry = true
  · rw [subkeyIs] at hocc
    cases hsk : rawSubkey entry with
    | error e => rw [hsk] at hocc; simp at hocc
    | ok sk =>
      rw [hsk] at hocc
      have hl : lookupName sk = some F := by simpa using hocc
      cases sk with
      | list xs2 => simp [lookupName] at hl
      | atom s =>
          have hsF : s = F := by simpa [lookupName] using hl
          subst hsF
          cases entry with
          | num m => rw [rawSubkey_num] at hsk; simp at hsk
          | atom s1 =>
              have hs1 : s1 = s := by
                rw [rawSubkey_atom] at hsk
                simpa using hsk
              subst hs1
              cases hold : dictFind st.dict.entries (.ks s1) with
              | none =>
                  rw [processOne_dtrue_store hp1F hpgF hF hold]
                  simp [dictFind_dictSet_self]
              | some w =>
                  rw [processOne_dtrue_dup hp1F hpgF hF hold]
                  simp [hold]
          | list xs =>
              rw [processOne_eq2, resolveParse_bools_hit hsk hp1F hpgF hF]
              simp only [invokeOf, dtrueHandler]
              cases hold : dictFind st.dict.entries (.ks s) <;> simp
      | num n =>
          have hres : resolveParse (mkTable p1 pg bd) i entry = .ok (none, 3) := by
            simp only [resolveParse, hsk, mkTable, hl, hp1F, hpgF, Option.bind]
          rw [processOne_eq2, hres]
          simp only [invokeOf, mkTable]
          have hne : entry ≠ Tok.atom F := by
            intro hc
            subst hc
            rw [rawSubkey_atom] at hsk
            simp at hsk
          cases hpd : parseDefaultFn entry with
          | error e =>
              cases hold : dictFind st.dict.entries (.ks F) <;> simp [hne]
          | ok o =>
            cases o with
            | none =>
                cases hold : dictFind st.dict.entries (.ks F) <;> simp [hne]
            | some v =>
                have hvk := parseDefault_key_num (F := F) hsk hpd
                have hfind := dictAdd_find_ks_ne st.dict v 3 F hvk
                cases hadd : dictAdd st.dict v 3 with
                | mk d' e? =>
                    rw [hadd] at hfind
                    cases e? with
                    | none =>
                        simp only [hadd]
                        cases hold : dictFind st.dict.entries (.ks F) <;>
                          simp_all [hne]
                    | some e =>
                        simp only [hadd]
                        cases hold : dictFind st.dict.entries (.ks F) <;>
                          simp_all [hne]
  · have hne : entry ≠ Tok.atom F := by
      intro hc
      subst hc
      rw [subkeyIs_atom_self] at hocc
      simp at hocc
    rw [processOne_find_ne p1 pg bd F hp1n hpgn data i entry st
      (by simpa using hocc)]
    cases hold : dictFind st.dict.entries (.ks F) <;> simp [hne]


/-- The dispatch loop seen through the flag key `F`. -/
theorem C5_loop (p1 pg : String → Option Handler) (bd : BoolsDecl) (F : String)
    (hF : F ∈ boolsList bd) (hp1F : p1 F = none) (hpgF : pg F = none)
    (hp1n : ∀ s h, s ≠ F → p1 s = some h →
      ∀ t v, h t = .ok (some v) → v.key ≠ some (.ks F))
    (hpgn : ∀ s h, s ≠ F → pg s = some h →
      ∀ t v, h t = .ok (some v) → v.key ≠ some (.ks F))
    (data : List Tok) :
    ∀ (cs : List Tok) (i : Nat) (st : PState),
    dictFind (processChildren (mkTable p1 pg bd) data i cs st).dict.entries (.ks F) =
      match dictFind st.dict.entries (.ks F) with
      | some v => some v
      | none => if Tok.atom F ∈ cs then some (.dtrue F true) else none := by
  intro cs
  induction cs with
  | nil =>
      intro i st
      rw [processChildren]
      cases hold : dictFind st.dict.entries (.ks F) <;> simp
  | cons c rest ih =>
      intro i st
      rw [processChildren, ih]
      rw [C5_step p1 pg bd F hF hp1F hpgF hp1n hpgn data i c st]
      cases hold : dictFind st.dict.entries (.ks F) with
      | some v => simp
      | none =>
          by_cases hc : c = Tok.atom F
          · subst hc
            simp
          · have hc2 : Tok.atom F ≠ c := fun h => hc h.symm
            simp [hc, hc2]


/-- C5: with `F` declared in `_default_bools` (its name shadowing no
`_parse1_`/`_parse_` handler, and no other handler producing an
`F`-keyed node), building any composite expression stores a flag child
under key `F` with no handler intervention: true-valued when the bare
atom `F` occurs among the children, explicitly false-valued when it
does not. -/
theorem C5_default_bool_flag (p1 pg : String → Option Handler) (bd : BoolsDecl)
    (F : String)
    (hF : F ∈ boolsList bd) (hp1F : p1 F = none) (hpgF : pg F = none)
    (hp1n : ∀ s h, s ≠ F → p1 s = some h →
      ∀ t v, h t = .ok (some v) → v.key ≠ some (.ks F))
    (hpgn : ∀ s h, s ≠ F → pg s = some h →
      ∀ t v, h t = .ok (some v) → v.key ≠ some (.ks F))
    (a kTok : Tok) (rest : List Tok) (k : Option SKey)
    (entries : List (SKey × Sexp)) (idx : Nat) (errs : List SErr)
    (hinit : sexpInit (mkTable p1 pg bd) (a :: kTok :: rest) =
      .ok (.parserNode k entries idx errs)) :
    (Tok.atom F ∈ rest → dictFind entries (.ks F) = some (.dtrue F true)) ∧
    (Tok.atom F ∉ rest → dictFind entries (.ks F) = some (.dtrue F false)) := by
  rw [sexpInit] at hinit
  simp only [Except.ok.injEq] at hinit
  have hent : entries =
      (finalBools (boolsList (mkTable p1 pg bd).bools)
        (processChildren (mkTable p1 pg bd) (a :: kTok :: rest) 0 rest
          ⟨⟨[], 0⟩, []⟩).dict).entries := by
    cases hinit.symm
    rfl
  subst hent
  rw [finalBools_find]
  rw [C5_loop p1 pg bd F hF hp1F hpgF hp1n hpgn (a :: kTok :: rest) rest 0
    ⟨⟨[], 0⟩, []⟩]
  have hnil : dictFind (⟨⟨[], 0⟩, []⟩ : PState).dict.entries (.ks F) = none := rfl
  rw [hnil]
  constructor
  · intro hmem
    simp [hmem]
  · intro hmem
    have hbools : F ∈ boolsList (mkTable p1 pg bd).bools := hF
    simp [hmem, hbools]


theorem C5_default_bool_flag_witness :
    (Tok.atom "flag" ∈ [Tok.atom "flag"] →
      dictFind [(SKey.ks "flag", Sexp.dtrue "flag" true)] (.ks "flag") =
        some (.dtrue "flag" true)) ∧
    (Tok.atom "flag" ∉ [Tok.atom "flag"] →
      dictFind [(SKey.ks "flag", Sexp.dtrue "flag" true)] (.ks "flag") =
        some (.dtrue "flag" false)) :=
  C5_default_bool_flag (fun _ => none) (fun _ => none) (.single "flag") "flag"
    (by simp [boolsList]) rfl rfl
    (by intro s h hne hc; cases hc) (by intro s h hne hc; cases hc)
    (Tok.num 0) (Tok.atom "k") [Tok.atom "flag"] (some (.ks "k"))
    [(SKey.ks "flag", Sexp.dtrue "flag" true)] 0 [] (by decide)


/-- Splitting the dispatch loop over an append. -/
theorem processChildren_append (tbl : HandlerTable) (data : List Tok) :
    ∀ (xs ys : List Tok) (i : Nat) (st : PState),
    processChildren tbl data i (xs ++ ys) st =
      processChildren tbl data (i + xs.length) ys (processChildren tbl data i xs st) := by
  intro xs
  induction xs with
  | nil => intro ys i st; rw [processChildren]; simp
  | cons x xs ih =>
      intro ys i st
      rw [List.cons_append, processChildren, processChildren, ih]
      have hi : i + (x :: xs).length = i + 1 + xs.length := by simp; omega
      rw [hi]

/-- A binding under a required-unique key survives any single dispatch
step: another occurrence of `K` only records a duplicate-key error. -/
theorem C4_keep_step (p1 pg : String → Option Handler) (bd : BoolsDecl)
    (K : String) (h : Handler) (hp1K : p1 K = some h)
    (hp1n : ∀ s h', s ≠ K → p1 s = some h' →
      ∀ t v, h' t = .ok (some v) → v.key ≠ some (.ks K))
    (hpgn : ∀ s h', s ≠ K → pg s = some h' →
      ∀ t v, h' t = .ok (some v) → v.key ≠ some (.ks K))
    (data : List Tok) (i : Nat) (entry : Tok) (st : PState) (v : Sexp)
    (hold : dictFind st.dict.entries (.ks K) = some v) :
    dictFind (processOne (mkTable p1 pg bd) data i entry st).dict.entries (.ks K) =
      some v := by
  by_cases hocc : subkeyIs K entry = true
  · rw [subkeyIs] at hocc
    cases hsk : rawSubkey entry with
    | error e => rw [hsk] at hocc; simp at hocc
    | ok sk =>
      rw [hsk] at hocc
      have hl : lookupName sk = some K := by simpa using hocc
      rw [processOne_eq2, resolveParse_parse1_hit hsk hl hp1K]
      simp only [invokeOf]
      cases hret : h entry with
      | error e => exact hold
      | ok o =>
        cases o with
        | none => exact hold
        | some v2 =>
            have hkeep := dictAdd_find_keep1 st.dict v2 K v hold
            cases hadd : dictAdd st.dict v2 1 with
            | mk d' e? =>
                rw [hadd] at hkeep
                cases e? <;> (simp only [hadd]; simpa using hkeep)
  · rw [processOne_find_ne p1 pg bd K hp1n hpgn data i entry st
      (by simpa using hocc)]
    exact hold

/-- A binding under a required-unique key survives the rest of the
dispatch loop. -/
theorem C4_keep_loop (p1 pg : String → Option Handler) (bd : BoolsDecl)
    (K : String) (h : Handler) (hp1K : p1 K = some h)
    (hp1n : ∀ s h', s ≠ K → p1 s = some h' →
      ∀ t v, h' t = .ok (some v) → v.key ≠ some (.ks K))
    (hpgn : ∀ s h', s ≠ K → pg s = some h' →
      ∀ t v, h' t = .ok (some v) → v.key ≠ some (.ks K))
    (data : List Tok) :
    ∀ (cs : List Tok) (i : Nat) (st : PState) (v : Sexp),
    dictFind st.dict.entries (.ks K) = some v →
    dictFind (processChildren (mkTable p1 pg bd) data i cs st).dict.entries (.ks K) =
      some v := by
  intro cs
  induction cs with
  | nil => intro i st v hold; rw [processChildren]; exact hold
  | cons c rest ih =>
      intro i st v hold
      rw [processChildren]
      exact ih (i + 1) _ v
        (C4_keep_step p1 pg bd K h hp1K hp1n hpgn data i c st v hold)

/-- Children whose subkey is not `K` leave the binding at `K` alone. -/
theorem C4_skip_loop (p1 pg : String → Option Handler) (bd : BoolsDecl)
    (K : String)
    (hp1n : ∀ s h', s ≠ K → p1 s = some h' →
      ∀ t v, h' t = .ok (some v) → v.key ≠ some (.ks K))
    (hpgn : ∀ s h', s ≠ K → pg s = some h' →
      ∀ t v, h' t = .ok (some v) → v.key ≠ some (.ks K))
    (data : List Tok) :
    ∀ (cs : List Tok), (∀ c ∈ cs, subkeyIs K c = false) →
    ∀ (i : Nat) (st : PState),
    dictFind (processChildren (mkTable p1 pg bd) data i cs st).dict.entries (.ks K) =
      dictFind st.dict.entries (.ks K) := by
  intro cs
  induction cs with
  | nil => intro hskip i st; rw [processChildren]
  | cons c rest ih =>
      intro hskip i st
      rw [processChildren, ih (fun c hc => hskip c (List.mem_cons_of_mem _ hc)) (i + 1)]
      exact processOne_find_ne p1 pg bd K hp1n hpgn data i c st
        (hskip c (List.mem_cons_self _ _))


/-- C4: with a required-unique handler declared for key `K`
(`_parse1_K`, no other handler producing `K`-keyed nodes), building a
composite expression whose children hold two occurrences of `K` — the
handler returning a `K`-keyed node on each — stores the node produced
from the first occurrence, keeps it untouched by the second occurrence,
and records a duplicate-key error tuple in the parent's error list. -/
theorem C4_required_unique_dup (p1 pg : String → Option Handler) (bd : BoolsDecl)
    (K : String) (h : Handler) (hp1K : p1 K = some h)
    (hp1n : ∀ s h', s ≠ K → p1 s = some h' →
      ∀ t v, h' t = .ok (some v) → v.key ≠ some (.ks K))
    (hpgn : ∀ s h', s ≠ K → pg s = some h' →
      ∀ t v, h' t = .ok (some v) → v.key ≠ some (.ks K))
    (a kTok c1 c2 sk1 sk2 : Tok) (pre mid post : List Tok) (v1 v2 : Sexp)
    (hpre : ∀ c ∈ pre, subkeyIs K c = false)
    (hmid : ∀ c ∈ mid, subkeyIs K c = false)
    (hsk1 : rawSubkey c1 = .ok sk1) (hl1 : lookupName sk1 = some K)
    (hsk2 : rawSubkey c2 = .ok sk2) (hl2 : lookupName sk2 = some K)
    (hv1 : h c1 = .ok (some v1)) (hvk1 : v1.key = some (.ks K))
    (hv2 : h c2 = .ok (some v2)) (hvk2 : v2.key = some (.ks K))
    (k : Option SKey) (entries : List (SKey × Sexp)) (idx : Nat) (errs : List SErr)
    (hinit : sexpInit (mkTable p1 pg bd) (a :: kTok :: (pre ++ c1 :: (mid ++ c2 :: post))) =
      .ok (.parserNode k entries idx errs)) :
    dictFind entries (.ks K) = some v1 ∧
      mkErrTuple "duplicate key" c2 (a :: kTok :: (pre ++ c1 :: (mid ++ c2 :: post))) ∈ errs := by
  rw [sexpInit] at hinit
  simp only [Except.ok.injEq] at hinit
  have hent : entries =
      (finalBools (boolsList (mkTable p1 pg bd).bools)
        (processChildren (mkTable p1 pg bd) (a :: kTok :: (pre ++ c1 :: (mid ++ c2 :: post))) 0
          (pre ++ c1 :: (mid ++ c2 :: post)) ⟨⟨[], 0⟩, []⟩).dict).entries := by
    cases hinit.symm
    rfl
  have herr : errs =
      (processChildren (mkTable p1 pg bd) (a :: kTok :: (pre ++ c1 :: (mid ++ c2 :: post))) 0
        (pre ++ c1 :: (mid ++ c2 :: post)) ⟨⟨[], 0⟩, []⟩).errs := by
    cases hinit.symm
    rfl
  subst hent
  subst herr
  have hsplit : processChildren (mkTable p1 pg bd) (a :: kTok :: (pre ++ c1 :: (mid ++ c2 :: post))) 0
      (pre ++ c1 :: (mid ++ c2 :: post)) ⟨⟨[], 0⟩, []⟩
      = processChildren (mkTable p1 pg bd) (a :: kTok :: (pre ++ c1 :: (mid ++ c2 :: post)))
          (0 + pre.length + 1 + mid.length + 1) post
          (processOne (mkTable p1 pg bd) (a :: kTok :: (pre ++ c1 :: (mid ++ c2 :: post)))
            (0 + pre.length + 1 + mid.length) c2
            (processChildren (mkTable p1 pg bd) (a :: kTok :: (pre ++ c1 :: (mid ++ c2 :: post)))
              (0 + pre.length + 1) mid
              (processOne (mkTable p1 pg bd) (a :: kTok :: (pre ++ c1 :: (mid ++ c2 :: post))) (0 + pre.length) c1
                (processChildren (mkTable p1 pg bd) (a :: kTok :: (pre ++ c1 :: (mid ++ c2 :: post))) 0 pre
                  ⟨⟨[], 0⟩, []⟩)))) := by
    rw [processChildren_append (mkTable p1 pg bd) (a :: kTok :: (pre ++ c1 :: (mid ++ c2 :: post)))
      pre (c1 :: (mid ++ c2 :: post)) 0 ⟨⟨[], 0⟩, []⟩]
    rw [processChildren]
    rw [processChildren_append (mkTable p1 pg bd) (a :: kTok :: (pre ++ c1 :: (mid ++ c2 :: post)))
      mid (c2 :: post) (0 + pre.length + 1) _]
    rw [processChildren]
  rw [hsplit]
  have hf1 : dictFind (processChildren (mkTable p1 pg bd) (a :: kTok :: (pre ++ c1 :: (mid ++ c2 :: post))) 0 pre
      ⟨⟨[], 0⟩, []⟩).dict.entries (.ks K) = none := by
    rw [C4_skip_loop p1 pg bd K hp1n hpgn (a :: kTok :: (pre ++ c1 :: (mid ++ c2 :: post))) pre hpre 0 ⟨⟨[], 0⟩, []⟩]
    rfl
  rw [processOne_parse1_store hsk1 hl1 hp1K hv1 hvk1 hf1]
  have hf2 : dictFind (dictSet (processChildren (mkTable p1 pg bd)
      (a :: kTok :: (pre ++ c1 :: (mid ++ c2 :: post))) 0 pre ⟨⟨[], 0⟩, []⟩).dict.entries (.ks K) v1) (.ks K) = some v1 :=
    dictFind_dictSet_self _ _ _
  have hf3 := C4_keep_loop p1 pg bd K h hp1K hp1n hpgn (a :: kTok :: (pre ++ c1 :: (mid ++ c2 :: post))) mid
    (0 + pre.length + 1)
    ⟨⟨dictSet (processChildren (mkTable p1 pg bd)
        (a :: kTok :: (pre ++ c1 :: (mid ++ c2 :: post))) 0 pre ⟨⟨[], 0⟩, []⟩).dict.entries (.ks K) v1,
      (processChildren (mkTable p1 pg bd)
        (a :: kTok :: (pre ++ c1 :: (mid ++ c2 :: post))) 0 pre ⟨⟨[], 0⟩, []⟩).dict.idx⟩,
      (processChildren (mkTable p1 pg bd) (a :: kTok :: (pre ++ c1 :: (mid ++ c2 :: post))) 0 pre ⟨⟨[], 0⟩, []⟩).errs⟩
    v1 hf2
  rw [processOne_parse1_dup hsk2 hl2 hp1K hv2 hvk2 hf3]
  constructor
  · have hf5 := C4_keep_loop p1 pg bd K h hp1K hp1n hpgn (a :: kTok :: (pre ++ c1 :: (mid ++ c2 :: post))) post
      (0 + pre.length + 1 + mid.length + 1)
      ⟨(processChildren (mkTable p1 pg bd) (a :: kTok :: (pre ++ c1 :: (mid ++ c2 :: post))) (0 + pre.length + 1) mid
          ⟨⟨dictSet (processChildren (mkTable p1 pg bd)
              (a :: kTok :: (pre ++ c1 :: (mid ++ c2 :: post))) 0 pre ⟨⟨[], 0⟩, []⟩).dict.entries (.ks K) v1,
            (processChildren (mkTable p1 pg bd)
              (a :: kTok :: (pre ++ c1 :: (mid ++ c2 :: post))) 0 pre ⟨⟨[], 0⟩, []⟩).dict.idx⟩,
            (processChildren (mkTable p1 pg bd)
              (a :: kTok :: (pre ++ c1 :: (mid ++ c2 :: post))) 0 pre ⟨⟨[], 0⟩, []⟩).errs⟩).dict,
        (processChildren (mkTable p1 pg bd) (a :: kTok :: (pre ++ c1 :: (mid ++ c2 :: post))) (0 + pre.length + 1) mid
          ⟨⟨dictSet (processChildren (mkTable p1 pg bd)
              (a :: kTok :: (pre ++ c1 :: (mid ++ c2 :: post))) 0 pre ⟨⟨[], 0⟩, []⟩).dict.entries (.ks K) v1,
            (processChildren (mkTable p1 pg bd)
              (a :: kTok :: (pre ++ c1 :: (mid ++ c2 :: post))) 0 pre ⟨⟨[], 0⟩, []⟩).dict.idx⟩,
            (processChildren (mkTable p1 pg bd)
              (a :: kTok :: (pre ++ c1 :: (mid ++ c2 :: post))) 0 pre ⟨⟨[], 0⟩, []⟩).errs⟩).errs ++
          [mkErrTuple "duplicate key" c2 (a :: kTok :: (pre ++ c1 :: (mid ++ c2 :: post)))]⟩
      v1 hf3
    rw [finalBools_find, hf5]
  · obtain ⟨t, ht⟩ := processChildren_errs_mono (mkTable p1 pg bd) (a :: kTok :: (pre ++ c1 :: (mid ++ c2 :: post))) post
      (0 + pre.length + 1 + mid.length + 1) _
    rw [ht]
    simp


theorem C4_required_unique_dup_witness :
    dictFind [(SKey.ks "k", Sexp.expr (some (SKey.ks "k")) EVal.enone)] (.ks "k") =
        some (Sexp.expr (some (SKey.ks "k")) EVal.enone) ∧
      mkErrTuple "duplicate key" (Tok.atom "k")
          [Tok.num 0, Tok.atom "top", Tok.atom "k", Tok.atom "k"] ∈
        [mkErrTuple "duplicate key" (Tok.atom "k")
          [Tok.num 0, Tok.atom "top", Tok.atom "k", Tok.atom "k"]] :=
  C4_required_unique_dup
    (fun s => if s = "k" then
        some (fun _ => Except.ok (some (Sexp.expr (some (SKey.ks "k")) EVal.enone)))
      else none)
    (fun _ => none) .nodecl "k"
    (fun _ => Except.ok (some (Sexp.expr (some (SKey.ks "k")) EVal.enone)))
    (by simp)
    (by intro s h' hne hc; simp [hne] at hc)
    (by intro s h' hne hc; cases hc)
    (Tok.num 0) (Tok.atom "top") (Tok.atom "k") (Tok.atom "k")
    (Tok.atom "k") (Tok.atom "k") [] [] []
    (Sexp.expr (some (SKey.ks "k")) EVal.enone)
    (Sexp.expr (some (SKey.ks "k")) EVal.enone)
    (by intro c hc; cases hc) (by intro c hc; cases hc)
    rfl rfl rfl rfl rfl (by simp [Sexp.key]) rfl (by simp [Sexp.key])
    (some (SKey.ks "top"))
    [(SKey.ks "k", Sexp.expr (some (SKey.ks "k")) EVal.enone)] 0
    [mkErrTuple "duplicate key" (Tok.atom "k")
      [Tok.num 0, Tok.atom "top", Tok.atom "k", Tok.atom "k"]]
    (by decide)


/-- C8: with an always-group handler declared for key `K` (`_parse_K`,
no other handler producing `K`-keyed nodes), building a composite
expression with a single occurrence of `K` stores under `K` a
one-member `SexpList` group wrapping the handler's node — never the
bare node itself. -/
theorem C8_always_group_single (p1 pg : String → Option Handler) (bd : BoolsDecl)
    (K : String) (h : Handler) (hp1K : p1 K = none) (hpgK : pg K = some h)
    (hp1n : ∀ s h', s ≠ K → p1 s = some h' →
      ∀ t v, h' t = .ok (some v) → v.key ≠ some (.ks K))
    (hpgn : ∀ s h', s ≠ K → pg s = some h' →
      ∀ t v, h' t = .ok (some v) → v.key ≠ some (.ks K))
    (a kTok c sk : Tok) (pre post : List Tok) (v : Sexp)
    (hpre : ∀ x ∈ pre, subkeyIs K x = false)
    (hpost : ∀ x ∈ post, subkeyIs K x = false)
    (hsk : rawSubkey c = .ok sk) (hl : lookupName sk = some K)
    (hv : h c = .ok (some v)) (hvk : v.key = some (.ks K))
    (hsl : v.isSlist = false)
    (k : Option SKey) (entries : List (SKey × Sexp)) (idx : Nat) (errs : List SErr)
    (hinit : sexpInit (mkTable p1 pg bd) (a :: kTok :: (pre ++ c :: post)) =
      .ok (.parserNode k entries idx errs)) :
    dictFind entries (.ks K) = some (.slist (some (.ks K)) [v]) := by
  rw [sexpInit] at hinit
  simp only [Except.ok.injEq] at hinit
  have hent : entries =
      (finalBools (boolsList (mkTable p1 pg bd).bools)
        (processChildren (mkTable p1 pg bd) (a :: kTok :: (pre ++ c :: post)) 0
          (pre ++ c :: post) ⟨⟨[], 0⟩, []⟩).dict).entries := by
    cases hinit.symm
    rfl
  subst hent
  have hsplit : processChildren (mkTable p1 pg bd) (a :: kTok :: (pre ++ c :: post)) 0
      (pre ++ c :: post) ⟨⟨[], 0⟩, []⟩
      = processChildren (mkTable p1 pg bd) (a :: kTok :: (pre ++ c :: post)) (0 + pre.length + 1) post
          (processOne (mkTable p1 pg bd) (a :: kTok :: (pre ++ c :: post)) (0 + pre.length) c
            (processChildren (mkTable p1 pg bd) (a :: kTok :: (pre ++ c :: post)) 0 pre ⟨⟨[], 0⟩, []⟩)) := by
    rw [processChildren_append (mkTable p1 pg bd) (a :: kTok :: (pre ++ c :: post))
      pre (c :: post) 0 ⟨⟨[], 0⟩, []⟩]
    rw [processChildren]
  rw [hsplit]
  have hf1 : dictFind (processChildren (mkTable p1 pg bd) (a :: kTok :: (pre ++ c :: post)) 0 pre
      ⟨⟨[], 0⟩, []⟩).dict.entries (.ks K) = none := by
    rw [C4_skip_loop p1 pg bd K hp1n hpgn (a :: kTok :: (pre ++ c :: post)) pre hpre 0 ⟨⟨[], 0⟩, []⟩]
    rfl
  rw [processOne_parseG_store hsk hl hp1K hpgK hv hvk hsl hf1]
  rw [finalBools_find]
  rw [C4_skip_loop p1 pg bd K hp1n hpgn (a :: kTok :: (pre ++ c :: post)) post hpost (0 + pre.length + 1)
    ⟨⟨dictSet (processChildren (mkTable p1 pg bd)
        (a :: kTok :: (pre ++ c :: post)) 0 pre ⟨⟨[], 0⟩, []⟩).dict.entries (.ks K)
        (.slist (some (.ks K)) [v]),
      (processChildren (mkTable p1 pg bd)
        (a :: kTok :: (pre ++ c :: post)) 0 pre ⟨⟨[], 0⟩, []⟩).dict.idx⟩,
      (processChildren (mkTable p1 pg bd) (a :: kTok :: (pre ++ c :: post)) 0 pre ⟨⟨[], 0⟩, []⟩).errs⟩]
  rw [show dictFind (dictSet (processChildren (mkTable p1 pg bd)
      (a :: kTok :: (pre ++ c :: post)) 0 pre ⟨⟨[], 0⟩, []⟩).dict.entries (.ks K)
      (.slist (some (.ks K)) [v])) (.ks K) = some (.slist (some (.ks K)) [v]) from
    dictFind_dictSet_self _ _ _]

theorem C8_always_group_single_witness :
    dictFind [(SKey.ks "g",
        Sexp.slist (some (SKey.ks "g")) [Sexp.expr (some (SKey.ks "g")) EVal.enone])]
      (.ks "g") =
      some (Sexp.slist (some (SKey.ks "g"))
        [Sexp.expr (some (SKey.ks "g")) EVal.enone]) :=
  C8_always_group_single
    (fun _ => none)
    (fun s => if s = "g" then
        some (fun _ => Except.ok (some (Sexp.expr (some (SKey.ks "g")) EVal.enone)))
      else none)
    .nodecl "g"
    (fun _ => Except.ok (some (Sexp.expr (some (SKey.ks "g")) EVal.enone)))
    rfl (by simp)
    (by intro s h' hne hc; cases hc)
    (by intro s h' hne hc; simp [hne] at hc)
    (Tok.num 0) (Tok.atom "top") (Tok.atom "g") (Tok.atom "g") [] []
    (Sexp.expr (some (SKey.ks "g")) EVal.enone)
    (by intro x hx; cases hx) (by intro x hx; cases hx)
    rfl rfl rfl (by simp [Sexp.key]) rfl
    (some (SKey.ks "top"))
    [(SKey.ks "g",
      Sexp.slist (some (SKey.ks "g")) [Sexp.expr (some (SKey.ks "g")) EVal.enone])]
    0 []
    (by decide)


/-- A found value's key equals the lookup key, under the invariant. -/
theorem dictFind_inv {d : List (SKey × Sexp)} (hinv : DictInv d) {k : SKey}
    {v : Sexp} (h : dictFind d k = some v) : v.key = some k := by
  induction d with
  | nil => rw [dictFind] at h; cases h
  | cons kv rest ih =>
      obtain ⟨k0, v0⟩ := kv
      rw [dictFind] at h
      by_cases h0 : k0 = k
      · rw [if_pos h0] at h
        have := hinv (k0, v0) (List.mem_cons_self _ _)
        cases h
        rw [← h0]
        exact this
      · rw [if_neg h0] at h
        exact ih (fun kv hkv => hinv kv (List.mem_cons_of_mem _ hkv)) h

theorem withKey_key {s : Sexp} (hs : s.key = none) (k : SKey) :
    (s.withKey k).key = some k := by
  cases s <;> simp_all [Sexp.key, Sexp.withKey]

/-- `SexpValueDict.add` establishes / preserves the key invariant no
matter which value and action it is given. -/
theorem dictAdd_inv (st : DState) (sexp0 : Sexp) (action : Nat)
    (hinv : DictInv st.entries) : DictInv (dictAdd st sexp0 action).1.entries := by
  rw [dictAdd]
  cases hk0 : sexp0.key with
  | none =>
      have hkey : (sexp0.withKey (.ki st.idx)).key = some (.ki st.idx) :=
        withKey_key hk0 _
      have hh : hashableKey (SKey.ki st.idx) = true := rfl
      simp only [hk0]
      by_cases h0 : action = 0
      · simp only [if_pos h0, hh, if_pos rfl]
        exact dictSet_inv hinv _ _ hkey
      · simp only [if_neg h0, hh]
        simp only [not_true, if_neg (by simp : ¬ False)]
        cases hfind : dictFind st.entries (.ki st.idx) with
        | none =>
            simp only [hfind]
            by_cases h2 : action = 2
            · simp only [if_pos h2]
              cases hsln : slNew (some (SKey.ki st.idx)) [sexp0.withKey (.ki st.idx)] with
              | ok items => exact dictSet_inv hinv _ _ rfl
              | error e => exact hinv
            · simp only [if_neg h2]
              exact dictSet_inv hinv _ _ hkey
        | some v =>
            simp only [hfind]
            have hvk := dictFind_inv hinv hfind
            by_cases h1 : action = 1
            · simp only [if_pos h1]
              exact hinv
            · simp only [if_neg h1]
              by_cases h23 : action ≠ 2 ∧ action ≠ 3
              · simp only [if_pos h23]
                exact hinv
              · simp only [if_neg h23]
                split
                · rename_i ck items
                  refine dictSet_inv hinv _ _ ?_
                  simp_all [Sexp.key]
                · split
                  · exact dictSet_inv hinv _ _ rfl
                  · exact hinv
  | some k =>
      have hkey : sexp0.key = some k := hk0
      simp only [hk0]
      by_cases h0 : action = 0
      · simp only [if_pos h0]
        cases hh : hashableKey k with
        | true =>
            simp only [hh, if_pos rfl]
            exact dictSet_inv hinv _ _ hkey
        | false => simp [hh]; exact hinv
      · simp only [if_neg h0]
        cases hh : hashableKey k with
        | false => simp [hh]; exact hinv
        | true =>
            simp only [hh]
            simp only [not_true, if_neg (by simp : ¬ False)]
            cases hfind : dictFind st.entries k with
            | none =>
                simp only [hfind]
                by_cases h2 : action = 2
                · simp only [if_pos h2]
                  cases hsln : slNew (some k) [sexp0] with
                  | ok items => exact dictSet_inv hinv _ _ rfl
                  | error e => exact hinv
                · simp only [if_neg h2]
                  exact dictSet_inv hinv _ _ hkey
            | some v =>
                simp only [hfind]
                have hvk := dictFind_inv hinv hfind
                by_cases h1 : action = 1
                · simp only [if_pos h1]
                  exact hinv
                · simp only [if_neg h1]
                  by_cases h23 : action ≠ 2 ∧ action ≠ 3
                  · simp only [if_pos h23]
                    exact hinv
                  · simp only [if_neg h23]
                    split
                    · rename_i ck items
                      refine dictSet_inv hinv _ _ ?_
                      simp_all [Sexp.key]
                    · split
                      · exact dictSet_inv hinv _ _ rfl
                      · exact hinv


theorem setItemModel_inv (d : DState) (k : SKey) (v : Sexp ⊕ EVal)
    (hinv : DictInv d.entries) : DictInv (setItemModel d k v).1.entries := by
  rw [setItemModel.eq_def]
  cases v with
  | inr raw => exact dictAdd_inv d _ 3 hinv
  | inl sexp =>
      by_cases hk : sexp.key ≠ some k
      · simp only [if_pos hk]
        exact hinv
      · simp only [if_neg hk]
        exact dictAdd_inv d _ 3 hinv

/-- `SexpList._append` only ever adds members carrying the group's own
key: if every accumulated member is keyed by the group key, so is every
member of the (possibly partial) result. -/
theorem slAppend_keys (k : Option SKey) :
    (∀ (acc : List Sexp) (x : Sexp), (∀ y ∈ acc, y.key = k) →
      ∀ y ∈ (slAppendOne k acc x).1, y.key = k) ∧
    (∀ (acc xs : List Sexp), (∀ y ∈ acc, y.key = k) →
      ∀ y ∈ (slAppendMany k acc xs).1, y.key = k) := by
  refine slAppendOne.mutual_induct k
    (fun acc x => (∀ y ∈ acc, y.key = k) → ∀ y ∈ (slAppendOne k acc x).1, y.key = k)
    (fun acc xs => (∀ y ∈ acc, y.key = k) → ∀ y ∈ (slAppendMany k acc xs).1, y.key = k)
    ?_ ?_ ?_ ?_ ?_ ?_
  · intro acc key items ih hacc
    rw [slAppendOne]
    exact ih hacc
  · intro t acc hns ht hacc y hy
    rw [slAppendOne] at hy
    · rw [if_pos ht] at hy
      simp at hy
      rcases hy with hy | hy
      · exact hacc y hy
      · rw [hy]; exact ht
    · exact hns
  · intro t acc hns ht hacc y hy
    rw [slAppendOne] at hy
    · rw [if_neg ht] at hy
      exact hacc y hy
    · exact hns
  · intro acc hacc y hy
    rw [slAppendMany] at hy
    exact hacc y hy
  · intro acc x rest acc' heq ih1 ih2 hacc
    have hacc' : ∀ y ∈ acc', y.key = k := by
      intro y hy
      exact ih1 hacc y (by rw [heq]; exact hy)
    intro y hy
    rw [slAppendMany, heq] at hy
    exact ih2 hacc' y hy
  · intro acc x rest acc' e heq ih1 hacc y hy
    rw [slAppendMany, heq] at hy
    exact ih1 hacc y (by rw [heq]; exact hy)

theorem finalBools_inv (bs : List String) (d : DState)
    (hinv : DictInv d.entries) : DictInv (finalBools bs d).entries := by
  induction bs generalizing d with
  | nil => rw [finalBools]; exact hinv
  | cons b rest ih =>
      rw [finalBools]
      by_cases hb : (dictFind d.entries (.ks b)).isSome
      · rw [if_pos hb]
        exact ih d hinv
      · rw [if_neg hb]
        exact ih _ (dictSet_inv hinv _ _ rfl)

theorem storeResult_inv (st : PState) (data : List Tok) (entry : Tok)
    (sexp : Sexp) (action : Nat) (hinv : DictInv st.dict.entries) :
    DictInv ((match dictAdd st.dict sexp action with
      | (d', none) => (⟨d', st.errs⟩ : PState)
      | (d', some e) =>
          ⟨d', st.errs ++ [mkErrTuple e entry data]⟩).dict.entries) := by
  cases hdd : dictAdd st.dict sexp action with
  | mk d' e? =>
      have h := dictAdd_inv st.dict sexp action hinv
      rw [hdd] at h
      cases e? <;> (simp only [hdd]; exact h)

theorem processOne_inv (tbl : HandlerTable) (data : List Tok) (i : Nat)
    (entry : Tok) (st : PState) (hinv : DictInv st.dict.entries) :
    DictInv (processOne tbl data i entry st).dict.entries := by
  rw [processOne_eq2]
  split
  · exact hinv
  · split
    · exact hinv
    · exact hinv
    · exact storeResult_inv st data entry _ _ hinv

theorem processChildren_inv (tbl : HandlerTable) (data : List Tok) :
    ∀ (cs : List Tok) (i : Nat) (st : PState), DictInv st.dict.entries →
    DictInv (processChildren tbl data i cs st).dict.entries := by
  intro cs
  induction cs with
  | nil => intro i st hinv; rw [processChildren]; exact hinv
  | cons c rest ih =>
      intro i st hinv
      rw [processChildren]
      exact ih (i + 1) _ (processOne_inv tbl data i c st hinv)


/-- C10: the key invariant — every mapping key in a node's value
dictionary equals the stored value's own `_key` — is established by
`SexpValueDict.add` under any action, preserved by keyed assignment
(`Sexpression.__setitem__`), respected by `SexpList._append` (which
only admits members carrying the group's key), preserved by the
post-dispatch false-flag insertion, and therefore holds of the value
dictionary of every node built by `SexpParser.__init__`. -/
theorem C10_key_invariant :
    (∀ (st : DState) (sexp : Sexp) (action : Nat), DictInv st.entries →
      DictInv (dictAdd st sexp action).1.entries) ∧
    (∀ (d : DState) (k : SKey) (v : Sexp ⊕ EVal), DictInv d.entries →
      DictInv (setItemModel d k v).1.entries) ∧
    (∀ (k : Option SKey) (acc : List Sexp) (x : Sexp),
      (∀ y ∈ acc, y.key = k) → ∀ y ∈ (slAppendOne k acc x).1, y.key = k) ∧
    (∀ (bs : List String) (d : DState), DictInv d.entries →
      DictInv (finalBools bs d).entries) ∧
    (∀ (tbl : HandlerTable) (data : List Tok) (k : Option SKey)
      (entries : List (SKey × Sexp)) (idx : Nat) (errs : List SErr),
      sexpInit tbl data = .ok (.parserNode k entries idx errs) → DictInv entries) := by
  refine ⟨fun st sexp action h => dictAdd_inv st sexp action h,
    fun d k v h => setItemModel_inv d k v h,
    fun k acc x h => (slAppend_keys k).1 acc x h,
    fun bs d h => finalBools_inv bs d h,
    fun tbl data k entries idx errs hinit => ?_⟩
  match data with
  | [] =>
      rw [sexpInit] at hinit
      · cases hinit
      · simp
  | [x] =>
      rw [sexpInit] at hinit
      · cases hinit
      · simp
  | a :: kTok :: rest =>
      rw [sexpInit] at hinit
      simp only [Except.ok.injEq] at hinit
      have hent : entries =
          (finalBools (boolsList tbl.bools)
            (processChildren tbl (a :: kTok :: rest) 0 rest
              ⟨⟨[], 0⟩, []⟩).dict).entries := by
        cases hinit.symm
        rfl
      rw [hent]
      refine finalBools_inv _ _ ?_
      refine processChildren_inv tbl (a :: kTok :: rest) rest 0 ⟨⟨[], 0⟩, []⟩ ?_
      intro kv hkv
      cases hkv

theorem C10_key_invariant_witness :
    DictInv [(SKey.ks "flag", Sexp.dtrue "flag" false)] :=
  C10_key_invariant.2.2.2.2
    (mkTable (fun _ => none) (fun _ => none) (.single "flag"))
    [Tok.num 0, Tok.atom "top"] (some (SKey.ks "top"))
    [(SKey.ks "flag", Sexp.dtrue "flag" false)] 0 [] (by decide)


/-- C1: the error-aggregation query does not recurse.  `_getError`
iterates `iter(self._value)` — the dictionary's keys, which are plain
strings/ints and never expose `_getError` — so the loop body always
`continue`s (and its `r += p()` accumulation is dead code), and the
query returns only the node's own local `_err` list.  Building
`(a (b ()))` with the plain parser records an IndexError inside the
nested `b` node; the code's query on the parent reports no errors,
while the specified recursive union is non-empty.  The schema/shape
error recorded during construction is silently dropped. -/
theorem C1_error_aggregation_bug :
    sexpInit emptyTable
        [Tok.num 0, Tok.atom "a",
          Tok.list [Tok.num 0, Tok.atom "b", Tok.list []]] =
      .ok (.parserNode (some (.ks "a"))
        [(SKey.ks "b",
          .parserNode (some (.ks "b")) [] 0 [⟨"IndexError", Tok.list [], none⟩])]
        0 []) ∧
    getSexpErrorCode (.parserNode (some (.ks "a"))
        [(SKey.ks "b",
          .parserNode (some (.ks "b")) [] 0 [⟨"IndexError", Tok.list [], none⟩])]
        0 []) = .ok [] ∧
    getErrorSpec (.parserNode (some (.ks "a"))
        [(SKey.ks "b",
          .parserNode (some (.ks "b")) [] 0 [⟨"IndexError", Tok.list [], none⟩])]
        0 []) = [⟨"IndexError", Tok.list [], none⟩] ∧
    ([⟨"IndexError", Tok.list [], none⟩] : List SErr) ≠ [] := by
  refine ⟨by decide, rfl, ?_, by simp⟩
  rw [getErrorSpec, collectChildErrs, getErrorSpec, collectChildErrs]
  simp


/-- Spec-side definition for the amended claim C3: the 0-based index
of the line containing offset `o` in the gapless concatenation of the
split lines (each line contributing exactly its own length). -/
def lineIdx0 : List (List Char) → Nat → Nat
  | [], _ => 0
  | l :: rest, o => if o < l.length then 0 else lineIdx0 rest (o - l.length) + 1

theorem cumsAux_shift (ns : List Nat) : ∀ (acc : Nat),
    cumsAux acc ns = (cumsAux 0 ns).map (fun x => x + acc) := by
  induction ns with
  | nil => intro acc; rfl
  | cons n rest ih =>
      intro acc
      rw [cumsAux, cumsAux, ih (acc + n), ih (0 + n)]
      rw [List.map_cons, List.map_map]
      refine List.cons_eq_cons.mpr ⟨by omega, ?_⟩
      refine List.map_congr_left ?_
      intro x hx
      simp
      omega

/-- `bisect_right` over the cumulative line-length table computes
exactly the 0-based line index of the probed offset. -/
theorem bisect_cums : ∀ (ls : List (List Char)) (o : Nat),
    bisectCount (cums ls) o = lineIdx0 ls o := by
  intro ls
  induction ls with
  | nil => intro o; rfl
  | cons l rest ih =>
      intro o
      rw [bisectCount, cums, List.map_cons, cumsAux, cumsAux_shift, lineIdx0]
      rw [List.countP_cons, List.countP_map]
      by_cases hL : l.length ≤ o
      · rw [if_neg (by omega : ¬ o < l.length)]
        have hp : ∀ x ∈ cumsAux 0 (rest.map List.length),
            (((fun v => decide (v ≤ o)) ∘ fun x => x + (0 + l.length)) x = true ↔
              (fun v => decide (v ≤ o - l.length)) x = true) := by
          intro x hx
          simp only [Function.comp, decide_eq_true_eq]
          omega
        rw [List.countP_congr hp]
        have hd : decide (0 + l.length ≤ o) = true := by
          simp only [decide_eq_true_eq]
          omega
        rw [hd, if_pos rfl]
        have hrec := ih (o - l.length)
        rw [bisectCount, cums] at hrec
        rw [hrec]
      · rw [if_pos (by omega : o < l.length)]
        have hp : ∀ x ∈ cumsAux 0 (rest.map List.length),
            (((fun v => decide (v ≤ o)) ∘ fun x => x + (0 + l.length)) x = true ↔
              (fun _ => false) x = true) := by
          intro x hx
          simp only [Function.comp, decide_eq_true_eq]
          simp
          omega
        rw [List.countP_congr hp]
        have hd : decide (0 + l.length ≤ o) = false := by
          simp only [decide_eq_false_iff_not]
          omega
        rw [hd]
        simp

theorem buildT_congr (ann1 ann2 : Nat → Nat) (h : ∀ p, ann1 p = ann2 p) :
    ∀ (toks : List (Nat × Scanned)) (stack : List (List Tok)) (out : List Tok),
    buildT ann1 toks stack out = buildT ann2 toks stack out := by
  intro toks
  induction toks with
  | nil => intro stack out; rfl
  | cons t rest ih =>
      intro stack out
      obtain ⟨p, sc⟩ := t
      cases sc with
      | lp => exact ih _ _
      | rp =>
          cases stack with
          | nil => rfl
          | cons parent stack2 => exact ih _ _
      | at' s =>
          have h1 : buildT ann1 ((p, .at' s) :: rest) stack out
              = if out.isEmpty then
                  buildT ann1 rest stack [Tok.num (ann1 p), Tok.atom s]
                else buildT ann1 rest stack (out ++ [Tok.atom s]) := rfl
          have h2 : buildT ann2 ((p, .at' s) :: rest) stack out
              = if out.isEmpty then
                  buildT ann2 rest stack [Tok.num (ann2 p), Tok.atom s]
                else buildT ann2 rest stack (out ++ [Tok.atom s]) := rfl
          rw [h1, h2, h p]
          by_cases ho : out.isEmpty
          · rw [if_pos ho, if_pos ho]
            exact ih _ _
          · rw [if_neg ho, if_neg ho]
            exact ih _ _


/-- C3 counterexample: for the input `(a)` the list token's first
element is `0`, not the 1-based line number `1` of the list's first
character. -/
theorem C3_counterexample :
    parseSexpM "(a)" = .ok (.list [Tok.num 0, Tok.atom "a"]) ∧
      Tok.list [Tok.num 0, Tok.atom "a"] ≠ Tok.list [Tok.num 1, Tok.atom "a"] := by
  constructor
  · rw [parseSexpM_eqF]
    decide
  · decide

/-- C3 (amended): the synthesized first element of a list token is the
0-based line index of the offset at which the first appended atom's
regex match began (the end of the previous match, so it may fall on
skipped whitespace before the atom): the tokenizer's bisect-based
annotation function coincides with `lineIdx0`, the 0-based
line-of-offset function over the split lines. -/
theorem C3_line_annotation (ls : List (List Char)) :
    parseSexpLines ls =
      buildT (fun p => lineIdx0 ls p) (scanOff ls.flatten 0 0) [] [] := by
  rw [parseSexpLines]
  exact buildT_congr _ _ (fun p => bisect_cums ls p) _ [] []


/-! ## Round-trip analysis for claim C6 -/

/-- Soundness of `splitQuote`: a successful split decomposes the
input at its first quote. -/
theorem splitQuote_sound : ∀ {cs a b : List Char}, splitQuote cs = some (a, b) →
    cs = a ++ '"' :: b ∧ a.all (fun c => !(c == '"')) = true := by
  intro cs
  induction cs with
  | nil => intro a b h; rw [splitQuote] at h; cases h
  | cons c rest ih =>
      intro a b h
      rw [splitQuote] at h
      by_cases hc : c = '"'
      · simp [hc] at h
        obtain ⟨h1, h2⟩ := h
        subst h1
        subst h2
        simp [hc]
      · simp [hc] at h
        cases hsq : splitQuote rest with
        | none => rw [hsq] at h; simp at h
        | some p =>
            obtain ⟨a1, b1⟩ := p
            rw [hsq] at h
            simp at h
            obtain ⟨h1, h2⟩ := h
            obtain ⟨ih1, ih2⟩ := ih hsq
            constructor
            · rw [← h1, ← h2, ih1]
              simp
            · rw [← h1]
              simp [hc, ih2]

/-- Completeness of `splitQuote` on a quote-free prefix. -/
theorem splitQuote_append : ∀ (content r : List Char),
    content.all (fun c => !(c == '"')) = true →
    splitQuote (content ++ '"' :: r) = some (content, r) := by
  intro content
  induction content with
  | nil => intro r h; rw [List.nil_append, splitQuote]; simp
  | cons c cs ih =>
      intro r h
      simp at h
      rw [List.cons_append, splitQuote]
      rw [if_neg (by simpa using h.1)]
      rw [ih r (by simpa using h.2)]

/-- A scan-safe bare atom: non-empty, every character a non-stop
character (hence no whitespace, parens or `^`), not starting with a
quote. -/
def bareOkB : List Char → Bool
  | [] => false
  | c :: cs => !(c == '"') && (c :: cs).all notStop

/-- A scan-safe quoted atom: `"…"` whose content holds no quote and no
line break. -/
def quotedOkB (cs : List Char) : Bool :=
  match cs with
  | '"' :: rest =>
      match splitQuote rest with
      | some (content, tail) =>
          tail.isEmpty && content.all (fun c => !lineBreakChar c)
      | none => false
  | _ => false

def atomOkB (cs : List Char) : Bool := bareOkB cs || quotedOkB cs

/-- The shape of one child of a two-level composite expression: either
a bare scalar atom, or a keyed sub-list of scalar atoms (with its own
line-number head `m`). -/
inductive Child where
  | scalar (a : String)
  | node (m : Nat) (K2 : String) (vals : List String)

def childTok : Child → Tok
  | .scalar a => .atom a
  | .node m K2 vals => .list (.num m :: .atom K2 :: vals.map Tok.atom)

/-- The dictionary entry the fallback dispatch stores for one child
(`i` is the positional counter for un-keyed scalars). -/
def childEntry (i : Nat) : Child → SKey × Sexp
  | .scalar a => (SKey.ki i, .expr (some (.ki i)) (.escalar (coerceVal a)))
  | .node _ K2 vals =>
      (SKey.ks K2, .expr (some (.ks K2)) (evalOfList (vals.map coerceVal)))

def entriesOfC : List Child → Nat → List (SKey × Sexp)
  | [], _ => []
  | c :: rest, i =>
      childEntry i c ::
        entriesOfC rest (match c with | .scalar _ => i + 1 | _ => i)

def idxAfterC : List Child → Nat → Nat
  | [], i => i
  | .scalar _ :: rest, i => idxAfterC rest (i + 1)
  | _ :: rest, i => idxAfterC rest i

def childKeys (cs : List Child) : List String :=
  cs.filterMap fun c => match c with | .node _ K2 _ => some K2 | _ => none

/-- Well-formedness of one child under float-repr `fr`: every atom is
scan-safe and its value renders back to the same bytes; a sub-list has
at least one value. -/
def childOk (fr : String → String) : Child → Prop
  | .scalar a => atomOkB a.data = true ∧ svalStr fr (coerceVal a) = a
  | .node _ K2 vals => atomOkB K2.data = true ∧ vals ≠ [] ∧
      ∀ a ∈ vals, atomOkB a.data = true ∧ svalStr fr (coerceVal a) = a

mutual

/-- Normalizing every line-number element to `0`: the equivalence the
round trip preserves (same structure, keys and atoms byte-for-byte;
line numbers recomputed). -/
def normNum : Tok → Tok
  | .atom s => .atom s
  | .num _ => .num 0
  | .list xs => .list (normNums xs)

def normNums : List Tok → List Tok
  | [] => []
  | t :: ts => normNum t :: normNums ts

end

theorem normNums_eq_map : ∀ (ts : List Tok), normNums ts = ts.map normNum := by
  intro ts
  induction ts with
  | nil => rfl
  | cons t rest ih => rw [normNums, ih, List.map_cons]

/-- The stack machine on bare scanned tokens, inserting `0` for every
synthesized line number. -/
def buildC : List Scanned → List (List Tok) → List Tok → Except String Tok
  | [], stack, out =>
      match stack with
      | _ :: _ => .error "Trouble with nesting of brackets"
      | [] => match out with | [] => .ok (.list []) | t :: _ => .ok t
  | .lp :: rest, stack, out => buildC rest (out :: stack) []
  | .rp :: rest, stack, out =>
      match stack with
      | [] => .error "Trouble with nesting of brackets"
      | parent :: stack2 => buildC rest stack2 (parent ++ [.list out])
  | .at' s :: rest, stack, out =>
      if out.isEmpty then buildC rest stack [Tok.num 0, Tok.atom s]
      else buildC rest stack (out ++ [Tok.atom s])


theorem takeWhile_all_append (p : Char → Bool) :
    ∀ (cs r : List Char), cs.all p = true →
    (cs ++ r).takeWhile p = cs ++ r.takeWhile p := by
  intro cs
  induction cs with
  | nil => intro r h; simp
  | cons c cs2 ih =>
      intro r h
      simp at h
      rw [List.cons_append, List.takeWhile_cons, if_pos h.1, ih r (by simpa using h.2)]
      simp

theorem dropWhile_all_append (p : Char → Bool) :
    ∀ (cs r : List Char), cs.all p = true →
    (cs ++ r).dropWhile p = r.dropWhile p := by
  intro cs
  induction cs with
  | nil => intro r h; simp
  | cons c cs2 ih =>
      intro r h
      simp at h
      rw [List.cons_append, List.dropWhile_cons, if_pos h.1, ih r (by simpa using h.2)]

/-- The remainder after a piece starts at a token boundary: empty, or
led by a stop character. -/
def headStop : List Char → Prop
  | [] => True
  | c :: _ => stopChar c = true

theorem scanT_nil : scanT [] = [] := by rw [scanT]

theorem scanT_ws_append : ∀ (w r : List Char), w.all pyWsChar = true →
    scanT (w ++ r) = scanT r := by
  intro w
  induction w with
  | nil => intro r h; rw [List.nil_append]
  | cons c w2 ih =>
      intro r h
      simp at h
      rw [List.cons_append, scanT, if_pos h.1]
      exact ih r (by simpa using h.2)

theorem scanT_lp (r : List Char) : scanT ('(' :: r) = .lp :: scanT r := by
  rw [scanT]
  rw [if_neg (by decide), if_pos rfl]

theorem scanT_rp (r : List Char) : scanT (')' :: r) = .rp :: scanT r := by
  rw [scanT]
  rw [if_neg (by decide), if_neg (by decide), if_pos rfl]

theorem stopChar_false {c : Char} (h : stopChar c = false) :
    pyWsChar c = false ∧ ¬ c = '(' ∧ ¬ c = ')' ∧ ¬ c = '^' := by
  constructor
  · cases hp : pyWsChar c with
    | false => rfl
    | true =>
        rw [stopChar, hp] at h
        simp at h
  constructor
  · intro hc
    subst hc
    exact absurd h (by decide)
  constructor
  · intro hc
    subst hc
    exact absurd h (by decide)
  · intro hc
    subst hc
    exact absurd h (by decide)

theorem scan_bare : ∀ (s : List Char), bareOkB s = true → ∀ (r : List Char),
    headStop r → scanT (s ++ r) = .at' (String.mk s) :: scanT r := by
  intro s hs r hr
  match s, hs with
  | c :: cs, hs =>
    rw [bareOkB] at hs
    simp at hs
    obtain ⟨hq, hcall⟩ := hs
    have hcns : notStop c = true := hcall.1
    have hcsall : cs.all notStop = true := List.all_eq_true.mpr hcall.2
    have hstop : stopChar c = false := by
      rw [notStop] at hcns
      simpa using hcns
    obtain ⟨hws, hlp, hrp, hcar⟩ := stopChar_false hstop
    have htk : (cs ++ r).takeWhile notStop = cs := by
      rw [takeWhile_all_append notStop cs r hcsall]
      cases r with
      | nil => simp
      | cons c2 r2 =>
          rw [headStop] at hr
          have : notStop c2 = false := by rw [notStop, hr]; rfl
          rw [List.takeWhile_cons, this]
          simp
    have hdr : (cs ++ r).dropWhile notStop = r := by
      rw [dropWhile_all_append notStop cs r hcsall]
      cases r with
      | nil => simp
      | cons c2 r2 =>
          rw [headStop] at hr
          have : notStop c2 = false := by rw [notStop, hr]; rfl
          rw [List.dropWhile_cons, this]
          simp
    rw [List.cons_append, scanT]
    rw [if_neg (by simp [hws]), if_neg hlp, if_neg hrp, if_neg hcar, if_neg hq]
    rw [htk, hdr]

theorem scan_quoted : ∀ (content : List Char),
    content.all (fun c => !(c == '"')) = true → ∀ (r : List Char),
    scanT (('"' :: content ++ ['"']) ++ r) =
      .at' (String.mk ('"' :: (content ++ ['"']))) :: scanT r := by
  intro content hcontent r
  have hshape : ('"' :: content ++ ['"']) ++ r = '"' :: (content ++ '"' :: r) := by
    simp
  rw [hshape, scanT]
  rw [if_neg (by decide), if_neg (by decide), if_neg (by decide), if_neg (by decide),
    if_pos rfl]
  split
  · rename_i content2 rest2 heq
    rw [splitQuote_append content r hcontent] at heq
    simp at heq
    rw [heq.1, heq.2]
  · rename_i heq
    rw [splitQuote_append content r hcontent] at heq
    cases heq


/-- The scanned-token rendering of one child. -/
def childToks : Child → List Scanned
  | .scalar a => [.at' a]
  | .node _ K2 vals => .lp :: .at' K2 :: (vals.map Scanned.at' ++ [.rp])

def childToksAll : List Child → List Scanned
  | [] => []
  | c :: rest => childToks c ++ childToksAll rest

/-- The zero-line-number token the stack machine rebuilds for one
child. -/
def childBuilt : Child → Tok
  | .scalar a => .atom a
  | .node _ K2 vals => .list (.num 0 :: .atom K2 :: vals.map Tok.atom)

/-- `buildT` with line numbers zeroed is `buildC` on the bare
tokens. -/
theorem buildT_buildC_norm (ann : Nat → Nat) :
    ∀ (toks : List (Nat × Scanned)) (stack1 stack2 : List (List Tok))
      (out1 out2 : List Tok),
    stack1.map (List.map normNum) = stack2.map (List.map normNum) →
    out1.map normNum = out2.map normNum →
    Except.map normNum (buildT ann toks stack1 out1) =
      Except.map normNum (buildC (toks.map Prod.snd) stack2 out2) := by
  intro toks
  induction toks with
  | nil =>
      intro stack1 stack2 out1 out2 hs ho
      cases stack1 with
      | cons s1 st1 =>
          cases stack2 with
          | nil => simp at hs
          | cons s2 st2 => rfl
      | nil =>
          cases stack2 with
          | cons s2 st2 => simp at hs
          | nil =>
              cases out1 with
              | nil =>
                  cases out2 with
                  | nil => rfl
                  | cons t2 r2 => simp at ho
              | cons t1 r1 =>
                  cases out2 with
                  | nil => simp at ho
                  | cons t2 r2 =>
                      simp at ho
                      show Except.ok (normNum t1) = Except.ok (normNum t2)
                      rw [ho.1]
  | cons t rest ih =>
      intro stack1 stack2 out1 out2 hs ho
      obtain ⟨p, sc⟩ := t
      cases sc with
      | lp =>
          exact ih (out1 :: stack1) (out2 :: stack2) [] []
            (by simp [hs, ho]) rfl
      | rp =>
          cases stack1 with
          | nil =>
              cases stack2 with
              | nil => rfl
              | cons s2 st2 => simp at hs
          | cons s1 st1 =>
              cases stack2 with
              | nil => simp at hs
              | cons s2 st2 =>
                  simp at hs
                  refine ih st1 st2 (s1 ++ [.list out1]) (s2 ++ [.list out2])
                    (by simpa using hs.2) ?_
                  simp [hs.1]
                  rw [normNum, normNum, normNums_eq_map, normNums_eq_map, ho]
      | at' s =>
          have h1 : buildT ann ((p, .at' s) :: rest) stack1 out1
              = if out1.isEmpty then
                  buildT ann rest stack1 [Tok.num (ann p), Tok.atom s]
                else buildT ann rest stack1 (out1 ++ [Tok.atom s]) := rfl
          have h2 : buildC (((p, .at' s) :: rest).map Prod.snd) stack2 out2
              = if out2.isEmpty then
                  buildC (rest.map Prod.snd) stack2 [Tok.num 0, Tok.atom s]
                else buildC (rest.map Prod.snd) stack2 (out2 ++ [Tok.atom s]) := rfl
          rw [h1, h2]
          cases out1 with
          | nil =>
              cases out2 with
              | nil =>
                  simp only [List.isEmpty_nil, if_pos]
                  exact ih stack1 stack2 _ _ hs (by simp [normNum])
              | cons t2 r2 => simp at ho
          | cons t1 r1 =>
              cases out2 with
              | nil => simp at ho
              | cons t2 r2 =>
                  simp only [List.isEmpty_cons, if_neg]
                  refine ih stack1 stack2 _ _ hs ?_
                  simp at ho ⊢
                  exact ⟨ho.1, ho.2⟩

theorem buildC_atoms : ∀ (as : List String) (rest : List Scanned)
    (stack : List (List Tok)) (out : List Tok), out ≠ [] →
    buildC (as.map Scanned.at' ++ rest) stack out =
      buildC rest stack (out ++ as.map Tok.atom) := by
  intro as
  induction as with
  | nil => intro rest stack out h; simp
  | cons a as2 ih =>
      intro rest stack out h
      rw [List.map_cons, List.cons_append, buildC]
      rw [if_neg (by simpa using h)]
      rw [ih rest stack (out ++ [Tok.atom a]) (by simp)]
      simp

theorem buildC_children : ∀ (cs : List Child) (rest : List Scanned)
    (stack : List (List Tok)) (out : List Tok), out ≠ [] →
    buildC (childToksAll cs ++ rest) stack out =
      buildC rest stack (out ++ cs.map childBuilt) := by
  intro cs
  induction cs with
  | nil => intro rest stack out h; simp [childToksAll]
  | cons c cs2 ih =>
      intro rest stack out h
      rw [childToksAll, List.append_assoc]
      cases c with
      | scalar a =>
          rw [childToks]
          rw [show ([Scanned.at' a] : List Scanned) ++ (childToksAll cs2 ++ rest)
            = Scanned.at' a :: (childToksAll cs2 ++ rest) from rfl]
          rw [buildC, if_neg (by simpa using h)]
          rw [ih rest stack (out ++ [Tok.atom a]) (by simp)]
          simp [childBuilt]
      | node m K2 vals =>
          rw [childToks]
          rw [List.cons_append, List.cons_append, buildC, buildC]
          rw [if_pos (by simp)]
          rw [List.append_assoc, List.singleton_append]
          rw [buildC_atoms vals (Scanned.rp :: (childToksAll cs2 ++ rest))
            (out :: stack) [Tok.num 0, Tok.atom K2] (by simp)]
          rw [buildC]
          rw [show ([Tok.num 0, Tok.atom K2] ++ List.map Tok.atom vals)
            = Tok.num 0 :: Tok.atom K2 :: List.map Tok.atom vals from rfl]
          rw [ih rest stack
            (out ++ [Tok.list (Tok.num 0 :: Tok.atom K2 :: vals.map Tok.atom)])
            (by simp)]
          simp [childBuilt]

theorem buildC_top (cs : List Child) (K : String) :
    buildC (.lp :: .at' K :: (childToksAll cs ++ [.rp])) [] [] =
      .ok (.list (.num 0 :: .atom K :: cs.map childBuilt)) := by
  have h1 : buildC (.lp :: .at' K :: (childToksAll cs ++ [.rp])) [] []
      = buildC (childToksAll cs ++ [Scanned.rp]) [[]] [Tok.num 0, Tok.atom K] := rfl
  rw [h1]
  rw [buildC_children cs [Scanned.rp] [[]] [Tok.num 0, Tok.atom K] (by simp)]
  have h2 : buildC [Scanned.rp] [[]] ([Tok.num 0, Tok.atom K] ++ cs.map childBuilt)
      = .ok (.list ([Tok.num 0, Tok.atom K] ++ cs.map childBuilt)) := rfl
  rw [h2]
  simp


theorem dictSet_absent : ∀ (d : List (SKey × Sexp)) (k : SKey) (v : Sexp),
    dictFind d k = none → dictSet d k v = d ++ [(k, v)] := by
  intro d
  induction d with
  | nil => intro k v h; rw [dictSet]; rfl
  | cons kv rest ih =>
      intro k v h
      obtain ⟨k2, v2⟩ := kv
      rw [dictFind] at h
      by_cases hk : k2 = k
      · rw [if_pos hk] at h; cases h
      · rw [if_neg hk] at h
        rw [dictSet, if_neg hk, ih k v h]
        rfl

theorem dictFind_append_none : ∀ (d e : List (SKey × Sexp)) (k : SKey),
    dictFind d k = none → dictFind (d ++ e) k = dictFind e k := by
  intro d
  induction d with
  | nil => intro e k h; rfl
  | cons kv rest ih =>
      intro e k h
      obtain ⟨k2, v2⟩ := kv
      rw [dictFind] at h
      by_cases hk : k2 = k
      · rw [if_pos hk] at h; cases h
      · rw [if_neg hk] at h
        rw [List.cons_append, dictFind, if_neg hk]
        exact ih e k h

theorem map_atom_any_isList (vals : List String) :
    (vals.map Tok.atom).any Tok.isList = false := by
  induction vals with
  | nil => rfl
  | cons a rest ih => simp [Tok.isList, ih]

theorem parseDefault_node (m : Nat) (K2 : String) (vals : List String) :
    parseDefaultFn (.list (.num m :: .atom K2 :: vals.map Tok.atom)) =
      .ok (some (.expr (some (.ks K2)) (evalOfList (vals.map coerceVal)))) := by
  rw [parseDefaultFn]
  rw [map_atom_any_isList vals]
  rw [if_neg (by simp)]
  have hmm : (vals.map Tok.atom).map coerceTokVal = vals.map coerceVal := by
    rw [List.map_map]
    refine List.map_congr_left ?_
    intro a ha
    rfl
  rw [hmm]
  rfl

/-- A fallback-dispatched child that returns a node is stored by
`dictAdd` with the dynamic-group action. -/
theorem processOne_fallback (data : List Tok) (j : Nat) (entry : Tok)
    (st : PState) (sexp : Sexp)
    (hres : resolveParse emptyTable j entry = .ok (none, 3))
    (hpd : parseDefaultFn entry = .ok (some sexp)) :
    processOne emptyTable data j entry st =
      match dictAdd st.dict sexp 3 with
      | (d', none) => ⟨d', st.errs⟩
      | (d', some e) => ⟨d', st.errs ++ [mkErrTuple e entry data]⟩ := by
  rw [processOne_eq2, hres]
  simp only [invokeOf, emptyTable, hpd]

theorem processOne_scalar (data : List Tok) (j : Nat) (a : String)
    (E : List (SKey × Sexp)) (idx : Nat) (errs0 : List SErr)
    (hki : dictFind E (.ki idx) = none) :
    processOne emptyTable data j (.atom a) ⟨⟨E, idx⟩, errs0⟩ =
      ⟨⟨E ++ [(SKey.ki idx, .expr (some (.ki idx)) (.escalar (coerceVal a)))],
        idx + 1⟩, errs0⟩ := by
  rw [processOne_fallback data j (.atom a) ⟨⟨E, idx⟩, errs0⟩
    (.expr none (.escalar (coerceVal a))) rfl rfl]
  have hadd : dictAdd (⟨E, idx⟩ : DState) (.expr none (.escalar (coerceVal a))) 3
      = (⟨E ++ [(SKey.ki idx, .expr (some (.ki idx)) (.escalar (coerceVal a)))],
          idx + 1⟩, none) := by
    rw [dictAdd]
    simp [Sexp.key, Sexp.withKey, hashableKey, hki]
    rw [dictSet_absent E (.ki idx) _ hki]
  simp only [hadd]

theorem processOne_nodechild (data : List Tok) (j : Nat) (m : Nat) (K2 : String)
    (vals : List String) (E : List (SKey × Sexp)) (idx : Nat) (errs0 : List SErr)
    (hks : dictFind E (.ks K2) = none) :
    processOne emptyTable data j (.list (.num m :: .atom K2 :: vals.map Tok.atom))
        ⟨⟨E, idx⟩, errs0⟩ =
      ⟨⟨E ++ [(SKey.ks K2,
          .expr (some (.ks K2)) (evalOfList (vals.map coerceVal)))], idx⟩,
        errs0⟩ := by
  rw [processOne_fallback data j (.list (.num m :: .atom K2 :: vals.map Tok.atom))
    ⟨⟨E, idx⟩, errs0⟩ (.expr (some (.ks K2)) (evalOfList (vals.map coerceVal)))
    rfl (parseDefault_node m K2 vals)]
  have hadd : dictAdd (⟨E, idx⟩ : DState)
      (.expr (some (.ks K2)) (evalOfList (vals.map coerceVal))) 3
      = (⟨E ++ [(SKey.ks K2,
          .expr (some (.ks K2)) (evalOfList (vals.map coerceVal)))], idx⟩,
          none) := by
    rw [dictAdd]
    simp [Sexp.key, hashableKey, hks]
    rw [dictSet_absent E (.ks K2) _ hks]
  simp only [hadd]

theorem processChildren_charC (data : List Tok) :
    ∀ (cs : List Child) (j : Nat) (E : List (SKey × Sexp)) (idx : Nat)
      (errs0 : List SErr),
    (childKeys cs).Nodup →
    (∀ K2 ∈ childKeys cs, dictFind E (.ks K2) = none) →
    (∀ i2, idx ≤ i2 → dictFind E (.ki i2) = none) →
    processChildren emptyTable data j (cs.map childTok) ⟨⟨E, idx⟩, errs0⟩ =
      ⟨⟨E ++ entriesOfC cs idx, idxAfterC cs idx⟩, errs0⟩ := by
  intro cs
  induction cs with
  | nil =>
      intro j E idx errs0 hnd hks hki
      rw [List.map_nil, processChildren, entriesOfC, idxAfterC]
      simp
  | cons c cs2 ih =>
      intro j E idx errs0 hnd hks hki
      rw [List.map_cons, processChildren]
      cases c with
      | scalar a =>
          rw [childTok, processOne_scalar data j a E idx errs0 (hki idx le_rfl)]
          have hks2 : ∀ K2 ∈ childKeys cs2,
              dictFind (E ++ [(SKey.ki idx,
                .expr (some (.ki idx)) (.escalar (coerceVal a)))]) (.ks K2) = none := by
            intro K2 hK2
            rw [dictFind_append_none E _ _ (hks K2 (by simpa [childKeys] using hK2))]
            simp [dictFind]
          have hki2 : ∀ i2, idx + 1 ≤ i2 →
              dictFind (E ++ [(SKey.ki idx,
                .expr (some (.ki idx)) (.escalar (coerceVal a)))]) (.ki i2) = none := by
            intro i2 hi2
            rw [dictFind_append_none E _ _ (hki i2 (by omega))]
            rw [dictFind, if_neg (by simp; omega), dictFind]
          rw [ih (j + 1) _ (idx + 1) errs0 (by simpa [childKeys] using hnd) hks2 hki2]
          rw [entriesOfC, idxAfterC, childEntry]
          simp
      | node m K2 vals =>
          have hcons : childKeys (Child.node m K2 vals :: cs2) = K2 :: childKeys cs2 := by
            simp [childKeys]
          have hkey : K2 ∈ childKeys (Child.node m K2 vals :: cs2) := by
            rw [hcons]
            exact List.mem_cons_self _ _
          rw [childTok, processOne_nodechild data j m K2 vals E idx errs0 (hks K2 hkey)]
          have hnd2 : (childKeys cs2).Nodup ∧ K2 ∉ childKeys cs2 := by
            rw [hcons] at hnd
            exact ⟨hnd.of_cons, (List.nodup_cons.mp hnd).1⟩
          have hks2 : ∀ K3 ∈ childKeys cs2,
              dictFind (E ++ [(SKey.ks K2,
                .expr (some (.ks K2)) (evalOfList (vals.map coerceVal)))])
                (.ks K3) = none := by
            intro K3 hK3
            rw [dictFind_append_none E _ _
              (hks K3 (by rw [hcons]; exact List.mem_cons_of_mem _ hK3))]
            have hne : ¬ (SKey.ks K2 = SKey.ks K3) := by
              intro hc
              simp at hc
              subst hc
              exact hnd2.2 hK3
            rw [dictFind, if_neg hne, dictFind]
          have hki2 : ∀ i2, idx ≤ i2 →
              dictFind (E ++ [(SKey.ks K2,
                .expr (some (.ks K2)) (evalOfList (vals.map coerceVal)))])
                (.ki i2) = none := by
            intro i2 hi2
            rw [dictFind_append_none E _ _ (hki i2 hi2)]
            simp [dictFind]
          rw [ih (j + 1) _ idx errs0 hnd2.1 hks2 hki2]
          rw [entriesOfC, idxAfterC, childEntry]
          all_goals simp

theorem sexpInit_charC (n : Nat) (K : String) (cs : List Child)
    (hnd : (childKeys cs).Nodup) :
    sexpInit emptyTable (Tok.num n :: Tok.atom K :: cs.map childTok) =
      .ok (.parserNode (some (.ks K)) (entriesOfC cs 0) (idxAfterC cs 0) []) := by
  rw [sexpInit]
  rw [processChildren_charC _ cs 0 [] 0 [] hnd
    (by intro K2 h; rfl) (by intro i2 h; rfl)]
  rw [show boolsList emptyTable.bools = [] from rfl]
  rw [finalBools]
  rfl


/-- Rendered characters of the values of one sub-list. -/
def valsChars : List String → List Char
  | [] => []
  | a :: rest => ' ' :: (a.data ++ valsChars rest)

/-- Rendered characters of one child in the export (with the child's
line prefix `pre2`), newline included. -/
def childChars (pre2 : String) : Child → List Char
  | .scalar a => ' ' :: a.data
  | .node _ K2 vals =>
      '\n' :: (pre2.data ++ ('(' :: (K2.data ++ (valsChars vals ++ [')']))))

def bodyChars (pre2 : String) : List Child → List Char
  | [] => []
  | c :: rest => childChars pre2 c ++ bodyChars pre2 rest

theorem svalsStr_chars (fr : String → String) : ∀ (vals : List String),
    (∀ a ∈ vals, svalStr fr (coerceVal a) = a) →
    (svalsStr fr (vals.map coerceVal)).data = valsChars vals := by
  intro vals
  induction vals with
  | nil => intro h; rfl
  | cons a rest ih =>
      intro h
      rw [List.map_cons, svalsStr, valsChars]
      have ha := h a (List.mem_cons_self _ _)
      rw [ha]
      simp [String.data_append]
      rw [ih fun x hx => h x (List.mem_cons_of_mem _ hx)]

theorem exportEntries_chars (fr : String → String) (pre2 ind : String) :
    ∀ (cs : List Child) (i : Nat), (∀ c ∈ cs, childOk fr c) →
    (exportEntries fr (entriesOfC cs i) pre2 ind).data = bodyChars pre2 cs := by
  intro cs
  induction cs with
  | nil => intro i h; rfl
  | cons c rest ih =>
      intro i h
      have hc := h c (List.mem_cons_self _ _)
      have hrest := fun x hx => h x (List.mem_cons_of_mem _ hx)
      cases c with
      | scalar a =>
          rw [entriesOfC, exportEntries, childEntry]
          obtain ⟨hsafe, hcanon⟩ := hc
          rw [bodyChars, childChars]
          rw [show exportStr fr
              (.expr (some (.ki i)) (.escalar (coerceVal a))) pre2 ind
            = " " ++ svalStr fr (coerceVal a) from rfl]
          rw [hcanon]
          rw [String.data_append, ih (i + 1) hrest]
          rfl
      | node m K2 vals =>
          rw [entriesOfC, exportEntries, childEntry]
          case x_3 => simp
          obtain ⟨hK2, hne, hvals⟩ := hc
          rw [bodyChars, childChars]
          rw [String.data_append, ih i hrest]
          congr 1
          cases vals with
          | nil => exact absurd rfl hne
          | cons a vrest =>
            cases vrest with
            | nil =>
                rw [show (exportStr fr (.expr (some (.ks K2))
                    (evalOfList ([a].map coerceVal))) pre2 ind)
                  = "\n" ++ pre2 ++ "(" ++ K2 ++ " " ++
                      svalStr fr (coerceVal a) ++ ")" from rfl]
                have ha := (hvals a (List.mem_cons_self _ _)).2
                rw [ha]
                simp [String.data_append, valsChars]
            | cons b vrest2 =>
                rw [show (exportStr fr (.expr (some (.ks K2))
                    (evalOfList ((a :: b :: vrest2).map coerceVal))) pre2 ind)
                  = "\n" ++ pre2 ++ "(" ++ K2 ++
                      svalsStr fr ((a :: b :: vrest2).map coerceVal) ++ ")" from rfl]
                rw [show svalsStr fr ((a :: b :: vrest2).map coerceVal)
                  = String.mk (valsChars (a :: b :: vrest2)) from ?_]
                · simp [String.data_append]
                · have := svalsStr_chars fr (a :: b :: vrest2) (fun x hx => (hvals x hx).2)
                  cases hs : svalsStr fr ((a :: b :: vrest2).map coerceVal) with
                  | mk d =>
                      rw [hs] at this
                      rw [← this]

theorem export_charC (fr : String → String) (ind : String) (K : String)
    (cs : List Child) (idx2 : Nat) (errsX : List SErr)
    (hok : ∀ c ∈ cs, childOk fr c) :
    (exportStr fr (.parserNode (some (.ks K)) (entriesOfC cs 0) idx2 errsX)
        "" ind).data =
      '\n' :: '(' :: (K.data ++ (bodyChars ind cs ++ [')'])) := by
  rw [show exportStr fr
      (.parserNode (some (.ks K)) (entriesOfC cs 0) idx2 errsX) "" ind
    = "\n" ++ "" ++ "(" ++ K ++
        exportEntries fr (entriesOfC cs 0) ("" ++ ind) ind ++ ")" from rfl]
  simp [String.data_append]
  rw [exportEntries_chars fr ind ind cs 0 hok]


theorem takeWhile_filter_self (p : Char → Bool) (cs : List Char) :
    (cs.takeWhile p).filter p = cs.takeWhile p := by
  refine List.filter_eq_self.mpr ?_
  intro c hc
  exact List.mem_takeWhile_imp hc

theorem dropWhile_head_false (p : Char → Bool) :
    ∀ (l : List Char) (c : Char) (r : List Char),
    l.dropWhile p = c :: r → p c = false := by
  intro l
  induction l with
  | nil => intro c r h; simp at h
  | cons a l2 ih =>
      intro c r h
      rw [List.dropWhile_cons] at h
      by_cases ha : p a
      · rw [if_pos ha] at h
        exact ih c r h
      · rw [if_neg ha] at h
        cases h
        simpa using ha

/-- Re-joining the split lines erases exactly the line-break
characters (for `\r`-free input, as produced by the exporter). -/
theorem pySplitChars_flatten : ∀ (cs : List Char),
    cs.all (fun c => !(c == '\r')) = true →
    (pySplitChars cs).flatten = cs.filter (fun c => !lineBreakChar c) := by
  intro cs
  induction cs using pySplitChars.induct with
  | case1 =>
      intro h
      rw [pySplitChars]
      rfl
  | case2 c0 cr heq =>
      intro h
      have hsp := List.takeWhile_append_dropWhile
        (p := fun c => !lineBreakChar c) (l := c0 :: cr)
      rw [heq, List.append_nil] at hsp
      conv_lhs => rw [pySplitChars]
      split
      · simp only [List.flatten_cons, List.flatten_nil, List.append_nil]
        calc List.takeWhile (fun c => !lineBreakChar c) (c0 :: cr)
            = List.filter (fun c => !lineBreakChar c)
                (List.takeWhile (fun c => !lineBreakChar c) (c0 :: cr)) :=
              (takeWhile_filter_self _ _).symm
          _ = List.filter (fun c => !lineBreakChar c) (c0 :: cr) := by rw [hsp]
      · rename_i heq2
        rw [heq] at heq2
        cases heq2
      · rename_i heq2
        rw [heq] at heq2
        cases heq2
  | case3 c0 cr r heq hlt ih =>
      intro h
      have hsp := List.takeWhile_append_dropWhile
        (p := fun c => !lineBreakChar c) (l := c0 :: cr)
      rw [heq] at hsp
      rw [← hsp] at h
      simp at h
  | case4 c0 cr c1 r hne heq hlt ih =>
      intro h
      have hsp := List.takeWhile_append_dropWhile
        (p := fun c => !lineBreakChar c) (l := c0 :: cr)
      rw [heq] at hsp
      have hc1 : lineBreakChar c1 = true := by
        have := dropWhile_head_false (fun c => !lineBreakChar c) (c0 :: cr) c1 r heq
        simpa using this
      have hr : r.all (fun c => !(c == '\r')) = true := by
        rw [← hsp] at h
        simp at h
        refine List.all_eq_true.mpr ?_
        intro x hx
        simp
        exact h.2.2 x hx
      conv_lhs => rw [pySplitChars]
      split
      · rename_i heq2
        rw [heq] at heq2
        cases heq2
      · rename_i r2 heq2
        rw [heq] at heq2
        simp at heq2
        exact absurd heq2.2 (hne _ heq2.1)
      · rename_i c2 r2 hno heq2
        rw [heq] at heq2
        simp at heq2
        obtain ⟨hcc, hrr⟩ := heq2
        subst hcc
        subst hrr
        rw [List.flatten_cons, ih hr]
        calc List.takeWhile (fun c => !lineBreakChar c) (c0 :: cr) ++
              List.filter (fun c => !lineBreakChar c) r
            = List.filter (fun c => !lineBreakChar c)
                (List.takeWhile (fun c => !lineBreakChar c) (c0 :: cr)) ++
              List.filter (fun c => !lineBreakChar c) (c1 :: r) := by
              rw [takeWhile_filter_self]
              congr 1
              rw [List.filter_cons]
              simp [hc1]
          _ = List.filter (fun c => !lineBreakChar c) (c0 :: cr) := by
              rw [← List.filter_append, hsp]

theorem pyWsChar_not_lb {c : Char} (h : pyWsChar c = false) :
    lineBreakChar c = false := by
  by_cases h1 : c = '\n'
  · subst h1; exact absurd h (by decide)
  · by_cases h2 : c = '\r'
    · subst h2; exact absurd h (by decide)
    · rw [lineBreakChar]
      simp [h1, h2]

theorem notStop_not_lb {c : Char} (h : notStop c = true) :
    lineBreakChar c = false := by
  have hs : stopChar c = false := by
    rw [notStop] at h
    simpa using h
  exact pyWsChar_not_lb (stopChar_false hs).1

theorem quotedOk_shape {s : List Char} (h : quotedOkB s = true) :
    ∃ content, s = '"' :: (content ++ ['"']) ∧
      content.all (fun c => !(c == '"')) = true ∧
      content.all (fun c => !lineBreakChar c) = true := by
  unfold quotedOkB at h
  split at h
  · rename_i rest
    split at h
    · rename_i content tail heq2
      simp at h
      obtain ⟨ht, hlb⟩ := h
      obtain ⟨hdec, hnq⟩ := splitQuote_sound heq2
      subst ht
      refine ⟨content, ?_, hnq, List.all_eq_true.mpr fun x hx => by
        simpa using hlb x hx⟩
      rw [hdec]
    · cases h
  · cases h

theorem atomOk_noLB {s : List Char} (h : atomOkB s = true) :
    s.all (fun c => !lineBreakChar c) = true := by
  rw [atomOkB] at h
  simp at h
  rcases h with h | h
  · match s, h with
    | c :: cs, h =>
      rw [bareOkB] at h
      simp at h
      refine List.all_eq_true.mpr ?_
      intro x hx
      rcases List.mem_cons.mp hx with rfl | hx2
      · simp [notStop_not_lb h.2.1]
      · simp [notStop_not_lb (h.2.2 x hx2)]
  · obtain ⟨content, hshape, hnq, hlb⟩ := quotedOk_shape h
    subst hshape
    simp
    refine ⟨by decide, ?_, by decide⟩
    intro x hx
    simpa using List.all_eq_true.mp hlb x hx

theorem atomOk_noCR {s : List Char} (h : atomOkB s = true) :
    s.all (fun c => !(c == '\r')) = true := by
  have hlb := atomOk_noLB h
  refine List.all_eq_true.mpr ?_
  intro x hx
  have hx2 := List.all_eq_true.mp hlb x hx
  simp only [Bool.not_eq_true'] at hx2
  simp
  intro hc
  subst hc
  exact absurd hx2 (by decide)


theorem string_mk_data (s : String) : String.mk s.data = s := by
  cases s
  rfl

theorem ws_stop {c : Char} (h : pyWsChar c = true) : stopChar c = true := by
  rw [stopChar, h]
  simp

theorem scan_atomOk {s : List Char} (h : atomOkB s = true) (r : List Char)
    (hr : headStop r) : scanT (s ++ r) = .at' (String.mk s) :: scanT r := by
  rw [atomOkB] at h
  simp at h
  rcases h with h | h
  · exact scan_bare s h r hr
  · obtain ⟨content, hshape, hnq, hlb⟩ := quotedOk_shape h
    subst hshape
    have := scan_quoted content hnq r
    simpa using this

/-- The newline-free rendering of a child in the joined scan text. -/
def childCharsJ (ind : String) : Child → List Char
  | .scalar a => ' ' :: a.data
  | .node _ K2 vals => ind.data ++ ('(' :: (K2.data ++ (valsChars vals ++ [')'])))

def bodyCharsJ (ind : String) : List Child → List Char
  | [] => []
  | c :: rest => childCharsJ ind c ++ bodyCharsJ ind rest

theorem headStop_body (ind : String) (hind : ind.data.all pyWsChar = true)
    (cs : List Child) (r : List Char) :
    headStop (bodyCharsJ ind cs ++ ')' :: r) := by
  cases cs with
  | nil => rw [bodyCharsJ]; exact (by decide : stopChar ')' = true)
  | cons c rest =>
      rw [bodyCharsJ]
      cases c with
      | scalar a =>
          rw [childCharsJ]
          exact (by decide : stopChar ' ' = true)
      | node m K2 vals =>
          rw [childCharsJ]
          cases hie : ind.data with
          | nil =>
              simp [hie, headStop]
              decide
          | cons c0 ir =>
              have hok := List.all_eq_true.mp hind c0 (by rw [hie]; simp)
              simp [hie, headStop]
              exact ws_stop hok

theorem scan_vals : ∀ (vals : List String),
    (∀ a ∈ vals, atomOkB a.data = true) → ∀ (r : List Char),
    scanT (valsChars vals ++ ')' :: r) =
      vals.map Scanned.at' ++ .rp :: scanT r := by
  intro vals
  induction vals with
  | nil => intro h r; rw [valsChars, List.nil_append, scanT_rp]; rfl
  | cons a rest ih =>
      intro h r
      rw [valsChars]
      rw [show (' ' :: (a.data ++ valsChars rest)) ++ ')' :: r
        = [' '] ++ (a.data ++ (valsChars rest ++ ')' :: r)) from by simp]
      rw [scanT_ws_append [' '] _ (by decide)]
      have hstop : headStop (valsChars rest ++ ')' :: r) := by
        cases rest with
        | nil => rw [valsChars]; exact (by decide : stopChar ')' = true)
        | cons b rest2 => rw [valsChars]; exact (by decide : stopChar ' ' = true)
      rw [scan_atomOk (h a (List.mem_cons_self _ _)) _ hstop]
      rw [string_mk_data, ih (fun x hx => h x (List.mem_cons_of_mem _ hx)) r]
      rfl

theorem scan_body (ind : String) (hind : ind.data.all pyWsChar = true) :
    ∀ (cs : List Child), (∀ c ∈ cs, ∃ fr, childOk fr c) → ∀ (r : List Char),
    scanT (bodyCharsJ ind cs ++ ')' :: r) =
      childToksAll cs ++ .rp :: scanT r := by
  intro cs
  induction cs with
  | nil => intro h r; rw [bodyCharsJ, childToksAll, List.nil_append, scanT_rp]; rfl
  | cons c rest ih =>
      intro h r
      obtain ⟨fr, hc⟩ := h c (List.mem_cons_self _ _)
      have hrest := fun x hx => h x (List.mem_cons_of_mem _ hx)
      rw [bodyCharsJ, childToksAll]
      cases c with
      | scalar a =>
          rw [childCharsJ, childToks]
          rw [show (' ' :: a.data ++ bodyCharsJ ind rest) ++ ')' :: r
            = [' '] ++ (a.data ++ (bodyCharsJ ind rest ++ ')' :: r)) from by simp]
          rw [scanT_ws_append [' '] _ (by decide)]
          rw [scan_atomOk hc.1 _ (headStop_body ind hind rest r)]
          rw [string_mk_data, ih hrest r]
          rfl
      | node m K2 vals =>
          obtain ⟨hK2, hne, hvals⟩ := hc
          rw [childCharsJ, childToks]
          rw [show (ind.data ++ ('(' :: (K2.data ++ (valsChars vals ++ [')'])))
                ++ bodyCharsJ ind rest) ++ ')' :: r
            = ind.data ++ ('(' :: (K2.data ++ (valsChars vals ++
                ')' :: (bodyCharsJ ind rest ++ ')' :: r)))) from by simp]
          rw [scanT_ws_append ind.data _ hind]
          rw [scanT_lp]
          have hstop : headStop (valsChars vals ++
              ')' :: (bodyCharsJ ind rest ++ ')' :: r)) := by
            cases vals with
            | nil => exact absurd rfl hne
            | cons a rest2 => rw [valsChars]; exact (by decide : stopChar ' ' = true)
          rw [scan_atomOk hK2 _ hstop]
          rw [string_mk_data]
          rw [scan_vals vals (fun x hx => (hvals x hx).1) _]
          rw [ih hrest r]
          simp

theorem scan_topC (ind : String) (hind : ind.data.all pyWsChar = true)
    (K : String) (hK : atomOkB K.data = true)
    (cs : List Child) (hok : ∀ c ∈ cs, ∃ fr, childOk fr c) :
    scanT ('(' :: (K.data ++ (bodyCharsJ ind cs ++ [')']))) =
      .lp :: .at' K :: (childToksAll cs ++ [.rp]) := by
  rw [scanT_lp]
  have hstop : headStop (bodyCharsJ ind cs ++ [')']) := by
    have := headStop_body ind hind cs []
    simpa using this
  rw [show bodyCharsJ ind cs ++ [')'] = bodyCharsJ ind cs ++ ')' :: [] from rfl]
  rw [scan_atomOk hK _ hstop, string_mk_data]
  rw [scan_body ind hind cs hok []]
  rw [scanT_nil]


theorem filter_of_all (p : Char → Bool) (l : List Char) (h : l.all p = true) :
    l.filter p = l :=
  List.filter_eq_self.mpr fun a ha => List.all_eq_true.mp h a ha

theorem noLB_imp_noCR (l : List Char)
    (h : l.all (fun c => !lineBreakChar c) = true) :
    l.all (fun c => !(c == '\r')) = true := by
  refine List.all_eq_true.mpr ?_
  intro x hx
  have hx2 := List.all_eq_true.mp h x hx
  simp only [Bool.not_eq_true'] at hx2
  simp
  intro hc
  subst hc
  exact absurd hx2 (by decide)

theorem valsChars_noLB (vals : List String)
    (h : ∀ a ∈ vals, atomOkB a.data = true) :
    (valsChars vals).all (fun c => !lineBreakChar c) = true := by
  induction vals with
  | nil => rfl
  | cons a rest ih =>
      rw [valsChars]
      simp only [List.all_cons, List.all_append, Bool.and_eq_true]
      refine And.intro (by decide) (And.intro ?_ ?_)
      · exact atomOk_noLB (h a (List.mem_cons_self _ _))
      · exact ih fun x hx => h x (List.mem_cons_of_mem _ hx)

theorem childCharsJ_noLB (ind : String)
    (hindLB : ind.data.all (fun c => !lineBreakChar c) = true)
    (fr : String → String) (c : Child) (hc : childOk fr c) :
    (childCharsJ ind c).all (fun c => !lineBreakChar c) = true := by
  cases c with
  | scalar a =>
      rw [childCharsJ]
      simp only [List.all_cons, Bool.and_eq_true]
      exact ⟨by decide, atomOk_noLB hc.1⟩
  | node m K2 vals =>
      rw [childCharsJ]
      simp only [List.all_append, List.all_cons, Bool.and_eq_true]
      exact ⟨hindLB, by decide,
        atomOk_noLB hc.1,
        valsChars_noLB vals (fun x hx => (hc.2.2 x hx).1), by decide⟩

theorem bodyChars_filter (ind : String)
    (hindLB : ind.data.all (fun c => !lineBreakChar c) = true)
    (fr : String → String) :
    ∀ (cs : List Child), (∀ c ∈ cs, childOk fr c) →
    (bodyChars ind cs).filter (fun c => !lineBreakChar c) = bodyCharsJ ind cs := by
  intro cs
  induction cs with
  | nil => intro h; rfl
  | cons c rest ih =>
      intro h
      have hc := h c (List.mem_cons_self _ _)
      rw [bodyChars, bodyCharsJ, List.filter_append]
      rw [ih fun x hx => h x (List.mem_cons_of_mem _ hx)]
      congr 1
      cases c with
      | scalar a =>
          exact filter_of_all _ _ (childCharsJ_noLB ind hindLB fr (.scalar a) hc)
      | node m K2 vals =>
          rw [childChars, List.filter_cons, if_neg (by decide)]
          exact filter_of_all _ _ (childCharsJ_noLB ind hindLB fr (.node m K2 vals) hc)

theorem bodyChars_noCR (ind : String)
    (hindLB : ind.data.all (fun c => !lineBreakChar c) = true)
    (fr : String → String) :
    ∀ (cs : List Child), (∀ c ∈ cs, childOk fr c) →
    (bodyChars ind cs).all (fun c => !(c == '\r')) = true := by
  intro cs
  induction cs with
  | nil => intro h; rfl
  | cons c rest ih =>
      intro h
      have hc := h c (List.mem_cons_self _ _)
      rw [bodyChars]
      simp only [List.all_append, Bool.and_eq_true]
      refine ⟨?_, ih fun x hx => h x (List.mem_cons_of_mem _ hx)⟩
      have hbody := childCharsJ_noLB ind hindLB fr c hc
      cases c with
      | scalar a =>
          exact noLB_imp_noCR _ hbody
      | node m K2 vals =>
          rw [childChars]
          simp only [List.all_cons, Bool.and_eq_true]
          exact ⟨by decide, noLB_imp_noCR _ hbody⟩

theorem normChild (c : Child) : normNum (childBuilt c) = normNum (childTok c) := by
  cases c <;> rfl

theorem normChildren : ∀ (cs : List Child),
    normNums (cs.map childBuilt) = normNums (cs.map childTok) := by
  intro cs
  induction cs with
  | nil => rfl
  | cons c rest ih =>
      rw [List.map_cons, List.map_cons, normNums, normNums, normChild, ih]


/-- C6 counterexample: the round trip is not byte-for-byte on atoms —
`(a 01)` re-emerges as `(a 1)` (the generic coercion renders the int
back in canonical form) — and a keyless sub-list is dropped outright:
`((a) b)` builds a node whose export is `(b)`, losing atom `a`. -/
theorem C6_counterexample :
    parseSexpM "(a 01)" = .ok (.list [Tok.num 0, Tok.atom "a", Tok.atom "01"]) ∧
    sexpInit emptyTable [Tok.num 0, Tok.atom "a", Tok.atom "01"] =
      .ok (.parserNode (some (.ks "a"))
        [(SKey.ki 0, .expr (some (.ki 0)) (.escalar (.vint 1)))] 1 []) ∧
    exportStr (fun s => s) (.parserNode (some (.ks "a"))
        [(SKey.ki 0, .expr (some (.ki 0)) (.escalar (.vint 1)))] 1 []) "" "  "
      = "\n(a 1)" ∧
    parseSexpM "\n(a 1)" = .ok (.list [Tok.num 1, Tok.atom "a", Tok.atom "1"]) ∧
    Tok.atom "1" ≠ Tok.atom "01" ∧
    parseSexpM "((a) b)" =
      .ok (.list [Tok.list [Tok.num 0, Tok.atom "a"], Tok.atom "b"]) ∧
    sexpInit emptyTable [Tok.list [Tok.num 0, Tok.atom "a"], Tok.atom "b"] =
      .ok (.parserNode (some (.ks "b")) [] 0 []) ∧
    exportStr (fun s => s) (.parserNode (some (.ks "b")) [] 0 []) "" "  "
      = "\n(b)" := by
  refine ⟨?_, by decide, by decide, ?_, by decide, ?_, by decide, by decide⟩
  · rw [parseSexpM_eqF]
    decide
  · rw [parseSexpM_eqF]
    decide
  · rw [parseSexpM_eqF]
    decide

/-! ### The recursive input class for the amended claim C6 -/

/-- One child of a composite expression, at any depth: a bare scalar
atom; a keyed sub-list holding only scalar values (dispatched through
`parseDefault`'s value loop); or a keyed sub-list holding at least one
sub-list (re-parsed as a nested `SexpParser`). -/
inductive ChildR where
  | scalar (a : String)
  | flat (m : Nat) (K2 : String) (vals : List String)
  | deep (m : Nat) (K2 : String) (kids : List ChildR)

mutual

def childTokR : ChildR → Tok
  | .scalar a => .atom a
  | .flat m K2 vals => .list (.num m :: .atom K2 :: vals.map Tok.atom)
  | .deep m K2 kids => .list (.num m :: .atom K2 :: childTokRs kids)

def childTokRs : List ChildR → List Tok
  | [] => []
  | c :: rest => childTokR c :: childTokRs rest

end

def isScalarC : ChildR → Bool
  | .scalar _ => true
  | _ => false

def hasSubList : List ChildR → Bool
  | [] => false
  | c :: rest => !isScalarC c || hasSubList rest

def nextIdxR : ChildR → Nat → Nat
  | .scalar _, i => i + 1
  | _, i => i

def idxAfterR : List ChildR → Nat → Nat
  | [], i => i
  | c :: rest, i => idxAfterR rest (nextIdxR c i)

def childKeyR : ChildR → Option String
  | .scalar _ => none
  | .flat _ K2 _ => some K2
  | .deep _ K2 _ => some K2

def childKeysR (cs : List ChildR) : List String := cs.filterMap childKeyR

mutual

/-- The dictionary entry the fallback dispatch stores for one child at
any depth (`i` is the positional counter for un-keyed scalars). -/
def childEntryR (i : Nat) : ChildR → SKey × Sexp
  | .scalar a => (SKey.ki i, .expr (some (.ki i)) (.escalar (coerceVal a)))
  | .flat _ K2 vals =>
      (SKey.ks K2, .expr (some (.ks K2)) (evalOfList (vals.map coerceVal)))
  | .deep _ K2 kids =>
      (SKey.ks K2,
        .parserNode (some (.ks K2)) (entriesOfR kids 0) (idxAfterR kids 0) [])

def entriesOfR : List ChildR → Nat → List (SKey × Sexp)
  | [], _ => []
  | c :: rest, i => childEntryR i c :: entriesOfR rest (nextIdxR c i)

end

def valsOkR (fr : String → String) : List String → Bool
  | [] => true
  | a :: rest =>
      atomOkB a.data && (svalStr fr (coerceVal a) == a) && valsOkR fr rest

mutual

/-- Well-formedness of one child under float-repr `fr`: every atom is
scan-safe and renders back to the same bytes, a flat sub-list has at
least one value, a deep sub-list really holds a sub-list, and sibling
keys are distinct at every level. -/
def childOkR (fr : String → String) : ChildR → Bool
  | .scalar a => atomOkB a.data && (svalStr fr (coerceVal a) == a)
  | .flat _ K2 vals => atomOkB K2.data && !vals.isEmpty && valsOkR fr vals
  | .deep _ K2 kids => atomOkB K2.data && hasSubList kids &&
      decide (childKeysR kids).Nodup && childrenOkR fr kids

def childrenOkR (fr : String → String) : List ChildR → Bool
  | [] => true
  | c :: rest => childOkR fr c && childrenOkR fr rest

end

mutual

/-- The zero-line-number token the stack machine rebuilds for one
child, at any depth. -/
def childBuiltR : ChildR → Tok
  | .scalar a => .atom a
  | .flat _ K2 vals => .list (.num 0 :: .atom K2 :: vals.map Tok.atom)
  | .deep _ K2 kids => .list (.num 0 :: .atom K2 :: builtAllR kids)

def builtAllR : List ChildR → List Tok
  | [] => []
  | c :: rest => childBuiltR c :: builtAllR rest

end

mutual

/-- The scanned-token rendering of one child at any depth. -/
def childToksR : ChildR → List Scanned
  | .scalar a => [.at' a]
  | .flat _ K2 vals => .lp :: .at' K2 :: (vals.map Scanned.at' ++ [.rp])
  | .deep _ K2 kids => .lp :: .at' K2 :: (childToksAllR kids ++ [.rp])

def childToksAllR : List ChildR → List Scanned
  | [] => []
  | c :: rest => childToksR c ++ childToksAllR rest

end

mutual

/-- Rendered characters of one child in the export (newline included);
`pre2` is the child's own line prefix, grown by `ind` per level. -/
def childCharsR (ind pre2 : String) : ChildR → List Char
  | .scalar a => ' ' :: a.data
  | .flat _ K2 vals =>
      '\n' :: (pre2.data ++ ('(' :: (K2.data ++ (valsChars vals ++ [')']))))
  | .deep _ K2 kids =>
      '\n' :: (pre2.data ++ ('(' :: (K2.data ++
        (bodyCharsR ind (pre2 ++ ind) kids ++ [')']))))

def bodyCharsR (ind pre2 : String) : List ChildR → List Char
  | [] => []
  | c :: rest => childCharsR ind pre2 c ++ bodyCharsR ind pre2 rest

end

mutual

/-- The newline-free rendering of one child in the joined scan text. -/
def childCharsRJ (ind pre2 : String) : ChildR → List Char
  | .scalar a => ' ' :: a.data
  | .flat _ K2 vals =>
      pre2.data ++ ('(' :: (K2.data ++ (valsChars vals ++ [')'])))
  | .deep _ K2 kids =>
      pre2.data ++ ('(' :: (K2.data ++
        (bodyCharsRJ ind (pre2 ++ ind) kids ++ [')'])))

def bodyCharsRJ (ind pre2 : String) : List ChildR → List Char
  | [] => []
  | c :: rest => childCharsRJ ind pre2 c ++ bodyCharsRJ ind pre2 rest

end


theorem childTokRs_any_isList : ∀ (kids : List ChildR),
    (childTokRs kids).any Tok.isList = hasSubList kids := by
  intro kids
  induction kids with
  | nil => rfl
  | cons c rest ih =>
      rw [childTokRs, hasSubList, List.any_cons, ih]
      cases c <;> rfl

/-- A deep child is re-parsed by a nested plain `SexpParser`. -/
theorem parseDefault_deep (m : Nat) (K2 : String) (kids : List ChildR)
    (node : Sexp) (hany : hasSubList kids = true)
    (hinit : sexpInit emptyTable (Tok.num m :: Tok.atom K2 :: childTokRs kids) =
      .ok node) :
    parseDefaultFn (.list (.num m :: .atom K2 :: childTokRs kids)) =
      .ok (some node) := by
  rw [parseDefaultFn]
  rw [childTokRs_any_isList, hany, if_pos rfl, hinit]

/-- Zeroing line numbers identifies the rebuilt tree with the original
input tree, at any depth. -/
theorem normChildR :
    (∀ (c : ChildR), normNum (childBuiltR c) = normNum (childTokR c)) ∧
    (∀ (cs : List ChildR), normNums (builtAllR cs) = normNums (childTokRs cs)) := by
  refine childTokR.mutual_induct
    (fun c => normNum (childBuiltR c) = normNum (childTokR c))
    (fun cs => normNums (builtAllR cs) = normNums (childTokRs cs))
    ?_ ?_ ?_ ?_ ?_
  · intro a; rfl
  · intro m K2 vals; rfl
  · intro m K2 kids ih
    have hL : normNum (childBuiltR (.deep m K2 kids))
        = .list (Tok.num 0 :: Tok.atom K2 :: normNums (builtAllR kids)) := rfl
    have hR : normNum (childTokR (.deep m K2 kids))
        = .list (Tok.num 0 :: Tok.atom K2 :: normNums (childTokRs kids)) := rfl
    rw [hL, hR, ih]
  · rfl
  · intro c rest ih1 ih2
    have hL : normNums (builtAllR (c :: rest))
        = normNum (childBuiltR c) :: normNums (builtAllR rest) := rfl
    have hR : normNums (childTokRs (c :: rest))
        = normNum (childTokR c) :: normNums (childTokRs rest) := rfl
    rw [hL, hR, ih1, ih2]


/-- One dispatch step and the whole dispatch loop, characterized over
the recursive input class: every child stores exactly its entry, with
deep children re-parsed as nested plain parsers. -/
theorem processChildren_charR (fr : String → String) :
    (∀ (c : ChildR) (data : List Tok) (j : Nat) (E : List (SKey × Sexp))
      (idx : Nat) (errs0 : List SErr),
      childOkR fr c = true →
      dictFind E (childEntryR idx c).1 = none →
      processOne emptyTable data j (childTokR c) ⟨⟨E, idx⟩, errs0⟩ =
        ⟨⟨E ++ [childEntryR idx c], nextIdxR c idx⟩, errs0⟩) ∧
    (∀ (cs : List ChildR) (data : List Tok) (j : Nat) (E : List (SKey × Sexp))
      (idx : Nat) (errs0 : List SErr),
      childrenOkR fr cs = true →
      (childKeysR cs).Nodup →
      (∀ K2 ∈ childKeysR cs, dictFind E (.ks K2) = none) →
      (∀ i2, idx ≤ i2 → dictFind E (.ki i2) = none) →
      processChildren emptyTable data j (childTokRs cs) ⟨⟨E, idx⟩, errs0⟩ =
        ⟨⟨E ++ entriesOfR cs idx, idxAfterR cs idx⟩, errs0⟩) := by
  refine childTokR.mutual_induct
    (fun c => ∀ (data : List Tok) (j : Nat) (E : List (SKey × Sexp))
      (idx : Nat) (errs0 : List SErr),
      childOkR fr c = true →
      dictFind E (childEntryR idx c).1 = none →
      processOne emptyTable data j (childTokR c) ⟨⟨E, idx⟩, errs0⟩ =
        ⟨⟨E ++ [childEntryR idx c], nextIdxR c idx⟩, errs0⟩)
    (fun cs => ∀ (data : List Tok) (j : Nat) (E : List (SKey × Sexp))
      (idx : Nat) (errs0 : List SErr),
      childrenOkR fr cs = true →
      (childKeysR cs).Nodup →
      (∀ K2 ∈ childKeysR cs, dictFind E (.ks K2) = none) →
      (∀ i2, idx ≤ i2 → dictFind E (.ki i2) = none) →
      processChildren emptyTable data j (childTokRs cs) ⟨⟨E, idx⟩, errs0⟩ =
        ⟨⟨E ++ entriesOfR cs idx, idxAfterR cs idx⟩, errs0⟩)
    ?_ ?_ ?_ ?_ ?_
  · -- scalar child
    intro a data j E idx errs0 hok hfind
    have h1 : dictFind E (.ki idx) = none := hfind
    rw [show childTokR (.scalar a) = Tok.atom a from rfl]
    rw [processOne_scalar data j a E idx errs0 h1]
    rfl
  · -- flat child
    intro m K2 vals data j E idx errs0 hok hfind
    have h1 : dictFind E (.ks K2) = none := hfind
    rw [show childTokR (.flat m K2 vals)
      = Tok.list (.num m :: .atom K2 :: vals.map Tok.atom) from rfl]
    rw [processOne_nodechild data j m K2 vals E idx errs0 h1]
    rfl
  · -- deep child
    intro m K2 kids ih data j E idx errs0 hok hfind
    have h1 : dictFind E (.ks K2) = none := hfind
    rw [childOkR] at hok
    simp only [Bool.and_eq_true] at hok
    obtain ⟨⟨⟨hK2, hany⟩, hnddec⟩, hkidsok⟩ := hok
    have hnodup : (childKeysR kids).Nodup := of_decide_eq_true hnddec
    have hinit : sexpInit emptyTable
        (Tok.num m :: Tok.atom K2 :: childTokRs kids) =
      .ok (.parserNode (some (.ks K2)) (entriesOfR kids 0)
        (idxAfterR kids 0) []) := by
      rw [sexpInit]
      rw [ih (Tok.num m :: Tok.atom K2 :: childTokRs kids) 0 [] 0 []
        hkidsok hnodup (fun K3 h3 => rfl) (fun i2 h2 => rfl)]
      rw [show boolsList emptyTable.bools = ([] : List String) from rfl]
      rw [finalBools]
      rfl
    rw [show childTokR (.deep m K2 kids)
      = Tok.list (.num m :: .atom K2 :: childTokRs kids) from rfl]
    rw [processOne_fallback data j
      (Tok.list (.num m :: .atom K2 :: childTokRs kids)) ⟨⟨E, idx⟩, errs0⟩
      (.parserNode (some (.ks K2)) (entriesOfR kids 0) (idxAfterR kids 0) [])
      rfl (parseDefault_deep m K2 kids _ hany hinit)]
    have hadd : dictAdd (⟨E, idx⟩ : DState)
        (.parserNode (some (.ks K2)) (entriesOfR kids 0) (idxAfterR kids 0) [])
        3
        = (⟨E ++ [(SKey.ks K2,
            .parserNode (some (.ks K2)) (entriesOfR kids 0)
              (idxAfterR kids 0) [])], idx⟩, none) := by
      rw [dictAdd]
      simp [Sexp.key, hashableKey, h1]
      rw [dictSet_absent E (.ks K2) _ h1]
    simp only [hadd]
    rfl
  · -- nil
    intro data j E idx errs0 hok hnd hks hki
    rw [show childTokRs [] = ([] : List Tok) from rfl, processChildren]
    rw [show entriesOfR [] idx = ([] : List (SKey × Sexp)) from rfl]
    rw [show idxAfterR [] idx = idx from rfl]
    simp
  · -- cons
    intro c rest ih1 ih2 data j E idx errs0 hok hnd hks hki
    rw [childrenOkR] at hok
    simp only [Bool.and_eq_true] at hok
    obtain ⟨hokc, hokrest⟩ := hok
    rw [show childTokRs (c :: rest) = childTokR c :: childTokRs rest from rfl]
    rw [processChildren]
    have hstep : ∀ (hfc : dictFind E (childEntryR idx c).1 = none),
        processOne emptyTable data j (childTokR c) ⟨⟨E, idx⟩, errs0⟩ =
          ⟨⟨E ++ [childEntryR idx c], nextIdxR c idx⟩, errs0⟩ :=
      fun hfc => ih1 data j E idx errs0 hokc hfc
    cases c with
    | scalar a =>
        rw [hstep (hki idx le_rfl)]
        have hks2 : ∀ K3 ∈ childKeysR rest,
            dictFind (E ++ [childEntryR idx (.scalar a)]) (.ks K3) = none := by
          intro K3 hK3
          rw [dictFind_append_none E _ _
            (hks K3 (by simpa [childKeysR, childKeyR] using hK3))]
          simp [childEntryR, dictFind]
        have hki2 : ∀ i2, nextIdxR (.scalar a) idx ≤ i2 →
            dictFind (E ++ [childEntryR idx (.scalar a)]) (.ki i2) = none := by
          intro i2 hi2
          rw [show nextIdxR (.scalar a) idx = idx + 1 from rfl] at hi2
          rw [dictFind_append_none E _ _ (hki i2 (by omega))]
          rw [show childEntryR idx (.scalar a) = (SKey.ki idx,
            .expr (some (.ki idx)) (.escalar (coerceVal a))) from rfl]
          rw [dictFind, if_neg (by simp; omega), dictFind]
        rw [ih2 data (j + 1) _ _ errs0 hokrest
          (by simpa [childKeysR, childKeyR] using hnd) hks2 hki2]
        rw [show entriesOfR (ChildR.scalar a :: rest) idx
          = childEntryR idx (.scalar a) ::
              entriesOfR rest (nextIdxR (.scalar a) idx) from rfl]
        rw [show idxAfterR (ChildR.scalar a :: rest) idx
          = idxAfterR rest (nextIdxR (.scalar a) idx) from rfl]
        simp
    | flat m K2 vals =>
        have hcons : childKeysR (ChildR.flat m K2 vals :: rest)
            = K2 :: childKeysR rest := by
          simp [childKeysR, childKeyR]
        have hkey : K2 ∈ childKeysR (ChildR.flat m K2 vals :: rest) := by
          rw [hcons]; exact List.mem_cons_self _ _
        rw [hstep (hks K2 hkey)]
        have hnd2 : (childKeysR rest).Nodup ∧ K2 ∉ childKeysR rest := by
          rw [hcons] at hnd
          exact ⟨hnd.of_cons, (List.nodup_cons.mp hnd).1⟩
        have hks2 : ∀ K3 ∈ childKeysR rest,
            dictFind (E ++ [childEntryR idx (.flat m K2 vals)]) (.ks K3) = none := by
          intro K3 hK3
          rw [dictFind_append_none E _ _
            (hks K3 (by rw [hcons]; exact List.mem_cons_of_mem _ hK3))]
          have hne : ¬ (SKey.ks K2 = SKey.ks K3) := by
            intro hc
            simp at hc
            subst hc
            exact hnd2.2 hK3
          rw [show childEntryR idx (.flat m K2 vals) = (SKey.ks K2,
            .expr (some (.ks K2)) (evalOfList (vals.map coerceVal))) from rfl]
          rw [dictFind, if_neg hne, dictFind]
        have hki2 : ∀ i2, nextIdxR (.flat m K2 vals) idx ≤ i2 →
            dictFind (E ++ [childEntryR idx (.flat m K2 vals)]) (.ki i2) = none := by
          intro i2 hi2
          rw [show nextIdxR (.flat m K2 vals) idx = idx from rfl] at hi2
          rw [dictFind_append_none E _ _ (hki i2 hi2)]
          simp [childEntryR, dictFind]
        rw [ih2 data (j + 1) _ _ errs0 hokrest hnd2.1 hks2 hki2]
        rw [show entriesOfR (ChildR.flat m K2 vals :: rest) idx
          = childEntryR idx (.flat m K2 vals) ::
              entriesOfR rest (nextIdxR (.flat m K2 vals) idx) from rfl]
        rw [show idxAfterR (ChildR.flat m K2 vals :: rest) idx
          = idxAfterR rest (nextIdxR (.flat m K2 vals) idx) from rfl]
        simp
    | deep m K2 kids =>
        have hcons : childKeysR (ChildR.deep m K2 kids :: rest)
            = K2 :: childKeysR rest := by
          simp [childKeysR, childKeyR]
        have hkey : K2 ∈ childKeysR (ChildR.deep m K2 kids :: rest) := by
          rw [hcons]; exact List.mem_cons_self _ _
        rw [hstep (hks K2 hkey)]
        have hnd2 : (childKeysR rest).Nodup ∧ K2 ∉ childKeysR rest := by
          rw [hcons] at hnd
          exact ⟨hnd.of_cons, (List.nodup_cons.mp hnd).1⟩
        have hks2 : ∀ K3 ∈ childKeysR rest,
            dictFind (E ++ [childEntryR idx (.deep m K2 kids)]) (.ks K3) = none := by
          intro K3 hK3
          rw [dictFind_append_none E _ _
            (hks K3 (by rw [hcons]; exact List.mem_cons_of_mem _ hK3))]
          have hne : ¬ (SKey.ks K2 = SKey.ks K3) := by
            intro hc
            simp at hc
            subst hc
            exact hnd2.2 hK3
          rw [show childEntryR idx (.deep m K2 kids) = (SKey.ks K2,
            .parserNode (some (.ks K2)) (entriesOfR kids 0)
              (idxAfterR kids 0) []) from rfl]
          rw [dictFind, if_neg hne, dictFind]
        have hki2 : ∀ i2, nextIdxR (.deep m K2 kids) idx ≤ i2 →
            dictFind (E ++ [childEntryR idx (.deep m K2 kids)]) (.ki i2) = none := by
          intro i2 hi2
          rw [show nextIdxR (.deep m K2 kids) idx = idx from rfl] at hi2
          rw [dictFind_append_none E _ _ (hki i2 hi2)]
          simp [childEntryR, dictFind]
        rw [ih2 data (j + 1) _ _ errs0 hokrest hnd2.1 hks2 hki2]
        rw [show entriesOfR (ChildR.deep m K2 kids :: rest) idx
          = childEntryR idx (.deep m K2 kids) ::
              entriesOfR rest (nextIdxR (.deep m K2 kids) idx) from rfl]
        rw [show idxAfterR (ChildR.deep m K2 kids :: rest) idx
          = idxAfterR rest (nextIdxR (.deep m K2 kids) idx) from rfl]
        simp

/-- Building the whole composite expression over the recursive class. -/
theorem sexpInit_charR (fr : String → String) (n : Nat) (K : String)
    (cs : List ChildR) (hok : childrenOkR fr cs = true)
    (hnd : (childKeysR cs).Nodup) :
    sexpInit emptyTable (Tok.num n :: Tok.atom K :: childTokRs cs) =
      .ok (.parserNode (some (.ks K)) (entriesOfR cs 0) (idxAfterR cs 0) []) := by
  rw [sexpInit]
  rw [(processChildren_charR fr).2 cs
    (Tok.num n :: Tok.atom K :: childTokRs cs) 0 [] 0 [] hok hnd
    (fun K2 h => rfl) (fun i2 h => rfl)]
  rw [show boolsList emptyTable.bools = ([] : List String) from rfl]
  rw [finalBools]
  rfl


theorem valsOkR_canon (fr : String → String) : ∀ (vals : List String),
    valsOkR fr vals = true → ∀ a ∈ vals, svalStr fr (coerceVal a) = a := by
  intro vals
  induction vals with
  | nil => intro h a ha; simp at ha
  | cons v rest ih =>
      intro h a ha
      rw [valsOkR] at h
      simp only [Bool.and_eq_true, beq_iff_eq] at h
      obtain ⟨⟨hsafe, hcanon⟩, hrest⟩ := h
      rcases List.mem_cons.mp ha with h1 | h2
      · subst h1; exact hcanon
      · exact ih hrest a h2

theorem valsOkR_safe (fr : String → String) : ∀ (vals : List String),
    valsOkR fr vals = true → ∀ a ∈ vals, atomOkB a.data = true := by
  intro vals
  induction vals with
  | nil => intro h a ha; simp at ha
  | cons v rest ih =>
      intro h a ha
      rw [valsOkR] at h
      simp only [Bool.and_eq_true, beq_iff_eq] at h
      obtain ⟨⟨hsafe, hcanon⟩, hrest⟩ := h
      rcases List.mem_cons.mp ha with h1 | h2
      · subst h1; exact hsafe
      · exact ih hrest a h2

/-- Exporting the stored entries renders exactly the recursive
character stream, at every depth. -/
theorem exportEntries_charR (fr : String → String) (ind : String) :
    (∀ (c : ChildR) (pre2 : String) (i : Nat), childOkR fr c = true →
      (exportStr fr (childEntryR i c).2 pre2 ind).data = childCharsR ind pre2 c) ∧
    (∀ (cs : List ChildR) (pre2 : String) (i : Nat), childrenOkR fr cs = true →
      (exportEntries fr (entriesOfR cs i) pre2 ind).data = bodyCharsR ind pre2 cs) := by
  refine childTokR.mutual_induct
    (fun c => ∀ (pre2 : String) (i : Nat), childOkR fr c = true →
      (exportStr fr (childEntryR i c).2 pre2 ind).data = childCharsR ind pre2 c)
    (fun cs => ∀ (pre2 : String) (i : Nat), childrenOkR fr cs = true →
      (exportEntries fr (entriesOfR cs i) pre2 ind).data = bodyCharsR ind pre2 cs)
    ?_ ?_ ?_ ?_ ?_
  · -- scalar
    intro a pre2 i hok
    simp only [childOkR, Bool.and_eq_true, beq_iff_eq] at hok
    obtain ⟨hsafe, hcanon⟩ := hok
    rw [show (childEntryR i (ChildR.scalar a)).2
      = Sexp.expr (some (.ki i)) (.escalar (coerceVal a)) from rfl]
    rw [show exportStr fr (.expr (some (.ki i)) (.escalar (coerceVal a))) pre2 ind
      = " " ++ svalStr fr (coerceVal a) from rfl]
    rw [hcanon, String.data_append]
    rfl
  · -- flat
    intro m K2 vals pre2 i hok
    rw [childOkR] at hok
    simp only [Bool.and_eq_true] at hok
    obtain ⟨⟨hK2, hneB⟩, hvalsB⟩ := hok
    have hvals := valsOkR_canon fr vals hvalsB
    rw [show (childEntryR i (ChildR.flat m K2 vals)).2
      = Sexp.expr (some (.ks K2)) (evalOfList (vals.map coerceVal)) from rfl]
    rw [show childCharsR ind pre2 (ChildR.flat m K2 vals)
      = '\n' :: (pre2.data ++ ('(' :: (K2.data ++ (valsChars vals ++ [')']))))
      from rfl]
    cases vals with
    | nil => simp at hneB
    | cons a vrest =>
      cases vrest with
      | nil =>
          rw [show (exportStr fr (.expr (some (.ks K2))
              (evalOfList ([a].map coerceVal))) pre2 ind)
            = "\n" ++ pre2 ++ "(" ++ K2 ++ " " ++
                svalStr fr (coerceVal a) ++ ")" from rfl]
          have ha := hvals a (List.mem_cons_self _ _)
          rw [ha]
          simp [String.data_append, valsChars]
      | cons b vrest2 =>
          rw [show (exportStr fr (.expr (some (.ks K2))
              (evalOfList ((a :: b :: vrest2).map coerceVal))) pre2 ind)
            = "\n" ++ pre2 ++ "(" ++ K2 ++
                svalsStr fr ((a :: b :: vrest2).map coerceVal) ++ ")" from rfl]
          rw [show svalsStr fr ((a :: b :: vrest2).map coerceVal)
            = String.mk (valsChars (a :: b :: vrest2)) from ?_]
          · simp [String.data_append]
          · have := svalsStr_chars fr (a :: b :: vrest2) hvals
            cases hs : svalsStr fr ((a :: b :: vrest2).map coerceVal) with
            | mk d =>
                rw [hs] at this
                rw [← this]
  · -- deep
    intro m K2 kids ih pre2 i hok
    rw [childOkR] at hok
    simp only [Bool.and_eq_true] at hok
    obtain ⟨⟨⟨hK2, hany⟩, hnddec⟩, hkidsok⟩ := hok
    rw [show (childEntryR i (ChildR.deep m K2 kids)).2
      = Sexp.parserNode (some (.ks K2)) (entriesOfR kids 0)
          (idxAfterR kids 0) [] from rfl]
    rw [show exportStr fr (Sexp.parserNode (some (.ks K2)) (entriesOfR kids 0)
          (idxAfterR kids 0) []) pre2 ind
      = "\n" ++ pre2 ++ "(" ++ K2 ++
          exportEntries fr (entriesOfR kids 0) (pre2 ++ ind) ind ++ ")" from rfl]
    rw [show childCharsR ind pre2 (ChildR.deep m K2 kids)
      = '\n' :: (pre2.data ++ ('(' :: (K2.data ++
          (bodyCharsR ind (pre2 ++ ind) kids ++ [')'])))) from rfl]
    simp [String.data_append]
    rw [ih (pre2 ++ ind) 0 hkidsok]
  · -- nil
    intro pre2 i hok
    rfl
  · -- cons
    intro c rest ih1 ih2 pre2 i hok
    rw [childrenOkR] at hok
    simp only [Bool.and_eq_true] at hok
    obtain ⟨hokc, hokrest⟩ := hok
    rw [show entriesOfR (c :: rest) i
      = childEntryR i c :: entriesOfR rest (nextIdxR c i) from rfl]
    rw [show exportEntries fr (childEntryR i c :: entriesOfR rest (nextIdxR c i))
          pre2 ind
      = exportStr fr (childEntryR i c).2 pre2 ind ++
          exportEntries fr (entriesOfR rest (nextIdxR c i)) pre2 ind from rfl]
    rw [String.data_append, ih1 pre2 i hokc, ih2 pre2 (nextIdxR c i) hokrest]
    rw [show bodyCharsR ind pre2 (c :: rest)
      = childCharsR ind pre2 c ++ bodyCharsR ind pre2 rest from rfl]

/-- Exporting the whole composite node renders the recursive body. -/
theorem export_charR (fr : String → String) (ind : String) (K : String)
    (cs : List ChildR) (idx2 : Nat) (errsX : List SErr)
    (hok : childrenOkR fr cs = true) :
    (exportStr fr (.parserNode (some (.ks K)) (entriesOfR cs 0) idx2 errsX)
        "" ind).data =
      '\n' :: '(' :: (K.data ++ (bodyCharsR ind ind cs ++ [')'])) := by
  rw [show exportStr fr
      (.parserNode (some (.ks K)) (entriesOfR cs 0) idx2 errsX) "" ind
    = "\n" ++ "" ++ "(" ++ K ++
        exportEntries fr (entriesOfR cs 0) ("" ++ ind) ind ++ ")" from rfl]
  simp [String.data_append]
  rw [(exportEntries_charR fr ind).2 cs ind 0 hok]


/-- The joined rendering of a child contains no line break, at any
depth, provided the indent and the line prefix do not. -/
theorem childCharsRJ_noLB (ind : String)
    (hindLB : ind.data.all (fun c => !lineBreakChar c) = true)
    (fr : String → String) :
    (∀ (c : ChildR) (pre2 : String),
      pre2.data.all (fun c => !lineBreakChar c) = true →
      childOkR fr c = true →
      (childCharsRJ ind pre2 c).all (fun c => !lineBreakChar c) = true) ∧
    (∀ (cs : List ChildR) (pre2 : String),
      pre2.data.all (fun c => !lineBreakChar c) = true →
      childrenOkR fr cs = true →
      (bodyCharsRJ ind pre2 cs).all (fun c => !lineBreakChar c) = true) := by
  refine childTokR.mutual_induct
    (fun c => ∀ (pre2 : String),
      pre2.data.all (fun c => !lineBreakChar c) = true →
      childOkR fr c = true →
      (childCharsRJ ind pre2 c).all (fun c => !lineBreakChar c) = true)
    (fun cs => ∀ (pre2 : String),
      pre2.data.all (fun c => !lineBreakChar c) = true →
      childrenOkR fr cs = true →
      (bodyCharsRJ ind pre2 cs).all (fun c => !lineBreakChar c) = true)
    ?_ ?_ ?_ ?_ ?_
  · intro a pre2 hpre hok
    simp only [childOkR, Bool.and_eq_true, beq_iff_eq] at hok
    rw [show childCharsRJ ind pre2 (.scalar a) = ' ' :: a.data from rfl]
    simp only [List.all_cons, Bool.and_eq_true]
    exact ⟨by decide, atomOk_noLB hok.1⟩
  · intro m K2 vals pre2 hpre hok
    rw [childOkR] at hok
    simp only [Bool.and_eq_true] at hok
    obtain ⟨⟨hK2, hneB⟩, hvalsB⟩ := hok
    rw [show childCharsRJ ind pre2 (.flat m K2 vals)
      = pre2.data ++ ('(' :: (K2.data ++ (valsChars vals ++ [')']))) from rfl]
    simp only [List.all_append, List.all_cons, Bool.and_eq_true]
    exact ⟨hpre, by decide, atomOk_noLB hK2,
      valsChars_noLB vals (valsOkR_safe fr vals hvalsB), by decide⟩
  · intro m K2 kids ih pre2 hpre hok
    rw [childOkR] at hok
    simp only [Bool.and_eq_true] at hok
    obtain ⟨⟨⟨hK2, hany⟩, hnddec⟩, hkidsok⟩ := hok
    have hpre2 : (pre2 ++ ind).data.all (fun c => !lineBreakChar c) = true := by
      rw [String.data_append]
      simp only [List.all_append, Bool.and_eq_true]
      exact ⟨hpre, hindLB⟩
    rw [show childCharsRJ ind pre2 (.deep m K2 kids)
      = pre2.data ++ ('(' :: (K2.data ++
          (bodyCharsRJ ind (pre2 ++ ind) kids ++ [')']))) from rfl]
    simp only [List.all_append, List.all_cons, Bool.and_eq_true]
    exact ⟨hpre, by decide, atomOk_noLB hK2, ih (pre2 ++ ind) hpre2 hkidsok,
      by decide⟩
  · intro pre2 hpre hok
    rfl
  · intro c rest ih1 ih2 pre2 hpre hok
    rw [childrenOkR] at hok
    simp only [Bool.and_eq_true] at hok
    rw [show bodyCharsRJ ind pre2 (c :: rest)
      = childCharsRJ ind pre2 c ++ bodyCharsRJ ind pre2 rest from rfl]
    simp only [List.all_append, Bool.and_eq_true]
    exact ⟨ih1 pre2 hpre hok.1, ih2 pre2 hpre hok.2⟩

/-- Dropping the line breaks from the export body leaves the joined
rendering, at any depth. -/
theorem bodyCharsR_filter (ind : String)
    (hindLB : ind.data.all (fun c => !lineBreakChar c) = true)
    (fr : String → String) :
    (∀ (c : ChildR) (pre2 : String),
      pre2.data.all (fun c => !lineBreakChar c) = true →
      childOkR fr c = true →
      (childCharsR ind pre2 c).filter (fun c => !lineBreakChar c) =
        childCharsRJ ind pre2 c) ∧
    (∀ (cs : List ChildR) (pre2 : String),
      pre2.data.all (fun c => !lineBreakChar c) = true →
      childrenOkR fr cs = true →
      (bodyCharsR ind pre2 cs).filter (fun c => !lineBreakChar c) =
        bodyCharsRJ ind pre2 cs) := by
  refine childTokR.mutual_induct
    (fun c => ∀ (pre2 : String),
      pre2.data.all (fun c => !lineBreakChar c) = true →
      childOkR fr c = true →
      (childCharsR ind pre2 c).filter (fun c => !lineBreakChar c) =
        childCharsRJ ind pre2 c)
    (fun cs => ∀ (pre2 : String),
      pre2.data.all (fun c => !lineBreakChar c) = true →
      childrenOkR fr cs = true →
      (bodyCharsR ind pre2 cs).filter (fun c => !lineBreakChar c) =
        bodyCharsRJ ind pre2 cs)
    ?_ ?_ ?_ ?_ ?_
  · intro a pre2 hpre hok
    rw [show childCharsR ind pre2 (.scalar a)
      = childCharsRJ ind pre2 (.scalar a) from rfl]
    exact filter_of_all _ _
      ((childCharsRJ_noLB ind hindLB fr).1 (.scalar a) pre2 hpre hok)
  · intro m K2 vals pre2 hpre hok
    rw [show childCharsR ind pre2 (.flat m K2 vals)
      = '\n' :: childCharsRJ ind pre2 (.flat m K2 vals) from rfl]
    rw [List.filter_cons, if_neg (by decide)]
    exact filter_of_all _ _
      ((childCharsRJ_noLB ind hindLB fr).1 (.flat m K2 vals) pre2 hpre hok)
  · intro m K2 kids ih pre2 hpre hok
    rw [childOkR] at hok
    simp only [Bool.and_eq_true] at hok
    obtain ⟨⟨⟨hK2, hany⟩, hnddec⟩, hkidsok⟩ := hok
    have hpre2 : (pre2 ++ ind).data.all (fun c => !lineBreakChar c) = true := by
      rw [String.data_append]
      simp only [List.all_append, Bool.and_eq_true]
      exact ⟨hpre, hindLB⟩
    rw [show childCharsR ind pre2 (.deep m K2 kids)
      = '\n' :: (pre2.data ++ ('(' :: (K2.data ++
          (bodyCharsR ind (pre2 ++ ind) kids ++ [')'])))) from rfl]
    rw [show childCharsRJ ind pre2 (.deep m K2 kids)
      = pre2.data ++ ('(' :: (K2.data ++
          (bodyCharsRJ ind (pre2 ++ ind) kids ++ [')']))) from rfl]
    rw [List.filter_cons, if_neg (by decide)]
    rw [List.filter_append, filter_of_all _ _ hpre]
    congr 1
    rw [List.filter_cons, if_pos (by decide)]
    congr 1
    rw [List.filter_append, filter_of_all _ _ (atomOk_noLB hK2)]
    congr 1
    rw [List.filter_append, ih (pre2 ++ ind) hpre2 hkidsok]
    rfl
  · intro pre2 hpre hok
    rfl
  · intro c rest ih1 ih2 pre2 hpre hok
    rw [childrenOkR] at hok
    simp only [Bool.and_eq_true] at hok
    rw [show bodyCharsR ind pre2 (c :: rest)
      = childCharsR ind pre2 c ++ bodyCharsR ind pre2 rest from rfl]
    rw [show bodyCharsRJ ind pre2 (c :: rest)
      = childCharsRJ ind pre2 c ++ bodyCharsRJ ind pre2 rest from rfl]
    rw [List.filter_append, ih1 pre2 hpre hok.1, ih2 pre2 hpre hok.2]

/-- The export body never contains a carriage return, at any depth. -/
theorem bodyCharsR_noCR (ind : String)
    (hindLB : ind.data.all (fun c => !lineBreakChar c) = true)
    (fr : String → String) :
    (∀ (c : ChildR) (pre2 : String),
      pre2.data.all (fun c => !lineBreakChar c) = true →
      childOkR fr c = true →
      (childCharsR ind pre2 c).all (fun c => !(c == '\r')) = true) ∧
    (∀ (cs : List ChildR) (pre2 : String),
      pre2.data.all (fun c => !lineBreakChar c) = true →
      childrenOkR fr cs = true →
      (bodyCharsR ind pre2 cs).all (fun c => !(c == '\r')) = true) := by
  refine childTokR.mutual_induct
    (fun c => ∀ (pre2 : String),
      pre2.data.all (fun c => !lineBreakChar c) = true →
      childOkR fr c = true →
      (childCharsR ind pre2 c).all (fun c => !(c == '\r')) = true)
    (fun cs => ∀ (pre2 : String),
      pre2.data.all (fun c => !lineBreakChar c) = true →
      childrenOkR fr cs = true →
      (bodyCharsR ind pre2 cs).all (fun c => !(c == '\r')) = true)
    ?_ ?_ ?_ ?_ ?_
  · intro a pre2 hpre hok
    rw [show childCharsR ind pre2 (.scalar a)
      = childCharsRJ ind pre2 (.scalar a) from rfl]
    exact noLB_imp_noCR _
      ((childCharsRJ_noLB ind hindLB fr).1 (.scalar a) pre2 hpre hok)
  · intro m K2 vals pre2 hpre hok
    rw [show childCharsR ind pre2 (.flat m K2 vals)
      = '\n' :: childCharsRJ ind pre2 (.flat m K2 vals) from rfl]
    simp only [List.all_cons, Bool.and_eq_true]
    exact ⟨by decide, noLB_imp_noCR _
      ((childCharsRJ_noLB ind hindLB fr).1 (.flat m K2 vals) pre2 hpre hok)⟩
  · intro m K2 kids ih pre2 hpre hok
    rw [childOkR] at hok
    simp only [Bool.and_eq_true] at hok
    obtain ⟨⟨⟨hK2, hany⟩, hnddec⟩, hkidsok⟩ := hok
    have hpre2 : (pre2 ++ ind).data.all (fun c => !lineBreakChar c) = true := by
      rw [String.data_append]
      simp only [List.all_append, Bool.and_eq_true]
      exact ⟨hpre, hindLB⟩
    rw [show childCharsR ind pre2 (.deep m K2 kids)
      = '\n' :: (pre2.data ++ ('(' :: (K2.data ++
          (bodyCharsR ind (pre2 ++ ind) kids ++ [')'])))) from rfl]
    simp only [List.all_cons, List.all_append, Bool.and_eq_true]
    exact ⟨by decide, noLB_imp_noCR _ hpre, by decide,
      noLB_imp_noCR _ (atomOk_noLB hK2), ih (pre2 ++ ind) hpre2 hkidsok,
      by decide⟩
  · intro pre2 hpre hok
    rfl
  · intro c rest ih1 ih2 pre2 hpre hok
    rw [childrenOkR] at hok
    simp only [Bool.and_eq_true] at hok
    rw [show bodyCharsR ind pre2 (c :: rest)
      = childCharsR ind pre2 c ++ bodyCharsR ind pre2 rest from rfl]
    simp only [List.all_append, Bool.and_eq_true]
    exact ⟨ih1 pre2 hpre hok.1, ih2 pre2 hpre hok.2⟩


theorem headStop_bodyR (ind pre2 : String)
    (hpre : pre2.data.all pyWsChar = true)
    (cs : List ChildR) (r : List Char) :
    headStop (bodyCharsRJ ind pre2 cs ++ ')' :: r) := by
  cases cs with
  | nil =>
      rw [show bodyCharsRJ ind pre2 [] = [] from rfl]
      exact (by decide : stopChar ')' = true)
  | cons c rest =>
      rw [show bodyCharsRJ ind pre2 (c :: rest)
        = childCharsRJ ind pre2 c ++ bodyCharsRJ ind pre2 rest from rfl]
      cases c with
      | scalar a =>
          rw [show childCharsRJ ind pre2 (.scalar a) = ' ' :: a.data from rfl]
          exact (by decide : stopChar ' ' = true)
      | flat m K2 vals =>
          rw [show childCharsRJ ind pre2 (.flat m K2 vals)
            = pre2.data ++ ('(' :: (K2.data ++ (valsChars vals ++ [')'])))
            from rfl]
          cases hie : pre2.data with
          | nil =>
              simp [hie, headStop]
              decide
          | cons c0 ir =>
              have hok := List.all_eq_true.mp hpre c0 (by rw [hie]; simp)
              simp [hie, headStop]
              exact ws_stop hok
      | deep m K2 kids =>
          rw [show childCharsRJ ind pre2 (.deep m K2 kids)
            = pre2.data ++ ('(' :: (K2.data ++
                (bodyCharsRJ ind (pre2 ++ ind) kids ++ [')']))) from rfl]
          cases hie : pre2.data with
          | nil =>
              simp [hie, headStop]
              decide
          | cons c0 ir =>
              have hok := List.all_eq_true.mp hpre c0 (by rw [hie]; simp)
              simp [hie, headStop]
              exact ws_stop hok

/-- Re-scanning the joined rendering recovers the child tokens, at
every depth. -/
theorem scan_bodyR (ind : String) (hind : ind.data.all pyWsChar = true)
    (fr : String → String) :
    (∀ (c : ChildR) (pre2 : String), pre2.data.all pyWsChar = true →
      childOkR fr c = true → ∀ (r : List Char), headStop r →
      scanT (childCharsRJ ind pre2 c ++ r) = childToksR c ++ scanT r) ∧
    (∀ (cs : List ChildR) (pre2 : String), pre2.data.all pyWsChar = true →
      childrenOkR fr cs = true → ∀ (r : List Char),
      scanT (bodyCharsRJ ind pre2 cs ++ ')' :: r) =
        childToksAllR cs ++ .rp :: scanT r) := by
  refine childTokR.mutual_induct
    (fun c => ∀ (pre2 : String), pre2.data.all pyWsChar = true →
      childOkR fr c = true → ∀ (r : List Char), headStop r →
      scanT (childCharsRJ ind pre2 c ++ r) = childToksR c ++ scanT r)
    (fun cs => ∀ (pre2 : String), pre2.data.all pyWsChar = true →
      childrenOkR fr cs = true → ∀ (r : List Char),
      scanT (bodyCharsRJ ind pre2 cs ++ ')' :: r) =
        childToksAllR cs ++ .rp :: scanT r)
    ?_ ?_ ?_ ?_ ?_
  · intro a pre2 hpre hok r hr
    simp only [childOkR, Bool.and_eq_true, beq_iff_eq] at hok
    rw [show childCharsRJ ind pre2 (.scalar a) = ' ' :: a.data from rfl]
    rw [show (' ' :: a.data) ++ r = [' '] ++ (a.data ++ r) from by simp]
    rw [scanT_ws_append [' '] _ (by decide)]
    rw [scan_atomOk hok.1 r hr, string_mk_data]
    rfl
  · intro m K2 vals pre2 hpre hok r hr
    rw [childOkR] at hok
    simp only [Bool.and_eq_true] at hok
    obtain ⟨⟨hK2, hneB⟩, hvalsB⟩ := hok
    rw [show childCharsRJ ind pre2 (.flat m K2 vals)
      = pre2.data ++ ('(' :: (K2.data ++ (valsChars vals ++ [')']))) from rfl]
    rw [show (pre2.data ++ ('(' :: (K2.data ++ (valsChars vals ++ [')'])))) ++ r
      = pre2.data ++ ('(' :: (K2.data ++ (valsChars vals ++ ')' :: r)))
      from by simp]
    rw [scanT_ws_append pre2.data _ hpre]
    rw [scanT_lp]
    have hstop : headStop (valsChars vals ++ ')' :: r) := by
      cases vals with
      | nil => simp at hneB
      | cons a rest2 =>
          rw [valsChars]
          exact (by decide : stopChar ' ' = true)
    rw [scan_atomOk hK2 _ hstop, string_mk_data]
    rw [scan_vals vals (valsOkR_safe fr vals hvalsB) r]
    rw [show childToksR (.flat m K2 vals)
      = .lp :: .at' K2 :: (vals.map Scanned.at' ++ [.rp]) from rfl]
    simp
  · intro m K2 kids ih pre2 hpre hok r hr
    rw [childOkR] at hok
    simp only [Bool.and_eq_true] at hok
    obtain ⟨⟨⟨hK2, hany⟩, hnddec⟩, hkidsok⟩ := hok
    have hpre2 : (pre2 ++ ind).data.all pyWsChar = true := by
      rw [String.data_append]
      simp only [List.all_append, Bool.and_eq_true]
      exact ⟨hpre, hind⟩
    rw [show childCharsRJ ind pre2 (.deep m K2 kids)
      = pre2.data ++ ('(' :: (K2.data ++
          (bodyCharsRJ ind (pre2 ++ ind) kids ++ [')']))) from rfl]
    rw [show (pre2.data ++ ('(' :: (K2.data ++
          (bodyCharsRJ ind (pre2 ++ ind) kids ++ [')'])))) ++ r
      = pre2.data ++ ('(' :: (K2.data ++
          (bodyCharsRJ ind (pre2 ++ ind) kids ++ ')' :: r))) from by simp]
    rw [scanT_ws_append pre2.data _ hpre]
    rw [scanT_lp]
    rw [scan_atomOk hK2 _ (headStop_bodyR ind (pre2 ++ ind) hpre2 kids r)]
    rw [string_mk_data]
    rw [ih (pre2 ++ ind) hpre2 hkidsok r]
    rw [show childToksR (.deep m K2 kids)
      = .lp :: .at' K2 :: (childToksAllR kids ++ [.rp]) from rfl]
    simp
  · intro pre2 hpre hok r
    rw [show bodyCharsRJ ind pre2 [] = [] from rfl, List.nil_append, scanT_rp]
    rfl
  · intro c rest ih1 ih2 pre2 hpre hok r
    rw [childrenOkR] at hok
    simp only [Bool.and_eq_true] at hok
    rw [show bodyCharsRJ ind pre2 (c :: rest)
      = childCharsRJ ind pre2 c ++ bodyCharsRJ ind pre2 rest from rfl]
    rw [show (childCharsRJ ind pre2 c ++ bodyCharsRJ ind pre2 rest) ++ ')' :: r
      = childCharsRJ ind pre2 c ++ (bodyCharsRJ ind pre2 rest ++ ')' :: r)
      from by simp]
    rw [ih1 pre2 hpre hok.1 _ (headStop_bodyR ind pre2 hpre rest r)]
    rw [ih2 pre2 hpre hok.2 r]
    rw [show childToksAllR (c :: rest)
      = childToksR c ++ childToksAllR rest from rfl]
    simp

/-- Re-scanning the whole joined export recovers the top tokens. -/
theorem scan_topR (ind : String) (hind : ind.data.all pyWsChar = true)
    (fr : String → String) (K : String) (hK : atomOkB K.data = true)
    (cs : List ChildR) (hok : childrenOkR fr cs = true) :
    scanT ('(' :: (K.data ++ (bodyCharsRJ ind ind cs ++ [')']))) =
      .lp :: .at' K :: (childToksAllR cs ++ [.rp]) := by
  rw [scanT_lp]
  have hstop : headStop (bodyCharsRJ ind ind cs ++ [')']) := by
    have := headStop_bodyR ind ind hind cs []
    simpa using this
  rw [show bodyCharsRJ ind ind cs ++ [')']
    = bodyCharsRJ ind ind cs ++ ')' :: [] from rfl]
  rw [scan_atomOk hK _ hstop, string_mk_data]
  rw [(scan_bodyR ind hind fr).2 cs ind hind hok []]
  rw [scanT_nil]


/-- The stack machine consumes one rendered child — at any depth —
by appending its rebuilt token. -/
theorem buildC_childR :
    (∀ (c : ChildR) (rest : List Scanned) (stack : List (List Tok))
      (out : List Tok), out ≠ [] →
      buildC (childToksR c ++ rest) stack out =
        buildC rest stack (out ++ [childBuiltR c])) ∧
    (∀ (cs : List ChildR) (rest : List Scanned) (stack : List (List Tok))
      (out : List Tok), out ≠ [] →
      buildC (childToksAllR cs ++ rest) stack out =
        buildC rest stack (out ++ builtAllR cs)) := by
  refine childTokR.mutual_induct
    (fun c => ∀ (rest : List Scanned) (stack : List (List Tok))
      (out : List Tok), out ≠ [] →
      buildC (childToksR c ++ rest) stack out =
        buildC rest stack (out ++ [childBuiltR c]))
    (fun cs => ∀ (rest : List Scanned) (stack : List (List Tok))
      (out : List Tok), out ≠ [] →
      buildC (childToksAllR cs ++ rest) stack out =
        buildC rest stack (out ++ builtAllR cs))
    ?_ ?_ ?_ ?_ ?_
  · intro a rest stack out h
    rw [show childToksR (.scalar a) = [Scanned.at' a] from rfl]
    rw [show ([Scanned.at' a] : List Scanned) ++ rest
      = Scanned.at' a :: rest from rfl]
    rw [buildC, if_neg (by simpa using h)]
    rfl
  · intro m K2 vals rest stack out h
    rw [show childToksR (.flat m K2 vals)
      = Scanned.lp :: Scanned.at' K2 :: (vals.map Scanned.at' ++ [Scanned.rp])
      from rfl]
    rw [List.cons_append, List.cons_append, buildC, buildC]
    rw [if_pos (by simp)]
    rw [List.append_assoc, List.singleton_append]
    rw [buildC_atoms vals (Scanned.rp :: rest) (out :: stack)
      [Tok.num 0, Tok.atom K2] (by simp)]
    rw [buildC]
    rw [show childBuiltR (.flat m K2 vals)
      = Tok.list (Tok.num 0 :: Tok.atom K2 :: vals.map Tok.atom) from rfl]
    rfl
  · intro m K2 kids ih rest stack out h
    rw [show childToksR (.deep m K2 kids)
      = Scanned.lp :: Scanned.at' K2 :: (childToksAllR kids ++ [Scanned.rp])
      from rfl]
    rw [List.cons_append, List.cons_append, buildC, buildC]
    rw [if_pos (by simp)]
    rw [List.append_assoc, List.singleton_append]
    rw [ih (Scanned.rp :: rest) (out :: stack)
      [Tok.num 0, Tok.atom K2] (by simp)]
    rw [buildC]
    rw [show childBuiltR (.deep m K2 kids)
      = Tok.list (Tok.num 0 :: Tok.atom K2 :: builtAllR kids) from rfl]
    rfl
  · intro rest stack out h
    rw [show childToksAllR [] = [] from rfl]
    rw [show builtAllR [] = [] from rfl]
    simp
  · intro c rest0 ih1 ih2 rest stack out h
    rw [show childToksAllR (c :: rest0)
      = childToksR c ++ childToksAllR rest0 from rfl]
    rw [List.append_assoc]
    rw [ih1 (childToksAllR rest0 ++ rest) stack out h]
    rw [ih2 rest stack (out ++ [childBuiltR c]) (by simp)]
    rw [show builtAllR (c :: rest0)
      = childBuiltR c :: builtAllR rest0 from rfl]
    simp

/-- Rebuilding the scanned export recovers the zero-line-number tree. -/
theorem buildC_topR (cs : List ChildR) (K : String) :
    buildC (.lp :: .at' K :: (childToksAllR cs ++ [.rp])) [] [] =
      .ok (.list (.num 0 :: .atom K :: builtAllR cs)) := by
  have h1 : buildC (.lp :: .at' K :: (childToksAllR cs ++ [.rp])) [] []
      = buildC (childToksAllR cs ++ [Scanned.rp]) [[]] [Tok.num 0, Tok.atom K] :=
    rfl
  rw [h1]
  rw [buildC_childR.2 cs [Scanned.rp] [[]] [Tok.num 0, Tok.atom K] (by simp)]
  have h2 : buildC [Scanned.rp] [[]] ([Tok.num 0, Tok.atom K] ++ builtAllR cs)
      = .ok (.list ([Tok.num 0, Tok.atom K] ++ builtAllR cs)) := rfl
  rw [h2]
  simp


/-- C6 (amended): for a composite expression whose children — at
every depth — are scalar atoms or keyed non-empty sub-lists (each
sub-list either holding only scalar values or holding at least one
further sub-list, in which case it is re-parsed as a nested parser),
with pairwise distinct sibling keys at every level, all of whose atoms
are scan-safe and render back to the same bytes under the generic
value coercion, building with only the fallback and exporting
reproduces an equivalent S-expression when re-tokenized: the same tree
with the same key order and the same atoms byte-for-byte, the
line-number elements recomputed (here compared with every line number
normalized to 0). -/
theorem C6_roundtrip (fr : String → String) (ind : String)
    (hind : ind.data.all (fun c => pyWsChar c && !lineBreakChar c) = true)
    (n : Nat) (K : String) (hK : atomOkB K.data = true)
    (cs : List ChildR) (hok : childrenOkR fr cs = true)
    (hnd : (childKeysR cs).Nodup) :
    ∃ node t2,
      sexpInit emptyTable (Tok.num n :: Tok.atom K :: childTokRs cs) =
        .ok node ∧
      parseSexpM (exportStr fr node "" ind) = .ok t2 ∧
      normNum t2 = normNum (.list (Tok.num n :: Tok.atom K :: childTokRs cs)) := by
  have hindWS : ind.data.all pyWsChar = true := by
    refine List.all_eq_true.mpr ?_
    intro x hx
    have := List.all_eq_true.mp hind x hx
    simp at this
    exact this.1
  have hindLB : ind.data.all (fun c => !lineBreakChar c) = true := by
    refine List.all_eq_true.mpr ?_
    intro x hx
    have := List.all_eq_true.mp hind x hx
    simp at this
    simp [this.2]
  have hdata : (exportStr fr (.parserNode (some (.ks K)) (entriesOfR cs 0)
        (idxAfterR cs 0) []) "" ind).data =
      '\n' :: '(' :: (K.data ++ (bodyCharsR ind ind cs ++ [')'])) :=
    export_charR fr ind K cs _ _ hok
  have hnoCR : (exportStr fr (.parserNode (some (.ks K)) (entriesOfR cs 0)
        (idxAfterR cs 0) []) "" ind).data.all (fun c => !(c == '\r')) = true := by
    rw [hdata]
    simp only [List.all_cons, List.all_append, Bool.and_eq_true]
    exact ⟨by decide, by decide, noLB_imp_noCR _ (atomOk_noLB hK),
      (bodyCharsR_noCR ind hindLB fr).2 cs ind hindLB hok, by decide⟩
  have hflat : (pySplitChars (exportStr fr (.parserNode (some (.ks K))
        (entriesOfR cs 0) (idxAfterR cs 0) []) "" ind).data).flatten =
      '(' :: (K.data ++ (bodyCharsRJ ind ind cs ++ [')'])) := by
    rw [pySplitChars_flatten _ hnoCR, hdata]
    rw [List.filter_cons, if_neg (by decide), List.filter_cons, if_pos (by decide)]
    rw [List.filter_append, List.filter_append]
    rw [filter_of_all _ _ (atomOk_noLB hK)]
    rw [(bodyCharsR_filter ind hindLB fr).2 cs ind hindLB hok]
    rw [show List.filter (fun c => !lineBreakChar c) [')'] = [')'] from by decide]
  have hnorm : Except.map normNum (parseSexpM (exportStr fr
        (.parserNode (some (.ks K)) (entriesOfR cs 0) (idxAfterR cs 0) [])
        "" ind)) =
      .ok (normNum (.list (Tok.num 0 :: Tok.atom K :: builtAllR cs))) := by
    rw [parseSexpM, parseSexpLines]
    rw [buildT_buildC_norm _ _ [] [] [] [] rfl rfl]
    rw [scanOff_map_snd]
    rw [hflat]
    rw [scan_topR ind hindWS fr K hK cs hok]
    rw [buildC_topR cs K]
    rfl
  cases ht2 : parseSexpM (exportStr fr (.parserNode (some (.ks K))
      (entriesOfR cs 0) (idxAfterR cs 0) []) "" ind) with
  | error e =>
      rw [ht2] at hnorm
      simp [Except.map] at hnorm
  | ok t2 =>
      rw [ht2] at hnorm
      simp [Except.map] at hnorm
      refine ⟨.parserNode (some (.ks K)) (entriesOfR cs 0) (idxAfterR cs 0) [],
        t2, sexpInit_charR fr n K cs hok hnd, ht2, ?_⟩
      rw [hnorm]
      have hL : normNum (.list (Tok.num 0 :: Tok.atom K :: builtAllR cs))
          = .list (Tok.num 0 :: Tok.atom K :: normNums (builtAllR cs)) := rfl
      have hR : normNum (.list (Tok.num n :: Tok.atom K :: childTokRs cs))
          = .list (Tok.num 0 :: Tok.atom K :: normNums (childTokRs cs)) := rfl
      rw [hL, hR, normChildR.2]

theorem C6_roundtrip_witness :
    ∃ node t2,
      sexpInit emptyTable (Tok.num 7 :: Tok.atom "a" ::
          childTokRs [ChildR.scalar "x",
            ChildR.deep 3 "b" [ChildR.scalar "1", ChildR.flat 5 "c" ["y"]]]) =
        .ok node ∧
      parseSexpM (exportStr (fun s => s) node "" "  ") = .ok t2 ∧
      normNum t2 = normNum (.list (Tok.num 7 :: Tok.atom "a" ::
          childTokRs [ChildR.scalar "x",
            ChildR.deep 3 "b" [ChildR.scalar "1", ChildR.flat 5 "c" ["y"]]])) :=
  C6_roundtrip (fun s => s) "  " (by decide) 7 "a" (by decide)
    [ChildR.scalar "x",
      ChildR.deep 3 "b" [ChildR.scalar "1", ChildR.flat 5 "c" ["y"]]]
    (by decide) (by decide)


end SP
